import Mathlib

/-!
Verification of the caveql query-language parser.

The development shallowly embeds the parser: `parseBareSearch` and
`parseSearchCommand` are translated from
`src/parser/command/parseSearchCommand.ts`; the tokenizer, the expression
engine and the command dispatcher are modelled from the specification
(sections 4.1-4.4), with the repository's test suite
(`src/parser/parser.test.ts`) pinning the concrete behaviour.
-/

namespace Caveql

/-- Comparison operator tags, mirroring the source AST tags
`"="`, `"<"`, `">"`, `"<="`, `">="`. -/
inductive CompOp where
  | ceq
  | clt
  | cgt
  | cle
  | cge
deriving DecidableEq, Repr

/-- Expression AST, mirroring `ExpressionAST` from the source: string
literals carry a `quoted` flag, number literals hold an arbitrary-precision
integer (`bigint` in the source, `Int` here), comparisons carry an operator
tag, and each logical operator exists in two casing variants that are
structurally distinct tags (`AND` vs `andL` for the source tags
`"AND"`/`"and"`, and likewise for or/not). -/
inductive ExpressionAST where
  | str (quoted : Bool) (value : String)
  | num (value : Int)
  | cmp (op : CompOp) (left right : ExpressionAST)
  | AND (left right : ExpressionAST)
  | OR (left right : ExpressionAST)
  | NOT (operand : ExpressionAST)
  | andL (left right : ExpressionAST)
  | orL (left right : ExpressionAST)
  | notL (operand : ExpressionAST)
deriving DecidableEq, Repr

/-- Aggregation descriptors are opaque to this core (spec section 3); only
the empty aggregation list is evidenced. -/
abbrev AggregationAST := Unit

/-- Command AST: one of search, where, stats, eval (spec section 3). -/
inductive CommandAST where
  | search (filters : List ExpressionAST)
  | whereC (expr : ExpressionAST)
  | stats (aggregations : List AggregationAST)
  | eval (bindings : List (String × ExpressionAST))
deriving DecidableEq, Repr

/-- Search command node, mirroring `SearchCommandAST` from
`parseSearchCommand.ts` (the `type: "search"` tag is the Lean type itself). -/
structure SearchCommandAST where
  filters : List ExpressionAST
deriving DecidableEq, Repr

/-- Query root node: an ordered pipeline of commands (spec section 3). -/
structure QueryAST where
  pipeline : List CommandAST
deriving DecidableEq, Repr

/-- Parse context (spec section 4.2): a cursor over the input (modelled as
the remaining character list) plus the contextual boolean flag
`compareExpr` recording whether the parser is inside a search
filter-term list. -/
structure ParseContext where
  rest : List Char
  compareExpr : Bool
deriving DecidableEq, Repr

/-- Modelled from the spec: whitespace characters skipped between tokens. -/
def isWsChar (c : Char) : Bool :=
  c = ' ' || c = '\t' || c = '\n' || c = '\r'

/-- Modelled from the spec (section 4.1): the restricted bare-string
character class — alphanumerics plus a small set of symbol characters
(`-`, `$`, `_`) that excludes the syntactic delimiters. -/
def isBareChar (c : Char) : Bool :=
  c.isAlphanum || c = '-' || c = '$' || c = '_'

/-- Modelled from the spec: drop leading whitespace. -/
def skipWs : List Char → List Char
  | [] => []
  | c :: cs => if isWsChar c then skipWs cs else c :: cs

/-- Modelled from the spec: `parseWs` from `parseCommon` — consume any
whitespace at the cursor (never fails). -/
def parseWs (ctx : ParseContext) : ParseContext :=
  { ctx with rest := skipWs ctx.rest }

/-- Modelled from the spec: consume an exact word. Returns the remaining
characters when `w` is a literal first segment of `cs`, else `none`. -/
def dropWord : List Char → List Char → Option (List Char)
  | [], cs => some cs
  | _ :: _, [] => none
  | k :: ks, c :: cs => if c = k then dropWord ks cs else none

/-- Modelled from the spec: token-level matching of a keyword — the exact
characters of `w` followed by a word boundary (end of input or a character
outside the bare-string class). -/
def matchWord (w : List Char) (cs : List Char) : Option (List Char) :=
  match dropWord w cs with
  | none => none
  | some rest =>
    match rest with
    | [] => some []
    | c :: _ => if isBareChar c then none else some rest

/-- Modelled from the spec (section 4.1): take characters of a quoted
string up to the closing delimiter; fails on unterminated strings. -/
def takeUntilChar (delim : Char) : List Char → Option (List Char × List Char)
  | [] => none
  | c :: cs =>
    if c = delim then some ([], cs)
    else
      match takeUntilChar delim cs with
      | none => none
      | some (body, rest) => some (c :: body, rest)

/-- Modelled from the spec (section 4.1): lex a quoted string with either
single or double delimiters; the contents are extracted without the
delimiters and without escape processing. -/
def lexQuoted (cs : List Char) : Option (String × List Char) :=
  match cs with
  | '"' :: cs' =>
    match takeUntilChar '"' cs' with
    | none => none
    | some (body, rest) => some (⟨body⟩, rest)
  | '\'' :: cs' =>
    match takeUntilChar '\'' cs' with
    | none => none
    | some (body, rest) => some (⟨body⟩, rest)
  | _ => none

/-- Modelled from the spec: split off the longest leading run of decimal
digits. -/
def takeDigits : List Char → List Char × List Char
  | [] => ([], [])
  | c :: cs =>
    if c.isDigit then
      let (ds, rest) := takeDigits cs
      (c :: ds, rest)
    else ([], c :: cs)

/-- Modelled from the spec: Horner-scheme value of a digit run. -/
def digitsVal : List Char → Nat :=
  List.foldl (fun a c => 10 * a + (c.toNat - 48)) 0

/-- Modelled from the spec (section 4.1): lex a decimal digit run as an
arbitrary-precision integer (`Int`, mirroring the source's `bigint`). -/
def lexNumber (cs : List Char) : Option (Int × List Char) :=
  match takeDigits cs with
  | ([], _) => none
  | (d :: ds, rest) => some ((digitsVal (d :: ds) : Nat), rest)

/-- Positional (most-significant-first) value of a decimal digit string.
This is the claim-side notion of the exact integer a digit run denotes,
against which the Horner-scheme lexer value is compared. -/
def decimalValue : List Char → Nat
  | [] => 0
  | c :: cs => (c.toNat - 48) * 10 ^ cs.length + decimalValue cs

/-- Modelled from the spec: split off the longest leading run of
bare-string characters. -/
def takeBare : List Char → List Char × List Char
  | [] => ([], [])
  | c :: cs =>
    if isBareChar c then
      let (bs, rest) := takeBare cs
      (c :: bs, rest)
    else ([], c :: cs)

/-- Modelled from the spec (section 4.1): lex a nonempty bare string. -/
def lexBare (cs : List Char) : Option (String × List Char) :=
  match takeBare cs with
  | ([], _) => none
  | (b :: bs, rest) => some (⟨b :: bs⟩, rest)

/-- Modelled from the spec (section 4.3): lex a comparison operator,
trying the two-character operators before their one-character versions. -/
def lexCmpOp (cs : List Char) : Option (CompOp × List Char) :=
  match cs with
  | '<' :: '=' :: rest => some (.cle, rest)
  | '>' :: '=' :: rest => some (.cge, rest)
  | '<' :: rest => some (.clt, rest)
  | '>' :: rest => some (.cgt, rest)
  | '=' :: rest => some (.ceq, rest)
  | _ => none

/-- Logical AND node in the casing variant selected by the contextual
flag: uppercase tag inside a search filter-term list, lowercase elsewhere. -/
def mkAnd (u : Bool) (l r : ExpressionAST) : ExpressionAST :=
  if u then .AND l r else .andL l r

/-- Logical OR node in the casing variant selected by the contextual flag. -/
def mkOr (u : Bool) (l r : ExpressionAST) : ExpressionAST :=
  if u then .OR l r else .orL l r

/-- Logical NOT node in the casing variant selected by the contextual flag. -/
def mkNot (u : Bool) (e : ExpressionAST) : ExpressionAST :=
  if u then .NOT e else .notL e

/-- Keyword characters for AND in the casing selected by the flag. -/
def kwAnd (u : Bool) : List Char :=
  if u then ['A', 'N', 'D'] else ['a', 'n', 'd']

/-- Keyword characters for OR in the casing selected by the flag. -/
def kwOr (u : Bool) : List Char :=
  if u then ['O', 'R'] else ['o', 'r']

/-- Keyword characters for NOT in the casing selected by the flag. -/
def kwNot (u : Bool) : List Char :=
  if u then ['N', 'O', 'T'] else ['n', 'o', 't']

/-- Modelled from the spec (section 4.3): the literal/parenthesized-group
level of the expression engine, parameterized by the full-expression
parser used inside parentheses. Literal order: quoted string, then
number, then bare string; a parenthesized sub-expression resets
precedence. -/
def parsePrimaryWith (pExpr : ParseContext → Option (ExpressionAST × ParseContext))
    (ctx : ParseContext) : Option (ExpressionAST × ParseContext) :=
  match lexQuoted (skipWs ctx.rest) with
  | some (v, rest) => some (.str true v, { ctx with rest := rest })
  | none =>
    match lexNumber (skipWs ctx.rest) with
    | some (n, rest) => some (.num n, { ctx with rest := rest })
    | none =>
      match lexBare (skipWs ctx.rest) with
      | some (v, rest) => some (.str false v, { ctx with rest := rest })
      | none =>
        match skipWs ctx.rest with
        | '(' :: rest =>
          match pExpr { ctx with rest := rest } with
          | none => none
          | some (e, ctx') =>
            match skipWs ctx'.rest with
            | ')' :: rest2 => some (e, { ctx' with rest := rest2 })
            | _ => none
        | _ => none

/-- Modelled from the spec (section 4.3): the comparison level — a primary
optionally followed by a comparison operator and a right primary. A
present operator whose right operand fails to parse is backtracked,
yielding the left operand alone. -/
def parseCmpWith (pPrim : ParseContext → Option (ExpressionAST × ParseContext))
    (ctx : ParseContext) : Option (ExpressionAST × ParseContext) :=
  match pPrim ctx with
  | none => none
  | some (l, ctx') =>
    match lexCmpOp (skipWs ctx'.rest) with
    | none => some (l, ctx')
    | some (op, rest) =>
      match pPrim { ctx' with rest := rest } with
      | none => some (l, ctx')
      | some (r, ctx'') => some (.cmp op l r, ctx'')

/-- Modelled from the spec (section 4.3): the unary NOT level. The keyword
casing is selected by the context flag; if the keyword matches but no
operand follows, the keyword is backtracked and the comparison level is
tried at the original position. -/
def parseNotWith (pCmp : ParseContext → Option (ExpressionAST × ParseContext)) :
    Nat → ParseContext → Option (ExpressionAST × ParseContext)
  | 0, _ => none
  | fuel + 1, ctx =>
    match matchWord (kwNot ctx.compareExpr) (skipWs ctx.rest) with
    | none => pCmp ctx
    | some rest =>
      match parseNotWith pCmp fuel { ctx with rest := rest } with
      | some (e, ctx') => some (mkNot ctx.compareExpr e, ctx')
      | none => pCmp ctx

/-- Modelled from the spec (section 4.3): the left-associative AND chain.
An AND keyword whose right operand fails to parse is backtracked,
ending the chain. -/
def chainAndWith (pNot : ParseContext → Option (ExpressionAST × ParseContext)) :
    Nat → ExpressionAST → ParseContext → ExpressionAST × ParseContext
  | 0, lhs, ctx => (lhs, ctx)
  | fuel + 1, lhs, ctx =>
    match matchWord (kwAnd ctx.compareExpr) (skipWs ctx.rest) with
    | none => (lhs, ctx)
    | some rest =>
      match pNot { ctx with rest := rest } with
      | none => (lhs, ctx)
      | some (r, ctx') => chainAndWith pNot fuel (mkAnd ctx.compareExpr lhs r) ctx'

/-- Modelled from the spec (section 4.3): the AND level — a NOT-level
expression extended by a left-associative AND chain. -/
def parseAndWith (pNot : ParseContext → Option (ExpressionAST × ParseContext))
    (fuel : Nat) (ctx : ParseContext) : Option (ExpressionAST × ParseContext) :=
  match pNot ctx with
  | none => none
  | some (l, ctx') => some (chainAndWith pNot fuel l ctx')

/-- Modelled from the spec (section 4.3): the left-associative OR chain
over AND-level expressions. -/
def chainOrWith (pAnd : ParseContext → Option (ExpressionAST × ParseContext)) :
    Nat → ExpressionAST → ParseContext → ExpressionAST × ParseContext
  | 0, lhs, ctx => (lhs, ctx)
  | fuel + 1, lhs, ctx =>
    match matchWord (kwOr ctx.compareExpr) (skipWs ctx.rest) with
    | none => (lhs, ctx)
    | some rest =>
      match pAnd { ctx with rest := rest } with
      | none => (lhs, ctx)
      | some (r, ctx') => chainOrWith pAnd fuel (mkOr ctx.compareExpr lhs r) ctx'

/-- Modelled from the spec (section 4.3): the OR level — an AND-level
expression extended by a left-associative OR chain. This is the entry
level of the expression engine. -/
def parseOrWith (pAnd : ParseContext → Option (ExpressionAST × ParseContext))
    (fuel : Nat) (ctx : ParseContext) : Option (ExpressionAST × ParseContext) :=
  match pAnd ctx with
  | none => none
  | some (l, ctx') => some (chainOrWith pAnd fuel l ctx')

/-- Modelled from the spec (section 4.3): the fueled expression engine.
The fuel decreases at each parenthesized descent; one unit of fuel per
remaining input character is sufficient because every descent first
consumes the opening parenthesis. -/
def parseExprF : Nat → ParseContext → Option (ExpressionAST × ParseContext)
  | 0, _ => none
  | fuel + 1, ctx =>
    let pPrim := parsePrimaryWith (parseExprF fuel)
    let pCmp := parseCmpWith pPrim
    let pNot := parseNotWith pCmp (fuel + 1)
    let pAnd := parseAndWith pNot (fuel + 1)
    parseOrWith pAnd (fuel + 1) ctx

/-- Modelled from the spec (section 4.3): `parseExpr` — parse one
Expression at the cursor, failing only when no Expression can be formed
at all. The keyword casing is driven by the context's `compareExpr`
flag. -/
def parseExpr (ctx : ParseContext) : Option (ExpressionAST × ParseContext) :=
  parseExprF (ctx.rest.length + 1) ctx

/-- Translated from `parseBareSearch` in `parseSearchCommand.ts`: the
body of the `while (true)` loop. Each iteration consumes whitespace, sets
`compareExpr` to `true`, attempts `parseExpr`, and appends the result to
the collected filters; a failed attempt breaks the loop. The `finally`
clause resets `compareExpr` to `false` on both the success and the
failure path. The fuel argument is an embedding artifact making the loop
structurally recursive; `bareSearchLoopF_fuel` below shows that the fuel
used by `parseBareSearch` is never exhausted because every successful
`parseExpr` consumes input. -/
def bareSearchLoopF : Nat → ParseContext → List ExpressionAST →
    List ExpressionAST × ParseContext
  | 0, ctx, filters => (filters, { parseWs ctx with compareExpr := false })
  | fuel + 1, ctx, filters =>
    let ctx1 := { parseWs ctx with compareExpr := true }
    match parseExpr ctx1 with
    | none => (filters, { ctx1 with compareExpr := false })
    | some (f, ctx2) =>
      bareSearchLoopF fuel { ctx2 with compareExpr := false } (filters ++ [f])

/-- Translated from `parseBareSearch` in `parseSearchCommand.ts`: collect
zero or more filter expressions under the filter-list flag and return a
search command holding them; an inner parse failure ends the list rather
than failing. -/
def parseBareSearch (ctx : ParseContext) : SearchCommandAST × ParseContext :=
  (⟨(bareSearchLoopF (ctx.rest.length + 1) ctx []).1⟩,
   (bareSearchLoopF (ctx.rest.length + 1) ctx []).2)

/-- Translated from `parseSearchCommand` in `parseSearchCommand.ts`:
whitespace, the literal `search` command keyword, whitespace, then the
bare search filter list. -/
def parseSearchCommand (ctx : ParseContext) : Option (SearchCommandAST × ParseContext) :=
  match matchWord ['s', 'e', 'a', 'r', 'c', 'h'] (skipWs ctx.rest) with
  | none => none
  | some rest => some (parseBareSearch (parseWs { ctx with rest := rest }))

/-- Modelled from the spec (section 4.4): the `where` command — the
keyword followed by a single required Expression; a hard failure when the
expression is absent. -/
def parseWhereCommand (ctx : ParseContext) : Option (CommandAST × ParseContext) :=
  match matchWord ['w', 'h', 'e', 'r', 'e'] (skipWs ctx.rest) with
  | none => none
  | some rest =>
    match parseExpr { ctx with rest := rest } with
    | none => none
    | some (e, ctx') => some (.whereC e, ctx')

/-- Modelled from the spec (sections 4.4 and 9): the `stats` command —
the keyword followed by an aggregation list. The aggregation sub-grammar
is an interface stub: only the empty aggregation list is evidenced, so
the model parses zero aggregations. -/
def parseStatsCommand (ctx : ParseContext) : Option (CommandAST × ParseContext) :=
  match matchWord ['s', 't', 'a', 't', 's'] (skipWs ctx.rest) with
  | none => none
  | some rest => some (.stats [], { ctx with rest := rest })

/-- Modelled from the spec (section 4.4): one `eval` binding — an
identifier, `=`, and a required Expression. -/
def parseEvalBinding (ctx : ParseContext) : Option ((String × ExpressionAST) × ParseContext) :=
  match lexBare (skipWs ctx.rest) with
  | none => none
  | some (name, rest) =>
    match skipWs rest with
    | '=' :: rest2 =>
      match parseExpr { ctx with rest := rest2 } with
      | none => none
      | some (e, ctx') => some ((name, e), ctx')
    | _ => none

/-- Modelled from the spec (section 4.4): the comma-delimited tail of the
`eval` binding list, in insertion order. The fuel is an embedding
artifact; each iteration consumes at least the comma. -/
def evalBindingsLoopF : Nat → List (String × ExpressionAST) → ParseContext →
    Option (List (String × ExpressionAST) × ParseContext)
  | 0, _, _ => none
  | fuel + 1, acc, ctx =>
    match skipWs ctx.rest with
    | ',' :: rest =>
      match parseEvalBinding { ctx with rest := rest } with
      | none => none
      | some (b, ctx') => evalBindingsLoopF fuel (acc ++ [b]) ctx'
    | _ => some (acc, ctx)

/-- Modelled from the spec (section 4.4): the `eval` command — the
keyword followed by a required comma-delimited list of
(identifier `=` Expression) bindings, insertion order preserved. -/
def parseEvalCommand (ctx : ParseContext) : Option (CommandAST × ParseContext) :=
  match matchWord ['e', 'v', 'a', 'l'] (skipWs ctx.rest) with
  | none => none
  | some rest =>
    match parseEvalBinding { ctx with rest := rest } with
    | none => none
    | some (b, ctx') =>
      match evalBindingsLoopF (ctx'.rest.length + 1) [b] ctx' with
      | none => none
      | some (bs, ctx'') => some (.eval bs, ctx'')

/-- Recognized leading command keywords (spec section 4.4). -/
inductive CommandKeyword where
  | search
  | whereK
  | stats
  | eval
deriving DecidableEq, Repr

/-- Modelled from the spec (section 4.4): peek the leading token of a
pipeline segment and classify it as a recognized command keyword, if
any. -/
def peekCommandKeyword (cs : List Char) : Option CommandKeyword :=
  if (matchWord ['s', 'e', 'a', 'r', 'c', 'h'] (skipWs cs)).isSome then some .search
  else if (matchWord ['w', 'h', 'e', 'r', 'e'] (skipWs cs)).isSome then some .whereK
  else if (matchWord ['s', 't', 'a', 't', 's'] (skipWs cs)).isSome then some .stats
  else if (matchWord ['e', 'v', 'a', 'l'] (skipWs cs)).isSome then some .eval
  else none

/-- Modelled from the spec (section 4.4): route a segment with a
recognized leading keyword to its command grammar. -/
def dispatchCommand (kw : CommandKeyword) (ctx : ParseContext) :
    Option (CommandAST × ParseContext) :=
  match kw with
  | .search =>
    match parseSearchCommand ctx with
    | none => none
    | some (cmd, ctx') => some (.search cmd.filters, ctx')
  | .whereK => parseWhereCommand ctx
  | .stats => parseStatsCommand ctx
  | .eval => parseEvalCommand ctx

/-- Modelled from the spec (section 4.4): the first pipeline segment —
either a recognized command, or (when no leading command keyword is
recognized) the whole segment parsed as a bare filter-term list and
wrapped as an implicit Search command. -/
def parseFirstCommand (ctx : ParseContext) : Option (CommandAST × ParseContext) :=
  match peekCommandKeyword ctx.rest with
  | some kw => dispatchCommand kw ctx
  | none => some (.search (parseBareSearch ctx).1.filters, (parseBareSearch ctx).2)

/-- Modelled from the spec (section 4.4): the remaining pipeline
segments. After each command the input must continue with a pipe
separator (followed by a segment with a recognized command keyword) or
end; anything else is a hard parse failure. The fuel is an embedding
artifact; each iteration consumes at least the pipe. -/
def pipelineLoopF : Nat → List CommandAST → ParseContext →
    Option (List CommandAST × ParseContext)
  | 0, _, _ => none
  | fuel + 1, acc, ctx =>
    match skipWs ctx.rest with
    | [] => some (acc, { ctx with rest := [] })
    | '|' :: rest =>
      match peekCommandKeyword rest with
      | none => none
      | some kw =>
        match dispatchCommand kw { ctx with rest := rest } with
        | none => none
        | some (c, ctx') => pipelineLoopF fuel (acc ++ [c]) ctx'
    | _ => none

/-- Modelled from the spec (sections 4.4 and 6): `parseQuery` — the
single entry operation. Parses the first segment (with the implicit
Search fallback), then the pipe-separated remainder; returns the ordered
pipeline, or fails. -/
def parseQuery (text : String) : Option QueryAST :=
  match parseFirstCommand ⟨text.toList, false⟩ with
  | none => none
  | some (c, ctx') =>
    match pipelineLoopF (ctx'.rest.length + 1) [c] ctx' with
    | none => none
    | some (cmds, _) => some ⟨cmds⟩

/-! ## Serialization

Modelled from the spec (section 8): re-serializing a parsed tree back to
an equivalent query string. The spec names no concrete serializer, so
this one is chosen canonical: every expression node, atoms included, is
parenthesized (quoted strings printed with whichever delimiter they do
not contain), and commands are joined with pipes. -/

/-- Decimal digit character for a value below ten. -/
def digitChar (d : Nat) : Char := Char.ofNat (48 + d)

/-- Fueled most-significant-first decimal printer. -/
def natDigitsF : Nat → Nat → List Char
  | 0, _ => []
  | fuel + 1, n =>
    if n < 10 then [digitChar n]
    else natDigitsF fuel (n / 10) ++ [digitChar (n % 10)]

/-- Decimal digit string of a natural number. -/
def natDigits (n : Nat) : List Char := natDigitsF (n + 1) n

/-- Characters of a comparison operator. -/
def cmpOpChars : CompOp → List Char
  | .ceq => ['=']
  | .clt => ['<']
  | .cgt => ['>']
  | .cle => ['<', '=']
  | .cge => ['>', '=']

/-- Delimiter used to re-serialize a quoted string: a double quote unless
the value contains one. -/
def quoteDelim (v : String) : Char := if '"' ∈ v.data then '\'' else '"'

/-- Unparenthesized body of a serialized expression: atoms print
verbatim, the operands of a compound node are themselves serialized in
parentheses. -/
def fmtInner : ExpressionAST → List Char
  | .str false v => v.data
  | .str true v => quoteDelim v :: (v.data ++ [quoteDelim v])
  | .num n => natDigits n.toNat
  | .cmp op l r =>
      ('(' :: (fmtInner l ++ [')'])) ++ (cmpOpChars op ++ ('(' :: (fmtInner r ++ [')'])))
  | .AND l r =>
      ('(' :: (fmtInner l ++ [')'])) ++
        (' ' :: (kwAnd true ++ (' ' :: ('(' :: (fmtInner r ++ [')'])))))
  | .OR l r =>
      ('(' :: (fmtInner l ++ [')'])) ++
        (' ' :: (kwOr true ++ (' ' :: ('(' :: (fmtInner r ++ [')'])))))
  | .NOT e => kwNot true ++ (' ' :: ('(' :: (fmtInner e ++ [')'])))
  | .andL l r =>
      ('(' :: (fmtInner l ++ [')'])) ++
        (' ' :: (kwAnd false ++ (' ' :: ('(' :: (fmtInner r ++ [')'])))))
  | .orL l r =>
      ('(' :: (fmtInner l ++ [')'])) ++
        (' ' :: (kwOr false ++ (' ' :: ('(' :: (fmtInner r ++ [')'])))))
  | .notL e => kwNot false ++ (' ' :: ('(' :: (fmtInner e ++ [')'])))

/-- Serialize an expression: every node, atoms included, is wrapped in
parentheses. Parenthesizing atoms as well is essential: a parenthesized
input such as `(NOT)` parses to the bare atom spelled like the NOT
keyword, and only a parenthesized re-serialization keeps such an atom
from being re-read as a keyword. -/
def fmtExpr (e : ExpressionAST) : List Char := '(' :: (fmtInner e ++ [')'])

/-- Serialize a search filter list, space-separated. -/
def fmtFilters : List ExpressionAST → List Char
  | [] => []
  | [f] => fmtExpr f
  | f :: fs => fmtExpr f ++ ' ' :: fmtFilters fs

/-- Serialize eval bindings, comma-separated. -/
def fmtBindings : List (String × ExpressionAST) → List Char
  | [] => []
  | [(n, e)] => n.data ++ ' ' :: '=' :: ' ' :: fmtExpr e
  | (n, e) :: bs => n.data ++ ' ' :: '=' :: ' ' :: fmtExpr e ++ ',' :: ' ' :: fmtBindings bs

/-- Serialize one command. -/
def fmtCommand : CommandAST → List Char
  | .search fs => ['s', 'e', 'a', 'r', 'c', 'h'] ++ ' ' :: fmtFilters fs
  | .whereC e => ['w', 'h', 'e', 'r', 'e'] ++ ' ' :: fmtExpr e
  | .stats _ => ['s', 't', 'a', 't', 's']
  | .eval bs => ['e', 'v', 'a', 'l'] ++ ' ' :: fmtBindings bs

/-- Serialize the pipe-separated tail of a pipeline. -/
def fmtTail : List CommandAST → List Char
  | [] => []
  | c :: cs => ' ' :: '|' :: ' ' :: fmtCommand c ++ fmtTail cs

/-- Serialize a whole query. -/
def fmtQuery (q : QueryAST) : String :=
  match q.pipeline with
  | [] => ⟨[]⟩
  | c :: cs => ⟨fmtCommand c ++ fmtTail cs⟩

/-! ## Parser-output invariants

These predicates characterize the trees `parseQuery` can produce; they
are exactly what the round-trip argument needs about a tree before it is
re-serialized. -/

/-- The bare-string atom spelled like a logical keyword. -/
def kwAtom (w : List Char) : ExpressionAST := .str false ⟨w⟩

/-- Well-formed expressions in casing context `u`: bare strings are
nonempty bare-character runs not starting with a digit, quoted values do
not contain both delimiters, numbers are nonnegative, and every logical
tag carries the casing of its context. These are exactly the shapes the
parser can produce in that context. -/
def WFE (u : Bool) : ExpressionAST → Prop
  | .str true v => '"' ∉ v.data ∨ '\'' ∉ v.data
  | .str false v =>
      (∃ d ds, v.data = d :: ds ∧ d.isDigit = false) ∧ ∀ c ∈ v.data, isBareChar c
  | .num n => 0 ≤ n
  | .cmp _ l r => WFE u l ∧ WFE u r
  | .AND l r => u = true ∧ WFE u l ∧ WFE u r
  | .OR l r => u = true ∧ WFE u l ∧ WFE u r
  | .NOT e => u = true ∧ WFE u e
  | .andL l r => u = false ∧ WFE u l ∧ WFE u r
  | .orL l r => u = false ∧ WFE u l ∧ WFE u r
  | .notL e => u = false ∧ WFE u e

/-- Well-formed commands: search filters are well-formed in the
uppercase context; where and eval expressions are well-formed in the
lowercase context; the aggregation list is empty; eval has at least one
binding with bare-run names. -/
def WFC : CommandAST → Prop
  | .search fs => ∀ f ∈ fs, WFE true f
  | .whereC e => WFE false e
  | .stats aggs => aggs = []
  | .eval bs =>
      bs ≠ [] ∧ ∀ b ∈ bs, (b.1.data ≠ [] ∧ ∀ c ∈ b.1.data, isBareChar c) ∧ WFE false b.2

/-- Strict input consumption by a sub-parser: success strictly shortens
the remaining input. -/
def Consumes (p : ParseContext → Option (ExpressionAST × ParseContext)) : Prop :=
  ∀ ctx e ctx', p ctx = some (e, ctx') → ctx'.rest.length < ctx.rest.length

/-- Head of a character list is not a bare-string character (or the list
is empty). -/
def headNotBare : List Char → Prop
  | [] => True
  | c :: _ => isBareChar c = false

/-- Head of a character list is not a decimal digit (or the list is
empty). -/
def headNotDigit : List Char → Prop
  | [] => True
  | c :: _ => c.isDigit = false

/-- Possible first characters of a serialized expression. -/
def FmtHeadOK (c : Char) : Prop :=
  isBareChar c = true ∨ c = '(' ∨ c = '"' ∨ c = '\''

/-- Characters at which every expression-level parse fails: closing
parenthesis, comma, pipe, and the comparison-operator characters. -/
def StopChar (c : Char) : Prop :=
  c = ')' ∨ c = ',' ∨ c = '|' ∨ c = '=' ∨ c = '<' ∨ c = '>'

/-- Text whose first non-whitespace character (if any) is a stop
character. -/
def StopText (cs : List Char) : Prop :=
  match skipWs cs with
  | [] => True
  | c :: _ => StopChar c

/-- The NOT-level parser stack as it appears inside `parseExprF`:
`fy` is the fuel of the expression parser used inside parentheses, `fx`
the fuel of the NOT-level itself. -/
def notStack (fy fx : Nat) (ctx : ParseContext) : Option (ExpressionAST × ParseContext) :=
  parseNotWith (parseCmpWith (parsePrimaryWith (parseExprF fy))) fx ctx

/-- The comparison-operator check cannot fire: after whitespace, the text
does not start with an operator character. -/
def NoOpHead (sfx : List Char) : Prop :=
  match skipWs sfx with
  | [] => True
  | c :: _ => c ≠ '=' ∧ c ≠ '<' ∧ c ≠ '>'

/-- The NOT level fails on this text at every fuel. -/
def NotFails (u : Bool) (sfx : List Char) : Prop :=
  ∀ fy fx, notStack fy fx ⟨sfx, u⟩ = none

/-- An AND-keyword continuation at this text always fails: either the
keyword does not match, or the right-hand operand parse fails. -/
def AndExtFails (u : Bool) (sfx : List Char) : Prop :=
  ∀ rest, matchWord (kwAnd u) (skipWs sfx) = some rest → NotFails u rest

/-- An OR-keyword continuation at this text always fails. -/
def OrExtFails (u : Bool) (sfx : List Char) : Prop :=
  ∀ rest, matchWord (kwOr u) (skipWs sfx) = some rest → NotFails u rest

/-- Characters that legitimately follow a complete top-level expression. -/
def EndChar (c : Char) : Prop := c = ')' ∨ c = '|' ∨ c = ','

/-- Text whose first non-whitespace character (if any) ends an
expression. -/
def EndText (sfx : List Char) : Prop :=
  match skipWs sfx with
  | [] => True
  | c :: _ => EndChar c

/-- Compound (non-atom) expressions. -/
def isCompound : ExpressionAST → Prop
  | .str _ _ => False
  | .num _ => False
  | _ => True

/-- Node count of an expression, the induction measure of the
completeness proof. -/
def eSize : ExpressionAST → Nat
  | .str _ _ => 1
  | .num _ => 1
  | .cmp _ l r => eSize l + eSize r + 1
  | .AND l r => eSize l + eSize r + 1
  | .OR l r => eSize l + eSize r + 1
  | .NOT e => eSize e + 1
  | .andL l r => eSize l + eSize r + 1
  | .orL l r => eSize l + eSize r + 1
  | .notL e => eSize e + 1

/-- Completeness statement at the primary level: the parenthesized
serialization reparses as a primary before any suffix. -/
def AStmt (u : Bool) (e : ExpressionAST) : Prop :=
  ∀ sfx fy, (fmtExpr e ++ sfx).length ≤ fy →
    parsePrimaryWith (parseExprF fy) ⟨fmtExpr e ++ sfx, u⟩ = some (e, ⟨sfx, u⟩)

/-- Completeness statement at the NOT level: since the serialization is
parenthesized, only the absence of a comparison operator after it is
required of the suffix. -/
def BStmt (u : Bool) (e : ExpressionAST) : Prop :=
  ∀ sfx fy fx, NoOpHead sfx →
    (fmtExpr e ++ sfx).length ≤ fy → (fmtExpr e ++ sfx).length < fx →
    notStack fy fx ⟨fmtExpr e ++ sfx, u⟩ = some (e, ⟨sfx, u⟩)

/-- Completeness statement for the unparenthesized body followed by its
closing parenthesis. -/
def InnerStmt (u : Bool) (e : ExpressionAST) : Prop :=
  ∀ tail f, (fmtInner e ++ ')' :: tail).length < f →
    parseExprF f ⟨fmtInner e ++ ')' :: tail, u⟩ = some (e, ⟨')' :: tail, u⟩)

/-- Characters that may follow a complete serialized expression: a
closing parenthesis, a pipe, a comma, or the opening parenthesis of the
next serialized filter. -/
def SeamChar (c : Char) : Prop := c = ')' ∨ c = '|' ∨ c = ',' ∨ c = '('

/-- Text whose first non-whitespace character (if any) may follow a
complete serialized expression. -/
def SeamText (sfx : List Char) : Prop :=
  match skipWs sfx with
  | [] => True
  | c :: _ => SeamChar c

/-- Soundness of an expression sub-parser: well-formed output, flag
preserved. -/
def ESound (p : ParseContext → Option (ExpressionAST × ParseContext)) : Prop :=
  ∀ c e c', p c = some (e, c') → WFE c.compareExpr e ∧ c'.compareExpr = c.compareExpr

/-- A well-formed eval binding: bare nonempty name, well-formed
lowercase expression. -/
def WFB (b : String × ExpressionAST) : Prop :=
  (b.1.data ≠ [] ∧ ∀ c ∈ b.1.data, isBareChar c) ∧ WFE false b.2

/-- Text that follows a complete serialized command: nothing, or a pipe
separator (always preceded by a space in this serialization). -/
def PipeTail (cs : List Char) : Prop :=
  headNotBare cs ∧
    match skipWs cs with
    | [] => True
    | c :: _ => c = '|'

/-- Serialized separator before the remaining eval bindings: nothing
before the terminating tail, a comma before a further binding. -/
def evalSep : List (String × ExpressionAST) → List Char → List Char
  | [], TAIL => TAIL
  | bs, TAIL => ',' :: ' ' :: (fmtBindings bs ++ TAIL)

/-- The keyword classifying each command's serialization. -/
def kwOf : CommandAST → CommandKeyword
  | .search _ => .search
  | .whereC _ => .whereK
  | .stats _ => .stats
  | .eval _ => .eval

/-! ## Length and consumption lemmas

Every successful sub-parse consumes input; these lemmas justify the fuel
choices of the loops and drive the termination-style arguments below. -/

theorem skipWs_length (cs : List Char) : (skipWs cs).length ≤ cs.length := by
  induction cs with
  | nil => simp [skipWs]
  | cons c cs ih =>
    simp only [skipWs]
    split
    · exact Nat.le_succ_of_le ih
    · exact Nat.le_refl _

theorem dropWord_length (w : List Char) :
    ∀ cs rest, dropWord w cs = some rest → rest.length + w.length = cs.length := by
  induction w with
  | nil =>
    intro cs rest h
    simp [dropWord] at h
    subst h
    simp
  | cons k ks ih =>
    intro cs rest h
    cases cs with
    | nil => simp [dropWord] at h
    | cons c cs' =>
      simp only [dropWord] at h
      split at h
      · have := ih cs' rest h
        simp only [List.length_cons]
        omega
      · simp at h

theorem matchWord_eq_dropWord (w cs rest : List Char)
    (h : matchWord w cs = some rest) : dropWord w cs = some rest := by
  unfold matchWord at h
  split at h
  · simp at h
  · next r heq =>
    split at h
    · rw [Option.some.injEq] at h
      rw [← h]
      exact heq
    · split at h
      · simp at h
      · rw [Option.some.injEq] at h
        rw [← h]
        exact heq

theorem matchWord_length (w cs rest : List Char)
    (h : matchWord w cs = some rest) : rest.length + w.length = cs.length :=
  dropWord_length w cs rest (matchWord_eq_dropWord w cs rest h)

theorem takeUntilChar_length (d : Char) (cs : List Char) :
    ∀ body rest, takeUntilChar d cs = some (body, rest) → rest.length < cs.length := by
  induction cs with
  | nil => intro body rest h; simp [takeUntilChar] at h
  | cons c cs' ih =>
    intro body rest h
    simp only [takeUntilChar] at h
    split at h
    · rw [Option.some.injEq, Prod.mk.injEq] at h
      obtain ⟨-, h2⟩ := h
      rw [← h2]
      simp
    · split at h
      · simp at h
      · next b2 r2 heq =>
        rw [Option.some.injEq, Prod.mk.injEq] at h
        obtain ⟨-, h2⟩ := h
        rw [← h2]
        have := ih b2 r2 heq
        simp only [List.length_cons]
        omega

theorem lexQuoted_length (cs : List Char) (v : String) (rest : List Char)
    (h : lexQuoted cs = some (v, rest)) : rest.length < cs.length := by
  unfold lexQuoted at h
  split at h
  · next cs' =>
    split at h
    · simp at h
    · next body r heq =>
      rw [Option.some.injEq, Prod.mk.injEq] at h
      obtain ⟨-, h2⟩ := h
      rw [← h2]
      have := takeUntilChar_length '"' cs' body r heq
      simp only [List.length_cons]
      omega
  · next cs' =>
    split at h
    · simp at h
    · next body r heq =>
      rw [Option.some.injEq, Prod.mk.injEq] at h
      obtain ⟨-, h2⟩ := h
      rw [← h2]
      have := takeUntilChar_length '\'' cs' body r heq
      simp only [List.length_cons]
      omega
  · simp at h

theorem takeDigits_append (cs : List Char) :
    (takeDigits cs).1 ++ (takeDigits cs).2 = cs := by
  induction cs with
  | nil => simp [takeDigits]
  | cons c cs' ih =>
    simp only [takeDigits]
    split
    · simpa using ih
    · simp

theorem takeDigits_digits (cs : List Char) :
    ∀ c ∈ (takeDigits cs).1, c.isDigit := by
  induction cs with
  | nil => simp [takeDigits]
  | cons c cs' ih =>
    simp only [takeDigits]
    split
    · next hd =>
      intro x hx
      simp at hx
      rcases hx with rfl | hx
      · exact hd
      · exact ih x hx
    · simp

theorem lexNumber_length (cs : List Char) (n : Int) (rest : List Char)
    (h : lexNumber cs = some (n, rest)) : rest.length < cs.length := by
  unfold lexNumber at h
  split at h
  · simp at h
  · next d ds rest' heq =>
    rw [Option.some.injEq, Prod.mk.injEq] at h
    obtain ⟨-, h2⟩ := h
    rw [← h2]
    have hap := takeDigits_append cs
    rw [heq] at hap
    simp only [← hap, List.length_append, List.length_cons]
    omega

theorem takeBare_append (cs : List Char) :
    (takeBare cs).1 ++ (takeBare cs).2 = cs := by
  induction cs with
  | nil => simp [takeBare]
  | cons c cs' ih =>
    simp only [takeBare]
    split
    · simpa using ih
    · simp

theorem lexBare_length (cs : List Char) (v : String) (rest : List Char)
    (h : lexBare cs = some (v, rest)) : rest.length < cs.length := by
  unfold lexBare at h
  split at h
  · simp at h
  · next b bs rest' heq =>
    rw [Option.some.injEq, Prod.mk.injEq] at h
    obtain ⟨-, h2⟩ := h
    rw [← h2]
    have hap := takeBare_append cs
    rw [heq] at hap
    simp only [← hap, List.length_append, List.length_cons]
    omega

theorem lexCmpOp_length (cs : List Char) (op : CompOp) (rest : List Char)
    (h : lexCmpOp cs = some (op, rest)) : rest.length < cs.length := by
  unfold lexCmpOp at h
  split at h
  all_goals simp at h
  all_goals
    obtain ⟨-, h2⟩ := h
    rw [← h2]
    simp only [List.length_cons]
    omega

theorem kwAnd_length (b : Bool) : (kwAnd b).length = 3 := by cases b <;> rfl

theorem kwOr_length (b : Bool) : (kwOr b).length = 2 := by cases b <;> rfl

theorem kwNot_length (b : Bool) : (kwNot b).length = 3 := by cases b <;> rfl

theorem parsePrimaryWith_consumes
    (pExpr : ParseContext → Option (ExpressionAST × ParseContext))
    (hp : ∀ c e c', pExpr c = some (e, c') → c'.rest.length ≤ c.rest.length) :
    Consumes (parsePrimaryWith pExpr) := by
  intro ctx e ctx' h
  have hws := skipWs_length ctx.rest
  unfold parsePrimaryWith at h
  split at h
  · next v rest heq =>
    rw [Option.some.injEq, Prod.mk.injEq] at h
    obtain ⟨-, h2⟩ := h
    rw [← h2]
    have := lexQuoted_length _ _ _ heq
    simp
    omega
  · split at h
    · next n rest heq =>
      rw [Option.some.injEq, Prod.mk.injEq] at h
      obtain ⟨-, h2⟩ := h
      rw [← h2]
      have := lexNumber_length _ _ _ heq
      simp
      omega
    · split at h
      · next v rest heq =>
        rw [Option.some.injEq, Prod.mk.injEq] at h
        obtain ⟨-, h2⟩ := h
        rw [← h2]
        have := lexBare_length _ _ _ heq
        simp
        omega
      · split at h
        · next rest0 heq =>
          split at h
          · simp at h
          · next e1 c1 heq2 =>
            have h1 : c1.rest.length ≤ rest0.length := by
              have := hp _ _ _ heq2
              simpa using this
            have h2 : (skipWs c1.rest).length ≤ c1.rest.length := skipWs_length c1.rest
            split at h
            · next rest2 heq3 =>
              rw [Option.some.injEq, Prod.mk.injEq] at h
              obtain ⟨-, h3⟩ := h
              rw [← h3]
              have h4 : rest2.length + 1 = (skipWs c1.rest).length := by
                rw [heq3]; simp
              have h5 : rest0.length + 1 = (skipWs ctx.rest).length := by
                rw [heq]; simp
              simp
              omega
            · simp at h
        · simp at h

theorem parseCmpWith_consumes
    (pPrim : ParseContext → Option (ExpressionAST × ParseContext))
    (hp : Consumes pPrim) : Consumes (parseCmpWith pPrim) := by
  intro ctx e ctx' h
  unfold parseCmpWith at h
  split at h
  · simp at h
  · next l c1 heq1 =>
    have hc1 : c1.rest.length < ctx.rest.length := hp _ _ _ heq1
    split at h
    · rw [Option.some.injEq, Prod.mk.injEq] at h
      obtain ⟨-, h2⟩ := h
      rw [← h2]
      exact hc1
    · next op rest heq2 =>
      have hrest : rest.length < c1.rest.length :=
        lt_of_lt_of_le (lexCmpOp_length _ _ _ heq2) (skipWs_length c1.rest)
      split at h
      · rw [Option.some.injEq, Prod.mk.injEq] at h
        obtain ⟨-, h2⟩ := h
        rw [← h2]
        exact hc1
      · next r c2 heq3 =>
        rw [Option.some.injEq, Prod.mk.injEq] at h
        obtain ⟨-, h2⟩ := h
        rw [← h2]
        have := hp _ _ _ heq3
        simp at this
        omega

theorem parseNotWith_consumes
    (pCmp : ParseContext → Option (ExpressionAST × ParseContext))
    (hp : Consumes pCmp) :
    ∀ fuel, Consumes (parseNotWith pCmp fuel) := by
  intro fuel
  induction fuel with
  | zero => intro ctx e ctx' h; simp [parseNotWith] at h
  | succ fuel ih =>
    intro ctx e ctx' h
    simp only [parseNotWith] at h
    split at h
    · exact hp _ _ _ h
    · next rest hm =>
      have hr : rest.length < ctx.rest.length := by
        have := matchWord_length _ _ _ hm
        have := skipWs_length ctx.rest
        have := kwNot_length ctx.compareExpr
        omega
      split at h
      · next e1 c1 heq2 =>
        rw [Option.some.injEq, Prod.mk.injEq] at h
        obtain ⟨-, h3⟩ := h
        rw [← h3]
        have := ih _ _ _ heq2
        simp at this
        omega
      · exact hp _ _ _ h

theorem chainAndWith_length
    (pNot : ParseContext → Option (ExpressionAST × ParseContext))
    (hp : Consumes pNot) :
    ∀ fuel lhs ctx, ((chainAndWith pNot fuel lhs ctx).2).rest.length ≤ ctx.rest.length := by
  intro fuel
  induction fuel with
  | zero => intro lhs ctx; simp [chainAndWith]
  | succ fuel ih =>
    intro lhs ctx
    simp only [chainAndWith]
    split
    · exact Nat.le_refl _
    · next rest hm =>
      have hr : rest.length < ctx.rest.length := by
        have := matchWord_length _ _ _ hm
        have := skipWs_length ctx.rest
        have := kwAnd_length ctx.compareExpr
        omega
      split
      · exact Nat.le_refl _
      · next r c1 heq =>
        have h3 := hp _ _ _ heq
        simp at h3
        have h4 := ih (mkAnd ctx.compareExpr lhs r) c1
        omega

theorem parseAndWith_consumes
    (pNot : ParseContext → Option (ExpressionAST × ParseContext))
    (hp : Consumes pNot) (fuel : Nat) : Consumes (parseAndWith pNot fuel) := by
  intro ctx e ctx' h
  unfold parseAndWith at h
  split at h
  · simp at h
  · next l c1 heq =>
    rw [Option.some.injEq] at h
    have h2 : (chainAndWith pNot fuel l c1).2 = ctx' := by rw [h]
    have := hp _ _ _ heq
    have := chainAndWith_length pNot hp fuel l c1
    rw [h2] at this
    omega

theorem chainOrWith_length
    (pAnd : ParseContext → Option (ExpressionAST × ParseContext))
    (hp : Consumes pAnd) :
    ∀ fuel lhs ctx, ((chainOrWith pAnd fuel lhs ctx).2).rest.length ≤ ctx.rest.length := by
  intro fuel
  induction fuel with
  | zero => intro lhs ctx; simp [chainOrWith]
  | succ fuel ih =>
    intro lhs ctx
    simp only [chainOrWith]
    split
    · exact Nat.le_refl _
    · next rest hm =>
      have hr : rest.length < ctx.rest.length := by
        have := matchWord_length _ _ _ hm
        have := skipWs_length ctx.rest
        have := kwOr_length ctx.compareExpr
        omega
      split
      · exact Nat.le_refl _
      · next r c1 heq =>
        have h3 := hp _ _ _ heq
        simp at h3
        have h4 := ih (mkOr ctx.compareExpr lhs r) c1
        omega

theorem parseOrWith_consumes
    (pAnd : ParseContext → Option (ExpressionAST × ParseContext))
    (hp : Consumes pAnd) (fuel : Nat) : Consumes (parseOrWith pAnd fuel) := by
  intro ctx e ctx' h
  unfold parseOrWith at h
  split at h
  · simp at h
  · next l c1 heq =>
    rw [Option.some.injEq] at h
    have h2 : (chainOrWith pAnd fuel l c1).2 = ctx' := by rw [h]
    have := hp _ _ _ heq
    have := chainOrWith_length pAnd hp fuel l c1
    rw [h2] at this
    omega

theorem parseExprF_consumes : ∀ fuel, Consumes (parseExprF fuel) := by
  intro fuel
  induction fuel with
  | zero => intro ctx e ctx' h; simp [parseExprF] at h
  | succ fuel ih =>
    intro ctx e ctx' h
    simp only [parseExprF] at h
    exact parseOrWith_consumes _
      (parseAndWith_consumes _
        (parseNotWith_consumes _
          (parseCmpWith_consumes _
            (parsePrimaryWith_consumes _ (fun c e' c' hh => Nat.le_of_lt (ih c e' c' hh)))) _) _)
      _ _ _ _ h

theorem parseExpr_consumes : Consumes parseExpr := by
  intro ctx e ctx' h
  exact parseExprF_consumes _ _ _ _ h

/-- Fuel adequacy for the search filter loop: any two fuel values
exceeding the remaining input length give the same result, so the fuel
used by `parseBareSearch` behaves exactly like the source's unbounded
`while (true)` loop. -/
theorem bareSearchLoopF_fuel :
    ∀ n ctx filters f1 f2, ctx.rest.length ≤ n → ctx.rest.length < f1 →
      ctx.rest.length < f2 →
      bareSearchLoopF f1 ctx filters = bareSearchLoopF f2 ctx filters := by
  intro n
  induction n with
  | zero =>
    intro ctx filters f1 f2 hn h1 h2
    obtain ⟨a, rfl⟩ : ∃ a, f1 = a + 1 := ⟨f1 - 1, by omega⟩
    obtain ⟨b, rfl⟩ : ∃ b, f2 = b + 1 := ⟨f2 - 1, by omega⟩
    simp only [bareSearchLoopF]
    cases he : parseExpr { parseWs ctx with compareExpr := true } with
    | none => rfl
    | some p =>
      obtain ⟨f, c2⟩ := p
      exfalso
      have hc := parseExpr_consumes _ _ _ he
      have hws := skipWs_length ctx.rest
      simp [parseWs] at hc
      omega
  | succ n ih =>
    intro ctx filters f1 f2 hn h1 h2
    obtain ⟨a, rfl⟩ : ∃ a, f1 = a + 1 := ⟨f1 - 1, by omega⟩
    obtain ⟨b, rfl⟩ : ∃ b, f2 = b + 1 := ⟨f2 - 1, by omega⟩
    simp only [bareSearchLoopF]
    cases he : parseExpr { parseWs ctx with compareExpr := true } with
    | none => rfl
    | some p =>
      obtain ⟨f, c2⟩ := p
      have hc := parseExpr_consumes _ _ _ he
      have hws := skipWs_length ctx.rest
      simp [parseWs] at hc
      exact ih { c2 with compareExpr := false } (filters ++ [f]) a b
        (by simp; omega) (by simp; omega) (by simp; omega)

/-- Every successful pipeline-loop run extends the accumulated command
list: the loop only appends. -/
theorem pipelineLoopF_append :
    ∀ fuel acc ctx l ctx', pipelineLoopF fuel acc ctx = some (l, ctx') →
      ∃ tail, l = acc ++ tail := by
  intro fuel
  induction fuel with
  | zero => intro acc ctx l ctx' h; simp [pipelineLoopF] at h
  | succ fuel ih =>
    intro acc ctx l ctx' h
    simp only [pipelineLoopF] at h
    split at h
    · rw [Option.some.injEq, Prod.mk.injEq] at h
      obtain ⟨h1, -⟩ := h
      refine ⟨[], ?_⟩
      rw [← h1]
      simp
    · next rest =>
      split at h
      · simp at h
      · next kw hpk =>
        split at h
        · simp at h
        · next c c2 hd =>
          obtain ⟨tail, htail⟩ := ih (acc ++ [c]) c2 l ctx' h
          exact ⟨c :: tail, by simp [htail]⟩
    · simp at h

theorem digitsVal_foldl (ds : List Char) :
    ∀ a, List.foldl (fun a c => 10 * a + (c.toNat - 48)) a ds
      = a * 10 ^ ds.length + decimalValue ds := by
  induction ds with
  | nil => intro a; simp [decimalValue]
  | cons c cs ih =>
    intro a
    simp only [List.foldl_cons, decimalValue, List.length_cons]
    rw [ih]
    ring

theorem digitsVal_eq_decimalValue (ds : List Char) :
    digitsVal ds = decimalValue ds := by
  unfold digitsVal
  rw [digitsVal_foldl]
  simp

/-- Characterization of the number lexer: a successful lex splits the
input into a nonempty all-digit run and the remainder, and the produced
integer is exactly the positional decimal value of that run. -/
theorem lexNumber_spec (cs : List Char) (n : Int) (rest : List Char)
    (h : lexNumber cs = some (n, rest)) :
    ∃ ds, ds ≠ [] ∧ (∀ c ∈ ds, c.isDigit) ∧ cs = ds ++ rest ∧
      n = (decimalValue ds : Nat) := by
  unfold lexNumber at h
  split at h
  · simp at h
  · next d ds' rest' heq =>
    rw [Option.some.injEq, Prod.mk.injEq] at h
    obtain ⟨h1, h2⟩ := h
    refine ⟨d :: ds', by simp, ?_, ?_, ?_⟩
    · have := takeDigits_digits cs
      rw [heq] at this
      exact this
    · have := takeDigits_append cs
      rw [heq] at this
      rw [← h2]
      exact this.symm
    · rw [← h1, digitsVal_eq_decimalValue]

/-- The search filter loop always hands back the context with the
`compareExpr` flag cleared, whichever branch ends it. -/
theorem bareSearchLoopF_flag :
    ∀ fuel ctx filters, ((bareSearchLoopF fuel ctx filters).2).compareExpr = false := by
  intro fuel
  induction fuel with
  | zero => intro ctx filters; simp [bareSearchLoopF]
  | succ fuel ih =>
    intro ctx filters
    simp only [bareSearchLoopF]
    split
    · simp
    · exact ih _ _

/-- The search filter loop is insensitive to the incoming `compareExpr`
flag: the flag is set afresh for each `parseExpr` attempt. -/
theorem bareSearchLoopF_flag_irrel :
    ∀ fuel ctx filters b,
      bareSearchLoopF fuel { ctx with compareExpr := b } filters =
        bareSearchLoopF fuel ctx filters := by
  intro fuel
  induction fuel with
  | zero => intro ctx filters b; simp [bareSearchLoopF, parseWs]
  | succ fuel ih =>
    intro ctx filters b
    simp only [bareSearchLoopF, parseWs]

/-! ## Character-class and serializer lemmas -/

theorem isDigit_isBareChar (c : Char) (h : c.isDigit = true) : isBareChar c = true := by
  simp [isBareChar, Char.isAlphanum, h]

theorem headNotBare_notDigit (cs : List Char) (h : headNotBare cs) : headNotDigit cs := by
  cases cs with
  | nil => trivial
  | cons c t =>
    simp only [headNotBare, headNotDigit] at *
    cases hd : c.isDigit with
    | false => rfl
    | true => rw [isDigit_isBareChar c hd] at h; exact h

theorem isBareChar_ne (c : Char) (h : isBareChar c = true) :
    isWsChar c = false ∧ c ≠ '"' ∧ c ≠ '\'' ∧ c ≠ '(' ∧ c ≠ ')' ∧ c ≠ '|' ∧
      c ≠ ',' ∧ c ≠ '=' ∧ c ≠ '<' ∧ c ≠ '>' := by
  refine ⟨?_, ?_, ?_, ?_, ?_, ?_, ?_, ?_, ?_, ?_⟩
  · by_cases hw : isWsChar c = true
    · exfalso
      simp [isWsChar] at hw
      rcases hw with ((rfl | rfl) | rfl) | rfl <;> revert h <;> decide
    · simpa using hw
  all_goals rintro rfl <;> revert h <;> decide

theorem FmtHeadOK_ne (c : Char) (h : FmtHeadOK c) :
    isWsChar c = false ∧ c ≠ ')' ∧ c ≠ '|' ∧ c ≠ ',' ∧ c ≠ '=' ∧ c ≠ '<' ∧ c ≠ '>' := by
  rcases h with h | rfl | rfl | rfl
  · obtain ⟨h1, -, -, -, h2, h3, h4, h5, h6, h7⟩ := isBareChar_ne c h
    exact ⟨h1, h2, h3, h4, h5, h6, h7⟩
  all_goals exact ⟨by decide, by decide, by decide, by decide, by decide, by decide, by decide⟩

theorem skipWs_cons_of (c : Char) (t : List Char) (h : isWsChar c = false) :
    skipWs (c :: t) = c :: t := by
  simp [skipWs, h]

theorem digitChar_isDigit (d : Nat) (h : d < 10) : (digitChar d).isDigit = true := by
  interval_cases d <;> decide

theorem digitChar_toNat (d : Nat) (h : d < 10) : (digitChar d).toNat - 48 = d := by
  interval_cases d <;> decide

theorem digitsVal_concat (xs : List Char) (c : Char) :
    digitsVal (xs ++ [c]) = 10 * digitsVal xs + (c.toNat - 48) := by
  unfold digitsVal
  rw [List.foldl_append]
  simp

theorem natDigitsF_spec :
    ∀ fuel n, n < fuel →
      natDigitsF fuel n ≠ [] ∧ (∀ c ∈ natDigitsF fuel n, c.isDigit = true) ∧
        digitsVal (natDigitsF fuel n) = n := by
  intro fuel
  induction fuel with
  | zero => intro n hn; omega
  | succ fuel ih =>
    intro n hn
    simp only [natDigitsF]
    split
    · next h10 =>
      refine ⟨by simp, ?_, ?_⟩
      · intro c hc
        simp at hc
        subst hc
        exact digitChar_isDigit n h10
      · have := digitChar_toNat n h10
        simp [digitsVal]
        omega
    · next h10 =>
      have hdiv : n / 10 < n := Nat.div_lt_self (by omega) (by omega)
      have hrec := ih (n / 10) (by omega)
      have hmod : n % 10 < 10 := Nat.mod_lt n (by omega)
      refine ⟨by simp, ?_, ?_⟩
      · intro c hc
        rw [List.mem_append] at hc
        rcases hc with hc | hc
        · exact hrec.2.1 c hc
        · simp at hc
          subst hc
          exact digitChar_isDigit _ hmod
      · rw [digitsVal_concat, hrec.2.2, digitChar_toNat _ hmod]
        omega

theorem natDigits_spec (n : Nat) :
    natDigits n ≠ [] ∧ (∀ c ∈ natDigits n, c.isDigit = true) ∧
      digitsVal (natDigits n) = n :=
  natDigitsF_spec (n + 1) n (Nat.lt_succ_self n)

theorem takeBare_exact (bs sfx : List Char) (hb : ∀ c ∈ bs, isBareChar c)
    (hs : headNotBare sfx) : takeBare (bs ++ sfx) = (bs, sfx) := by
  induction bs with
  | nil =>
    cases sfx with
    | nil => rfl
    | cons c t =>
      simp only [headNotBare] at hs
      simp [takeBare, hs]
  | cons b bs' ih =>
    have hb1 : isBareChar b = true := hb b (by simp)
    simp only [List.cons_append, takeBare, hb1, if_true, List.append_eq]
    rw [ih (fun c hc => hb c (by simp [hc]))]

theorem takeDigits_exact (ds sfx : List Char) (hd : ∀ c ∈ ds, c.isDigit = true)
    (hs : headNotDigit sfx) : takeDigits (ds ++ sfx) = (ds, sfx) := by
  induction ds with
  | nil =>
    cases sfx with
    | nil => rfl
    | cons c t =>
      simp only [headNotDigit] at hs
      simp [takeDigits, hs]
  | cons d ds' ih =>
    have hd1 : d.isDigit = true := hd d (by simp)
    simp only [List.cons_append, takeDigits, hd1, if_true, List.append_eq]
    rw [ih (fun c hc => hd c (by simp [hc]))]

theorem takeUntilChar_exact (d : Char) (body rest : List Char) (h : d ∉ body) :
    takeUntilChar d (body ++ d :: rest) = some (body, rest) := by
  induction body with
  | nil => simp [takeUntilChar]
  | cons c t ih =>
    have hcd : c ≠ d := by
      intro hc
      exact h (by simp [hc])
    simp only [List.cons_append, takeUntilChar, if_neg hcd, List.append_eq]
    rw [ih (fun hm => h (by simp [hm]))]

theorem lexBare_exact (b : Char) (bs sfx : List Char)
    (hb : ∀ c ∈ b :: bs, isBareChar c) (hs : headNotBare sfx) :
    lexBare ((b :: bs) ++ sfx) = some (⟨b :: bs⟩, sfx) := by
  unfold lexBare
  rw [takeBare_exact _ _ hb hs]

theorem lexNumber_exact (m : Nat) (sfx : List Char) (hs : headNotDigit sfx) :
    lexNumber (natDigits m ++ sfx) = some ((m : Int), sfx) := by
  obtain ⟨hne, hdig, hval⟩ := natDigits_spec m
  unfold lexNumber
  rw [takeDigits_exact _ _ hdig hs]
  cases hnd : natDigits m with
  | nil => exact absurd hnd hne
  | cons d ds =>
    rw [hnd] at hval
    simp [← hval]

theorem lexQuoted_exact (delim : Char) (body rest : List Char)
    (hd : delim = '"' ∨ delim = '\'') (hm : delim ∉ body) :
    lexQuoted (delim :: (body ++ delim :: rest)) = some (⟨body⟩, rest) := by
  rcases hd with rfl | rfl <;>
    simp [lexQuoted, takeUntilChar_exact _ _ _ hm]

theorem quoteDelim_spec (v : String) (h : '"' ∉ v.data ∨ '\'' ∉ v.data) :
    (quoteDelim v = '"' ∨ quoteDelim v = '\'') ∧ quoteDelim v ∉ v.data := by
  unfold quoteDelim
  split
  · next hin =>
    rcases h with h | h
    · exact absurd hin h
    · exact ⟨Or.inr rfl, h⟩
  · next hin => exact ⟨Or.inl rfl, hin⟩

theorem matchWord_cons (k : Char) (ks t : List Char) :
    matchWord (k :: ks) (k :: t) = matchWord ks t := by
  simp [matchWord, dropWord]

theorem dropWord_self (w sfx : List Char) : dropWord w (w ++ sfx) = some sfx := by
  induction w with
  | nil => rfl
  | cons k ks ih => simp [dropWord, ih]

theorem matchWord_self (w sfx : List Char) (hs : headNotBare sfx) :
    matchWord w (w ++ sfx) = some sfx := by
  unfold matchWord
  rw [dropWord_self]
  cases sfx with
  | nil => rfl
  | cons c t =>
    simp only [headNotBare] at hs
    simp [hs]

theorem matchWord_bare_ne (w : List Char) :
    ∀ bs sfx, (∀ c ∈ w, isBareChar c) → (∀ c ∈ bs, isBareChar c) →
      headNotBare sfx → bs ≠ w → matchWord w (bs ++ sfx) = none := by
  induction w with
  | nil =>
    intro bs sfx hw hb hs hne
    cases bs with
    | nil => exact absurd rfl hne
    | cons b bs' =>
      have hb1 := hb b (by simp)
      simp [matchWord, dropWord, hb1]
  | cons k ks ih =>
    intro bs sfx hw hb hs hne
    cases bs with
    | nil =>
      cases sfx with
      | nil => rfl
      | cons c t =>
        simp only [headNotBare] at hs
        have hk : isBareChar k = true := hw k (by simp)
        have hck : c ≠ k := by
          intro hc
          rw [hc] at hs
          rw [hs] at hk
          exact absurd hk (by simp)
        simp [matchWord, dropWord, hck]
    | cons b bs' =>
      by_cases hbk : b = k
      · subst hbk
        rw [List.cons_append, matchWord_cons]
        exact ih bs' sfx (fun c hc => hw c (by simp [hc]))
          (fun c hc => hb c (by simp [hc])) hs (fun he => hne (by rw [he]))
      · simp [matchWord, dropWord, hbk]

theorem kwAnd_bare (u : Bool) : ∀ c ∈ kwAnd u, isBareChar c := by
  cases u <;> decide

theorem kwOr_bare (u : Bool) : ∀ c ∈ kwOr u, isBareChar c := by
  cases u <;> decide

theorem kwNot_bare (u : Bool) : ∀ c ∈ kwNot u, isBareChar c := by
  cases u <;> decide

/-- Every serialized well-formed expression body is nonempty with a
recognizable first character. -/
theorem fmtInner_head (u : Bool) (e : ExpressionAST) (h : WFE u e) :
    ∃ c t, fmtInner e = c :: t ∧ FmtHeadOK c := by
  cases e with
  | str quoted v =>
    cases quoted with
    | true =>
      obtain ⟨hd, -⟩ := quoteDelim_spec v h
      exact ⟨quoteDelim v, _, rfl, by rcases hd with hd | hd <;> rw [hd] <;> simp [FmtHeadOK]⟩
    | false =>
      obtain ⟨⟨d, ds, hv, -⟩, hb⟩ := h
      refine ⟨d, ds, ?_, Or.inl (hb d (by rw [hv]; simp))⟩
      simp [fmtInner, hv]
  | num n =>
    obtain ⟨hne, hdig, -⟩ := natDigits_spec n.toNat
    cases hnd : natDigits n.toNat with
    | nil => exact absurd hnd hne
    | cons c t =>
      refine ⟨c, t, by simp [fmtInner, hnd], Or.inl ?_⟩
      exact isDigit_isBareChar c (hdig c (by rw [hnd]; simp))
  | cmp op l r => exact ⟨'(', _, rfl, Or.inr (Or.inl rfl)⟩
  | AND l r => exact ⟨'(', _, rfl, Or.inr (Or.inl rfl)⟩
  | OR l r => exact ⟨'(', _, rfl, Or.inr (Or.inl rfl)⟩
  | NOT e => exact ⟨'N', _, rfl, Or.inl (by decide)⟩
  | andL l r => exact ⟨'(', _, rfl, Or.inr (Or.inl rfl)⟩
  | orL l r => exact ⟨'(', _, rfl, Or.inr (Or.inl rfl)⟩
  | notL e => exact ⟨'n', _, rfl, Or.inl (by decide)⟩

/-! ## Stop characters and guaranteed parse failures -/

theorem skipWs_idem (cs : List Char) : skipWs (skipWs cs) = skipWs cs := by
  induction cs with
  | nil => rfl
  | cons c t ih =>
    by_cases h : isWsChar c = true
    · simp [skipWs, h, ih]
    · rw [skipWs_cons_of c t (by simpa using h), skipWs_cons_of c t (by simpa using h)]

theorem lexQuoted_none (c : Char) (t : List Char) (h1 : c ≠ '"') (h2 : c ≠ '\'') :
    lexQuoted (c :: t) = none := by
  unfold lexQuoted
  split
  · next cs' heq =>
    exfalso
    injection heq with hc _
    exact h1 hc
  · next cs' heq =>
    exfalso
    injection heq with hc _
    exact h2 hc
  · rfl

theorem lexNumber_none (c : Char) (t : List Char) (h : c.isDigit = false) :
    lexNumber (c :: t) = none := by
  unfold lexNumber
  simp [takeDigits, h]

theorem lexBare_none (c : Char) (t : List Char) (h : isBareChar c = false) :
    lexBare (c :: t) = none := by
  unfold lexBare
  simp [takeBare, h]

theorem StopChar_facts (c : Char) (h : StopChar c) :
    c ≠ '"' ∧ c ≠ '\'' ∧ c.isDigit = false ∧ isBareChar c = false ∧ c ≠ '(' := by
  rcases h with rfl | rfl | rfl | rfl | rfl | rfl <;> exact ⟨by decide, by decide, by decide, by decide, by decide⟩

theorem parsePrimaryWith_stop (pExpr : ParseContext → Option (ExpressionAST × ParseContext))
    (cs : List Char) (u : Bool) (h : StopText cs) :
    parsePrimaryWith pExpr ⟨cs, u⟩ = none := by
  unfold parsePrimaryWith
  unfold StopText at h
  cases hws : skipWs cs with
  | nil => simp [hws, lexQuoted, lexNumber, lexBare, takeDigits, takeBare]
  | cons c t =>
    rw [hws] at h
    obtain ⟨hq1, hq2, hd, hb, hp⟩ := StopChar_facts c h
    simp only [hws, lexQuoted_none c t hq1 hq2, lexNumber_none c t hd, lexBare_none c t hb]
    split
    · next rest heq =>
      exfalso
      injection heq with hc _
      exact hp hc
    · rfl

theorem parseCmpWith_none (pPrim : ParseContext → Option (ExpressionAST × ParseContext))
    (ctx : ParseContext) (h : pPrim ctx = none) : parseCmpWith pPrim ctx = none := by
  unfold parseCmpWith
  rw [h]

theorem matchWord_head (k : Char) (ks cs r : List Char)
    (h : matchWord (k :: ks) cs = some r) : ∃ t, cs = k :: t := by
  have hd := matchWord_eq_dropWord _ _ _ h
  cases cs with
  | nil => simp [dropWord] at hd
  | cons c t =>
    simp only [dropWord] at hd
    split at hd
    · next hc => exact ⟨t, by rw [hc]⟩
    · simp at hd

theorem parseNotWith_stop (pCmp : ParseContext → Option (ExpressionAST × ParseContext))
    (cs : List Char) (u : Bool) (hstop : StopText cs)
    (hc : pCmp ⟨cs, u⟩ = none) :
    ∀ fuel, parseNotWith pCmp fuel ⟨cs, u⟩ = none := by
  intro fuel
  cases fuel with
  | zero => rfl
  | succ fuel =>
    simp only [parseNotWith]
    cases hm : matchWord (kwNot u) (skipWs cs) with
    | none => exact hc
    | some rest =>
      exfalso
      have hk : ∃ k ks, kwNot u = k :: ks ∧ (k = 'N' ∨ k = 'n') := by
        cases u
        · exact ⟨'n', _, rfl, Or.inr rfl⟩
        · exact ⟨'N', _, rfl, Or.inl rfl⟩
      obtain ⟨k, ks, hkw, hkn⟩ := hk
      rw [hkw] at hm
      obtain ⟨t, ht⟩ := matchWord_head k ks _ _ hm
      unfold StopText at hstop
      have hstop' : StopChar k := by
        rw [ht] at hstop
        exact hstop
      rcases hkn with rfl | rfl <;>
        rcases hstop' with h | h | h | h | h | h <;> revert h <;> decide

theorem parseAndWith_none (pNot : ParseContext → Option (ExpressionAST × ParseContext))
    (fuel : Nat) (ctx : ParseContext) (h : pNot ctx = none) :
    parseAndWith pNot fuel ctx = none := by
  unfold parseAndWith
  rw [h]

theorem parseOrWith_none (pAnd : ParseContext → Option (ExpressionAST × ParseContext))
    (fuel : Nat) (ctx : ParseContext) (h : pAnd ctx = none) :
    parseOrWith pAnd fuel ctx = none := by
  unfold parseOrWith
  rw [h]

theorem parseExprF_stop (cs : List Char) (u : Bool) (h : StopText cs) :
    ∀ fuel, parseExprF fuel ⟨cs, u⟩ = none := by
  intro fuel
  cases fuel with
  | zero => rfl
  | succ fuel =>
    simp only [parseExprF]
    apply parseOrWith_none
    apply parseAndWith_none
    exact parseNotWith_stop _ _ _ h
      (parseCmpWith_none _ _ (parsePrimaryWith_stop _ _ _ h)) _

theorem parseExprF_succ (fuel : Nat) (ctx : ParseContext) :
    parseExprF (fuel + 1) ctx =
      parseOrWith (parseAndWith (notStack fuel (fuel + 1)) (fuel + 1)) (fuel + 1) ctx := rfl

theorem notStack_stop (cs : List Char) (u : Bool) (h : StopText cs) (fy fx : Nat) :
    notStack fy fx ⟨cs, u⟩ = none :=
  parseNotWith_stop _ _ _ h (parseCmpWith_none _ _ (parsePrimaryWith_stop _ _ _ h)) _

/-! ## Fuel adequacy

Any fuel exceeding the remaining input length gives the same parse
result, so the fueled functions behave like their unbounded originals. -/

theorem notStack_consumes (fy fx : Nat) : Consumes (notStack fy fx) :=
  parseNotWith_consumes _
    (parseCmpWith_consumes _
      (parsePrimaryWith_consumes _
        (fun c e c' h => Nat.le_of_lt (parseExprF_consumes fy c e c' h)))) fx

theorem matchWord_nil_kwAnd (u : Bool) : matchWord (kwAnd u) [] = none := by
  cases u <;> rfl

theorem matchWord_nil_kwOr (u : Bool) : matchWord (kwOr u) [] = none := by
  cases u <;> rfl

theorem matchWord_nil_kwNot (u : Bool) : matchWord (kwNot u) [] = none := by
  cases u <;> rfl

theorem parsePrimaryWith_congr
    (p₁ p₂ : ParseContext → Option (ExpressionAST × ParseContext))
    (ctx : ParseContext)
    (hp : ∀ c, c.rest.length < ctx.rest.length → p₁ c = p₂ c) :
    parsePrimaryWith p₁ ctx = parsePrimaryWith p₂ ctx := by
  unfold parsePrimaryWith
  split
  · rfl
  · split
    · rfl
    · split
      · rfl
      · split
        · next rest0 heq =>
          have hws' : (skipWs ctx.rest).length ≤ ctx.rest.length := skipWs_length ctx.rest
          rw [heq] at hws'
          have hlen : rest0.length < ctx.rest.length := by
            simp at hws'
            omega
          rw [hp { ctx with rest := rest0 } hlen]
        · rfl

theorem parseCmpWith_congr
    (p₁ p₂ : ParseContext → Option (ExpressionAST × ParseContext))
    (ctx : ParseContext) (hc : Consumes p₂)
    (hp : ∀ c, c.rest.length ≤ ctx.rest.length → p₁ c = p₂ c) :
    parseCmpWith p₁ ctx = parseCmpWith p₂ ctx := by
  unfold parseCmpWith
  rw [hp ctx (Nat.le_refl _)]
  split
  · rfl
  · next l c1 h1 =>
    have hlen : c1.rest.length < ctx.rest.length := hc _ _ _ h1
    split
    · rfl
    · next op rest h2 =>
      have hrest : rest.length < c1.rest.length :=
        lt_of_lt_of_le (lexCmpOp_length _ _ _ h2) (skipWs_length c1.rest)
      rw [hp { c1 with rest := rest } (by simp; omega)]

theorem parseNotWith_congr :
    ∀ n (pCmp₁ pCmp₂ : ParseContext → Option (ExpressionAST × ParseContext))
      (ctx : ParseContext) (fx₁ fx₂ : Nat),
      ctx.rest.length ≤ n → n < fx₁ → n < fx₂ →
      (∀ c, c.rest.length ≤ n → pCmp₁ c = pCmp₂ c) →
      parseNotWith pCmp₁ fx₁ ctx = parseNotWith pCmp₂ fx₂ ctx := by
  intro n
  induction n with
  | zero =>
    intro pCmp₁ pCmp₂ ctx fx₁ fx₂ hn h1 h2 hp
    obtain ⟨a, rfl⟩ : ∃ a, fx₁ = a + 1 := ⟨fx₁ - 1, by omega⟩
    obtain ⟨b, rfl⟩ : ∃ b, fx₂ = b + 1 := ⟨fx₂ - 1, by omega⟩
    have hnil : ctx.rest = [] := by
      cases hr : ctx.rest with
      | nil => rfl
      | cons c t => rw [hr] at hn; simp at hn
    simp only [parseNotWith, hnil, skipWs, matchWord_nil_kwNot]
    exact hp ctx (by rw [hnil]; simp)
  | succ n ih =>
    intro pCmp₁ pCmp₂ ctx fx₁ fx₂ hn h1 h2 hp
    obtain ⟨a, rfl⟩ : ∃ a, fx₁ = a + 1 := ⟨fx₁ - 1, by omega⟩
    obtain ⟨b, rfl⟩ : ∃ b, fx₂ = b + 1 := ⟨fx₂ - 1, by omega⟩
    simp only [parseNotWith]
    split
    · exact hp ctx (by omega)
    · next rest hm =>
      have hr : rest.length < ctx.rest.length := by
        have := matchWord_length _ _ _ hm
        have := skipWs_length ctx.rest
        have := kwNot_length ctx.compareExpr
        omega
      rw [ih pCmp₁ pCmp₂ { ctx with rest := rest } a b (by simp; omega) (by omega) (by omega)
        (fun c hcle => hp c (by omega))]
      cases parseNotWith pCmp₂ b { ctx with rest := rest } with
      | none => exact hp ctx (by omega)
      | some p => rfl

theorem chainAndWith_congr :
    ∀ n (p₁ p₂ : ParseContext → Option (ExpressionAST × ParseContext))
      (f₁ f₂ : Nat) (lhs : ExpressionAST) (ctx : ParseContext),
      ctx.rest.length ≤ n → n < f₁ → n < f₂ → Consumes p₂ →
      (∀ c, c.rest.length ≤ n → p₁ c = p₂ c) →
      chainAndWith p₁ f₁ lhs ctx = chainAndWith p₂ f₂ lhs ctx := by
  intro n
  induction n with
  | zero =>
    intro p₁ p₂ f₁ f₂ lhs ctx hn h1 h2 hc hp
    obtain ⟨a, rfl⟩ : ∃ a, f₁ = a + 1 := ⟨f₁ - 1, by omega⟩
    obtain ⟨b, rfl⟩ : ∃ b, f₂ = b + 1 := ⟨f₂ - 1, by omega⟩
    have hnil : ctx.rest = [] := by
      cases hr : ctx.rest with
      | nil => rfl
      | cons c t => rw [hr] at hn; simp at hn
    simp only [chainAndWith, hnil, skipWs, matchWord_nil_kwAnd]
  | succ n ih =>
    intro p₁ p₂ f₁ f₂ lhs ctx hn h1 h2 hc hp
    obtain ⟨a, rfl⟩ : ∃ a, f₁ = a + 1 := ⟨f₁ - 1, by omega⟩
    obtain ⟨b, rfl⟩ : ∃ b, f₂ = b + 1 := ⟨f₂ - 1, by omega⟩
    simp only [chainAndWith]
    split
    · rfl
    · next rest hm =>
      have hr : rest.length < ctx.rest.length := by
        have := matchWord_length _ _ _ hm
        have := skipWs_length ctx.rest
        have := kwAnd_length ctx.compareExpr
        omega
      rw [hp { ctx with rest := rest } (by simp; omega)]
      split
      · rfl
      · next r c1 h2' =>
        have hlen : c1.rest.length < rest.length := by
          have := hc _ _ _ h2'
          simpa using this
        exact ih p₁ p₂ a b (mkAnd ctx.compareExpr lhs r) c1 (by omega) (by omega) (by omega)
          hc (fun c hcle => hp c (by omega))

theorem parseAndWith_congr
    (p₁ p₂ : ParseContext → Option (ExpressionAST × ParseContext))
    (f₁ f₂ : Nat) (ctx : ParseContext)
    (h1 : ctx.rest.length < f₁) (h2 : ctx.rest.length < f₂) (hc : Consumes p₂)
    (hp : ∀ c, c.rest.length ≤ ctx.rest.length → p₁ c = p₂ c) :
    parseAndWith p₁ f₁ ctx = parseAndWith p₂ f₂ ctx := by
  unfold parseAndWith
  rw [hp ctx (Nat.le_refl _)]
  split
  · rfl
  · next l c1 h3 =>
    have hlen : c1.rest.length < ctx.rest.length := hc _ _ _ h3
    rw [chainAndWith_congr c1.rest.length p₁ p₂ f₁ f₂ l c1 (Nat.le_refl _)
      (by omega) (by omega) hc (fun c hcle => hp c (by omega))]

theorem chainOrWith_congr :
    ∀ n (p₁ p₂ : ParseContext → Option (ExpressionAST × ParseContext))
      (f₁ f₂ : Nat) (lhs : ExpressionAST) (ctx : ParseContext),
      ctx.rest.length ≤ n → n < f₁ → n < f₂ → Consumes p₂ →
      (∀ c, c.rest.length ≤ n → p₁ c = p₂ c) →
      chainOrWith p₁ f₁ lhs ctx = chainOrWith p₂ f₂ lhs ctx := by
  intro n
  induction n with
  | zero =>
    intro p₁ p₂ f₁ f₂ lhs ctx hn h1 h2 hc hp
    obtain ⟨a, rfl⟩ : ∃ a, f₁ = a + 1 := ⟨f₁ - 1, by omega⟩
    obtain ⟨b, rfl⟩ : ∃ b, f₂ = b + 1 := ⟨f₂ - 1, by omega⟩
    have hnil : ctx.rest = [] := by
      cases hr : ctx.rest with
      | nil => rfl
      | cons c t => rw [hr] at hn; simp at hn
    simp only [chainOrWith, hnil, skipWs, matchWord_nil_kwOr]
  | succ n ih =>
    intro p₁ p₂ f₁ f₂ lhs ctx hn h1 h2 hc hp
    obtain ⟨a, rfl⟩ : ∃ a, f₁ = a + 1 := ⟨f₁ - 1, by omega⟩
    obtain ⟨b, rfl⟩ : ∃ b, f₂ = b + 1 := ⟨f₂ - 1, by omega⟩
    simp only [chainOrWith]
    split
    · rfl
    · next rest hm =>
      have hr : rest.length < ctx.rest.length := by
        have := matchWord_length _ _ _ hm
        have := skipWs_length ctx.rest
        have := kwOr_length ctx.compareExpr
        omega
      rw [hp { ctx with rest := rest } (by simp; omega)]
      split
      · rfl
      · next r c1 h2' =>
        have hlen : c1.rest.length < rest.length := by
          have := hc _ _ _ h2'
          simpa using this
        exact ih p₁ p₂ a b (mkOr ctx.compareExpr lhs r) c1 (by omega) (by omega) (by omega)
          hc (fun c hcle => hp c (by omega))

theorem parseOrWith_congr
    (p₁ p₂ : ParseContext → Option (ExpressionAST × ParseContext))
    (f₁ f₂ : Nat) (ctx : ParseContext)
    (h1 : ctx.rest.length < f₁) (h2 : ctx.rest.length < f₂) (hc : Consumes p₂)
    (hp : ∀ c, c.rest.length ≤ ctx.rest.length → p₁ c = p₂ c) :
    parseOrWith p₁ f₁ ctx = parseOrWith p₂ f₂ ctx := by
  unfold parseOrWith
  rw [hp ctx (Nat.le_refl _)]
  split
  · rfl
  · next l c1 h3 =>
    have hlen : c1.rest.length < ctx.rest.length := hc _ _ _ h3
    rw [chainOrWith_congr c1.rest.length p₁ p₂ f₁ f₂ l c1 (Nat.le_refl _)
      (by omega) (by omega) hc (fun c hcle => hp c (by omega))]

/-- Any two adequate fuels give the same expression parse. -/
theorem parseExprF_adequate :
    ∀ n ctx f₁ f₂, ctx.rest.length ≤ n → ctx.rest.length < f₁ → ctx.rest.length < f₂ →
      parseExprF f₁ ctx = parseExprF f₂ ctx := by
  intro n
  induction n with
  | zero =>
    intro ctx f₁ f₂ hn h1 h2
    obtain ⟨a, rfl⟩ : ∃ a, f₁ = a + 1 := ⟨f₁ - 1, by omega⟩
    obtain ⟨b, rfl⟩ : ∃ b, f₂ = b + 1 := ⟨f₂ - 1, by omega⟩
    rw [parseExprF_succ, parseExprF_succ]
    apply parseOrWith_congr _ _ _ _ _ (by omega) (by omega)
      (parseAndWith_consumes _ (notStack_consumes b (b + 1)) _)
    intro c hcle
    apply parseAndWith_congr _ _ _ _ _ (by omega) (by omega) (notStack_consumes b (b + 1))
    intro c' hcle'
    apply parseNotWith_congr c'.rest.length _ _ _ _ _ (Nat.le_refl _) (by omega) (by omega)
    intro c'' hcle''
    apply parseCmpWith_congr _ _ _
      (parsePrimaryWith_consumes _
        (fun x e x' hx => Nat.le_of_lt (parseExprF_consumes b x e x' hx)))
    intro c3 hcle3
    apply parsePrimaryWith_congr
    intro c4 hlt4
    exfalso
    omega
  | succ n ih =>
    intro ctx f₁ f₂ hn h1 h2
    obtain ⟨a, rfl⟩ : ∃ a, f₁ = a + 1 := ⟨f₁ - 1, by omega⟩
    obtain ⟨b, rfl⟩ : ∃ b, f₂ = b + 1 := ⟨f₂ - 1, by omega⟩
    rw [parseExprF_succ, parseExprF_succ]
    apply parseOrWith_congr _ _ _ _ _ (by omega) (by omega)
      (parseAndWith_consumes _ (notStack_consumes b (b + 1)) _)
    intro c hcle
    apply parseAndWith_congr _ _ _ _ _ (by omega) (by omega) (notStack_consumes b (b + 1))
    intro c' hcle'
    apply parseNotWith_congr c'.rest.length _ _ _ _ _ (Nat.le_refl _) (by omega) (by omega)
    intro c'' hcle''
    apply parseCmpWith_congr _ _ _
      (parsePrimaryWith_consumes _
        (fun x e x' hx => Nat.le_of_lt (parseExprF_consumes b x e x' hx)))
    intro c3 hcle3
    apply parsePrimaryWith_congr
    intro c4 hlt4
    exact ih c4 a b (by omega) (by omega) (by omega)

/-- Any two adequate fuel pairs give the same NOT-level parse. -/
theorem notStack_adequate (ctx : ParseContext) (fy₁ fx₁ fy₂ fx₂ : Nat)
    (hy₁ : ctx.rest.length ≤ fy₁) (hx₁ : ctx.rest.length < fx₁)
    (hy₂ : ctx.rest.length ≤ fy₂) (hx₂ : ctx.rest.length < fx₂) :
    notStack fy₁ fx₁ ctx = notStack fy₂ fx₂ ctx := by
  unfold notStack
  apply parseNotWith_congr ctx.rest.length _ _ _ _ _ (Nat.le_refl _) hx₁ hx₂
  intro c hcle
  apply parseCmpWith_congr _ _ _
    (parsePrimaryWith_consumes _
      (fun x e x' hx => Nat.le_of_lt (parseExprF_consumes fy₂ x e x' hx)))
  intro c' hcle'
  apply parsePrimaryWith_congr
  intro c4 hlt4
  exact parseExprF_adequate c4.rest.length c4 fy₁ fy₂ (Nat.le_refl _) (by omega) (by omega)

/-! ## Completeness helpers: keyword matching against serialized text -/

theorem lexCmpOp_nil : lexCmpOp [] = none := rfl

theorem lexCmpOp_none_of (c : Char) (t : List Char)
    (h1 : c ≠ '=') (h2 : c ≠ '<') (h3 : c ≠ '>') : lexCmpOp (c :: t) = none := by
  unfold lexCmpOp
  split
  · next heq => injection heq with hc _; exact absurd hc h2
  · next heq => injection heq with hc _; exact absurd hc h3
  · next heq => injection heq with hc _; exact absurd hc h2
  · next heq => injection heq with hc _; exact absurd hc h3
  · next heq => injection heq with hc _; exact absurd hc h1
  · rfl

theorem NoOpHead_lexCmpOp (sfx : List Char) (h : NoOpHead sfx) :
    lexCmpOp (skipWs sfx) = none := by
  unfold NoOpHead at h
  cases hws : skipWs sfx with
  | nil => exact lexCmpOp_nil
  | cons c t =>
    rw [hws] at h
    exact lexCmpOp_none_of c t h.1 h.2.1 h.2.2

theorem matchWord_ne_head (k : Char) (ks : List Char) (c : Char) (t : List Char)
    (h : c ≠ k) : matchWord (k :: ks) (c :: t) = none := by
  simp [matchWord, dropWord, h]

theorem StopText_of_EndText (sfx : List Char) (h : EndText sfx) : StopText sfx := by
  unfold EndText at h
  unfold StopText
  cases hws : skipWs sfx with
  | nil => trivial
  | cons c t =>
    rw [hws] at h
    rcases h with rfl | rfl | rfl
    · exact Or.inl rfl
    · exact Or.inr (Or.inr (Or.inl rfl))
    · exact Or.inr (Or.inl rfl)

theorem headNotBare_of_EndText (sfx : List Char) (h : EndText sfx) : headNotBare sfx := by
  cases sfx with
  | nil => trivial
  | cons c t =>
    show isBareChar c = false
    by_cases hw : isWsChar c = true
    · cases hb : isBareChar c with
      | false => rfl
      | true => exact absurd hw (by rw [(isBareChar_ne c hb).1]; simp)
    · unfold EndText at h
      rw [skipWs_cons_of c t (by simpa using hw)] at h
      rcases h with rfl | rfl | rfl <;> rfl

/-- An expression-ending suffix satisfies every continuation-failure
condition at once. -/
theorem endText_package (u : Bool) (sfx : List Char) (h : EndText sfx) :
    headNotBare sfx ∧ NoOpHead sfx ∧ NotFails u sfx ∧
      AndExtFails u sfx ∧ OrExtFails u sfx := by
  have hstop := StopText_of_EndText sfx h
  refine ⟨headNotBare_of_EndText sfx h, ?_, ?_, ?_, ?_⟩
  · unfold NoOpHead
    unfold EndText at h
    cases hws : skipWs sfx with
    | nil => trivial
    | cons c t =>
      rw [hws] at h
      rcases h with rfl | rfl | rfl <;> exact ⟨by decide, by decide, by decide⟩
  · exact fun fy fx => notStack_stop sfx u hstop fy fx
  · intro rest hm
    exfalso
    unfold EndText at h
    cases hws : skipWs sfx with
    | nil => rw [hws, matchWord_nil_kwAnd] at hm; exact Option.noConfusion hm
    | cons c t =>
      rw [hws] at h hm
      have hk : ∃ k ks, kwAnd u = k :: ks ∧ (k = 'A' ∨ k = 'a') := by
        cases u
        · exact ⟨'a', _, rfl, Or.inr rfl⟩
        · exact ⟨'A', _, rfl, Or.inl rfl⟩
      obtain ⟨k, ks, hkw, hka⟩ := hk
      rw [hkw] at hm
      rw [matchWord_ne_head k ks c t ?_] at hm
      · exact Option.noConfusion hm
      · rcases hka with rfl | rfl <;> rcases h with rfl | rfl | rfl <;> decide
  · intro rest hm
    exfalso
    unfold EndText at h
    cases hws : skipWs sfx with
    | nil => rw [hws, matchWord_nil_kwOr] at hm; exact Option.noConfusion hm
    | cons c t =>
      rw [hws] at h hm
      have hk : ∃ k ks, kwOr u = k :: ks ∧ (k = 'O' ∨ k = 'o') := by
        cases u
        · exact ⟨'o', _, rfl, Or.inr rfl⟩
        · exact ⟨'O', _, rfl, Or.inl rfl⟩
      obtain ⟨k, ks, hkw, hko⟩ := hk
      rw [hkw] at hm
      rw [matchWord_ne_head k ks c t ?_] at hm
      · exact Option.noConfusion hm
      · rcases hko with rfl | rfl <;> rcases h with rfl | rfl | rfl <;> decide

/-- A chain whose keyword check fails leaves its argument untouched. -/
theorem chainAndWith_stuck (pNot : ParseContext → Option (ExpressionAST × ParseContext))
    (lhs : ExpressionAST) (ctx : ParseContext)
    (h : matchWord (kwAnd ctx.compareExpr) (skipWs ctx.rest) = none) :
    ∀ fuel, chainAndWith pNot fuel lhs ctx = (lhs, ctx) := by
  intro fuel
  cases fuel with
  | zero => rfl
  | succ fuel => simp [chainAndWith, h]

theorem chainOrWith_stuck (pAnd : ParseContext → Option (ExpressionAST × ParseContext))
    (lhs : ExpressionAST) (ctx : ParseContext)
    (h : matchWord (kwOr ctx.compareExpr) (skipWs ctx.rest) = none) :
    ∀ fuel, chainOrWith pAnd fuel lhs ctx = (lhs, ctx) := by
  intro fuel
  cases fuel with
  | zero => rfl
  | succ fuel => simp [chainOrWith, h]

/-- A chain whose keyword matches but whose right operand fails leaves
its argument untouched. -/
theorem chainAndWith_stuck_rhs (pNot : ParseContext → Option (ExpressionAST × ParseContext))
    (lhs : ExpressionAST) (ctx : ParseContext) (rest : List Char)
    (h : matchWord (kwAnd ctx.compareExpr) (skipWs ctx.rest) = some rest)
    (hr : pNot { ctx with rest := rest } = none) :
    ∀ fuel, chainAndWith pNot fuel lhs ctx = (lhs, ctx) := by
  intro fuel
  cases fuel with
  | zero => rfl
  | succ fuel => simp [chainAndWith, h, hr]

theorem chainOrWith_stuck_rhs (pAnd : ParseContext → Option (ExpressionAST × ParseContext))
    (lhs : ExpressionAST) (ctx : ParseContext) (rest : List Char)
    (h : matchWord (kwOr ctx.compareExpr) (skipWs ctx.rest) = some rest)
    (hr : pAnd { ctx with rest := rest } = none) :
    ∀ fuel, chainOrWith pAnd fuel lhs ctx = (lhs, ctx) := by
  intro fuel
  cases fuel with
  | zero => rfl
  | succ fuel => simp [chainOrWith, h, hr]

/-- The parsers skip leading whitespace, so a context may be pre-skipped
without changing the outcome. -/
theorem parsePrimaryWith_skipWs (p : ParseContext → Option (ExpressionAST × ParseContext))
    (cs : List Char) (u : Bool) :
    parsePrimaryWith p ⟨skipWs cs, u⟩ = parsePrimaryWith p ⟨cs, u⟩ := by
  unfold parsePrimaryWith
  rw [skipWs_idem]

theorem parseCmpWith_skipWs (p : ParseContext → Option (ExpressionAST × ParseContext))
    (cs : List Char) (u : Bool)
    (hp : p ⟨skipWs cs, u⟩ = p ⟨cs, u⟩) :
    parseCmpWith p ⟨skipWs cs, u⟩ = parseCmpWith p ⟨cs, u⟩ := by
  unfold parseCmpWith
  rw [hp]

theorem notStack_skipWs (fy fx : Nat) (cs : List Char) (u : Bool) :
    notStack fy fx ⟨skipWs cs, u⟩ = notStack fy fx ⟨cs, u⟩ := by
  unfold notStack
  cases fx with
  | zero => rfl
  | succ fx =>
    simp only [parseNotWith]
    rw [skipWs_idem]
    have hcmp : parseCmpWith (parsePrimaryWith (parseExprF fy)) ⟨skipWs cs, u⟩ =
        parseCmpWith (parsePrimaryWith (parseExprF fy)) ⟨cs, u⟩ :=
      parseCmpWith_skipWs _ cs u (parsePrimaryWith_skipWs _ cs u)
    split
    · exact hcmp
    · next rest hm =>
      split
      · rfl
      · exact hcmp

theorem skipWs_space (cs : List Char) : skipWs (' ' :: cs) = skipWs cs := by
  simp [skipWs, isWsChar]

theorem notStack_space (fy fx : Nat) (cs : List Char) (u : Bool) :
    notStack fy fx ⟨' ' :: cs, u⟩ = notStack fy fx ⟨cs, u⟩ := by
  rw [← notStack_skipWs fy fx (' ' :: cs) u, skipWs_space,
    notStack_skipWs fy fx cs u]

theorem fmtInner_kwAtom (w : List Char) : fmtInner (kwAtom w) = w := rfl

theorem fmtExpr_eq (e : ExpressionAST) : fmtExpr e = '(' :: (fmtInner e ++ [')']) := rfl

theorem fmtInner_cmp (op : CompOp) (l r : ExpressionAST) :
    fmtInner (.cmp op l r) = fmtExpr l ++ (cmpOpChars op ++ fmtExpr r) := rfl

theorem fmtInner_AND (l r : ExpressionAST) :
    fmtInner (.AND l r) = fmtExpr l ++ (' ' :: (kwAnd true ++ (' ' :: fmtExpr r))) := rfl

theorem fmtInner_OR (l r : ExpressionAST) :
    fmtInner (.OR l r) = fmtExpr l ++ (' ' :: (kwOr true ++ (' ' :: fmtExpr r))) := rfl

theorem fmtInner_NOT (e : ExpressionAST) :
    fmtInner (.NOT e) = kwNot true ++ (' ' :: fmtExpr e) := rfl

theorem fmtInner_andL (l r : ExpressionAST) :
    fmtInner (.andL l r) = fmtExpr l ++ (' ' :: (kwAnd false ++ (' ' :: fmtExpr r))) := rfl

theorem fmtInner_orL (l r : ExpressionAST) :
    fmtInner (.orL l r) = fmtExpr l ++ (' ' :: (kwOr false ++ (' ' :: fmtExpr r))) := rfl

theorem fmtInner_notL (e : ExpressionAST) :
    fmtInner (.notL e) = kwNot false ++ (' ' :: fmtExpr e) := rfl

theorem kwAnd_cons (u : Bool) :
    ∃ k ks, kwAnd u = k :: ks ∧ isBareChar k = true ∧ k.isDigit = false := by
  cases u
  · exact ⟨'a', _, rfl, by decide, by decide⟩
  · exact ⟨'A', _, rfl, by decide, by decide⟩

theorem kwOr_cons (u : Bool) :
    ∃ k ks, kwOr u = k :: ks ∧ isBareChar k = true ∧ k.isDigit = false := by
  cases u
  · exact ⟨'o', _, rfl, by decide, by decide⟩
  · exact ⟨'O', _, rfl, by decide, by decide⟩

theorem kwNot_cons (u : Bool) :
    ∃ k ks, kwNot u = k :: ks ∧ isBareChar k = true ∧ k.isDigit = false := by
  cases u
  · exact ⟨'n', _, rfl, by decide, by decide⟩
  · exact ⟨'N', _, rfl, by decide, by decide⟩

theorem skipWs_bare_head (k : Char) (ks X : List Char) (hk : isWsChar k = false) :
    skipWs ((k :: ks) ++ X) = (k :: ks) ++ X := by
  rw [List.cons_append]
  exact skipWs_cons_of k (ks ++ X) hk

theorem skipWs_fmtExpr (e : ExpressionAST) (sfx : List Char) :
    skipWs (fmtExpr e ++ sfx) = fmtExpr e ++ sfx := by
  show skipWs (('(' :: (fmtInner e ++ [')'])) ++ sfx) = ('(' :: (fmtInner e ++ [')'])) ++ sfx
  exact skipWs_bare_head '(' _ sfx (by decide)

theorem skipWs_inner (u : Bool) (e : ExpressionAST) (sfx : List Char) (hwf : WFE u e) :
    skipWs (fmtInner e ++ sfx) = fmtInner e ++ sfx := by
  obtain ⟨c, t, hct, hok⟩ := fmtInner_head u e hwf
  rw [hct]
  exact skipWs_bare_head c t sfx (FmtHeadOK_ne c hok).1

theorem headNotBare_space (X : List Char) : headNotBare (' ' :: X) := by
  show isBareChar ' ' = false
  decide

theorem headNotBare_rparen (X : List Char) : headNotBare (')' :: X) := by
  show isBareChar ')' = false
  decide

theorem endText_rparen (tail : List Char) : EndText (')' :: tail) := by
  unfold EndText
  rw [skipWs_cons_of ')' tail (by decide)]
  exact Or.inl rfl

theorem lexCmpOp_exact (op : CompOp) (c : Char) (t : List Char) (hc : c ≠ '=') :
    lexCmpOp (cmpOpChars op ++ c :: t) = some (op, c :: t) := by
  cases op <;> simp [cmpOpChars, lexCmpOp, hc]

/-- A keyword never matches at the start of a serialized atom other than
the identically spelled bare atom. -/
theorem matchWord_inner_atom (k : Char) (ks : List Char) (u : Bool) (e : ExpressionAST)
    (sfx : List Char)
    (hkb : ∀ c ∈ k :: ks, isBareChar c) (hknd : k.isDigit = false)
    (hwf : WFE u e) (hatom : isCompound e → False) (hnb : headNotBare sfx)
    (hne : e ≠ kwAtom (k :: ks)) :
    matchWord (k :: ks) (fmtInner e ++ sfx) = none := by
  cases e with
  | str quoted v =>
    cases quoted with
    | false =>
      refine matchWord_bare_ne (k :: ks) v.data sfx hkb hwf.2 hnb ?_
      intro he
      apply hne
      show _ = ExpressionAST.str false ⟨k :: ks⟩
      rw [← he]
    | true =>
      obtain ⟨hd, -⟩ := quoteDelim_spec v hwf
      have hq : quoteDelim v ≠ k := by
        intro hk2
        have := hkb k (by simp)
        rcases hd with hd | hd <;> rw [hk2] at hd <;> rw [hd] at this <;>
          exact absurd this (by decide)
      show matchWord (k :: ks) ((quoteDelim v :: (v.data ++ [quoteDelim v])) ++ sfx) = none
      rw [List.cons_append]
      exact matchWord_ne_head k ks _ _ hq
  | num n =>
    obtain ⟨hne2, hdig, -⟩ := natDigits_spec n.toNat
    cases hnd : natDigits n.toNat with
    | nil => exact absurd hnd hne2
    | cons c t =>
      have hcd : c.isDigit = true := hdig c (by rw [hnd]; simp)
      have hck : c ≠ k := by
        intro hck
        rw [hck, hknd] at hcd
        exact Bool.noConfusion hcd
      show matchWord (k :: ks) (natDigits n.toNat ++ sfx) = none
      rw [hnd, List.cons_append]
      exact matchWord_ne_head k ks _ _ hck
  | cmp op l r => exact (hatom trivial).elim
  | AND l r => exact (hatom trivial).elim
  | OR l r => exact (hatom trivial).elim
  | NOT e1 => exact (hatom trivial).elim
  | andL l r => exact (hatom trivial).elim
  | orL l r => exact (hatom trivial).elim
  | notL e1 => exact (hatom trivial).elim

/-- The NOT keyword never matches at a parenthesized serialization. -/
theorem matchWord_kwNot_fmtExpr (u : Bool) (e : ExpressionAST) (sfx : List Char) :
    matchWord (kwNot u) (fmtExpr e ++ sfx) = none := by
  show matchWord (kwNot u) (('(' :: (fmtInner e ++ [')'])) ++ sfx) = none
  rw [List.cons_append]
  cases u <;> exact matchWord_ne_head _ _ _ _ (by decide)

/-- Reparsing the serialized body of an AND node (either casing) up to its
closing parenthesis recovers the node. -/
theorem innerAnd (u : Bool) (l r : ExpressionAST)
    (hBl : BStmt u l) (hBr : BStmt u r) :
    ∀ tail g,
      (fmtExpr l ++ ' ' :: (kwAnd u ++ ' ' :: (fmtExpr r ++ ')' :: tail))).length < g + 1 →
      parseExprF (g + 1)
          ⟨fmtExpr l ++ ' ' :: (kwAnd u ++ ' ' :: (fmtExpr r ++ ')' :: tail)), u⟩ =
        some (mkAnd u l r, ⟨')' :: tail, u⟩) := by
  intro tail g hlen
  have hws_l : skipWs (' ' :: (kwAnd u ++ ' ' :: (fmtExpr r ++ ')' :: tail))) =
      kwAnd u ++ ' ' :: (fmtExpr r ++ ')' :: tail) := by
    rw [skipWs_space]
    cases u <;> exact skipWs_bare_head _ _ _ (by decide)
  have hop_l : NoOpHead (' ' :: (kwAnd u ++ ' ' :: (fmtExpr r ++ ')' :: tail))) := by
    unfold NoOpHead
    rw [hws_l]
    cases u <;> exact ⟨by decide, by decide, by decide⟩
  have hlen1 : (fmtExpr l ++ ' ' :: (kwAnd u ++ ' ' :: (fmtExpr r ++ ')' :: tail))).length ≤
      g := by omega
  have hBl' := hBl (' ' :: (kwAnd u ++ ' ' :: (fmtExpr r ++ ')' :: tail))) g (g + 1)
    hop_l hlen1 hlen
  have hlenr : (fmtExpr r ++ ')' :: tail).length ≤ g := by
    simp only [List.length_append, List.length_cons] at hlen ⊢
    omega
  obtain ⟨-, hop_r, -, -, -⟩ := endText_package u (')' :: tail) (endText_rparen tail)
  have hBr' := hBr (')' :: tail) g (g + 1) hop_r hlenr (by omega)
  have hms := matchWord_self (kwAnd u) (' ' :: (fmtExpr r ++ ')' :: tail))
    (headNotBare_space _)
  have hns : notStack g (g + 1) ⟨' ' :: (fmtExpr r ++ ')' :: tail), u⟩ =
      notStack g (g + 1) ⟨fmtExpr r ++ ')' :: tail, u⟩ :=
    notStack_space g (g + 1) _ u
  have hstuckA : matchWord (kwAnd u) (skipWs (')' :: tail)) = none := by
    rw [skipWs_cons_of ')' tail (by decide)]
    cases u <;> exact matchWord_ne_head _ _ _ _ (by decide)
  have hstuck2 := chainAndWith_stuck (notStack g (g + 1)) (mkAnd u l r)
    ⟨')' :: tail, u⟩ hstuckA g
  have hAnd : parseAndWith (notStack g (g + 1)) (g + 1)
      ⟨fmtExpr l ++ ' ' :: (kwAnd u ++ ' ' :: (fmtExpr r ++ ')' :: tail)), u⟩ =
      some (mkAnd u l r, ⟨')' :: tail, u⟩) := by
    simp only [parseAndWith, hBl', chainAndWith, hws_l, hms, hns, hBr', hstuck2]
  have hstuckO : matchWord (kwOr u) (skipWs (')' :: tail)) = none := by
    rw [skipWs_cons_of ')' tail (by decide)]
    cases u <;> exact matchWord_ne_head _ _ _ _ (by decide)
  have hstuck3 := chainOrWith_stuck (parseAndWith (notStack g (g + 1)) (g + 1))
    (mkAnd u l r) ⟨')' :: tail, u⟩ hstuckO (g + 1)
  rw [parseExprF_succ]
  simp only [parseOrWith, hAnd, hstuck3]

/-- Reparsing the serialized body of an OR node (either casing) up to its
closing parenthesis recovers the node. -/
theorem innerOr (u : Bool) (l r : ExpressionAST)
    (hBl : BStmt u l) (hBr : BStmt u r) :
    ∀ tail g,
      (fmtExpr l ++ ' ' :: (kwOr u ++ ' ' :: (fmtExpr r ++ ')' :: tail))).length < g + 1 →
      parseExprF (g + 1)
          ⟨fmtExpr l ++ ' ' :: (kwOr u ++ ' ' :: (fmtExpr r ++ ')' :: tail)), u⟩ =
        some (mkOr u l r, ⟨')' :: tail, u⟩) := by
  intro tail g hlen
  have hws_l : skipWs (' ' :: (kwOr u ++ ' ' :: (fmtExpr r ++ ')' :: tail))) =
      kwOr u ++ ' ' :: (fmtExpr r ++ ')' :: tail) := by
    rw [skipWs_space]
    cases u <;> exact skipWs_bare_head _ _ _ (by decide)
  have hop_l : NoOpHead (' ' :: (kwOr u ++ ' ' :: (fmtExpr r ++ ')' :: tail))) := by
    unfold NoOpHead
    rw [hws_l]
    cases u <;> exact ⟨by decide, by decide, by decide⟩
  have hlen1 : (fmtExpr l ++ ' ' :: (kwOr u ++ ' ' :: (fmtExpr r ++ ')' :: tail))).length ≤
      g := by omega
  have hBl' := hBl (' ' :: (kwOr u ++ ' ' :: (fmtExpr r ++ ')' :: tail))) g (g + 1)
    hop_l hlen1 hlen
  have hlenr : (fmtExpr r ++ ')' :: tail).length ≤ g := by
    simp only [List.length_append, List.length_cons] at hlen ⊢
    omega
  obtain ⟨-, hop_r, -, -, -⟩ := endText_package u (')' :: tail) (endText_rparen tail)
  have hBr' := hBr (')' :: tail) g (g + 1) hop_r hlenr (by omega)
  have hstuckAL : matchWord (kwAnd u) (skipWs (' ' :: (kwOr u ++ ' ' ::
      (fmtExpr r ++ ')' :: tail)))) = none := by
    rw [hws_l]
    cases u <;> exact matchWord_ne_head _ _ _ _ (by decide)
  have hstuckL := chainAndWith_stuck (notStack g (g + 1)) l
    ⟨' ' :: (kwOr u ++ ' ' :: (fmtExpr r ++ ')' :: tail)), u⟩ hstuckAL (g + 1)
  have hstuckA : matchWord (kwAnd u) (skipWs (')' :: tail)) = none := by
    rw [skipWs_cons_of ')' tail (by decide)]
    cases u <;> exact matchWord_ne_head _ _ _ _ (by decide)
  have hstuckR := chainAndWith_stuck (notStack g (g + 1)) r ⟨')' :: tail, u⟩ hstuckA (g + 1)
  have hAndL : parseAndWith (notStack g (g + 1)) (g + 1)
      ⟨fmtExpr l ++ ' ' :: (kwOr u ++ ' ' :: (fmtExpr r ++ ')' :: tail)), u⟩ =
      some (l, ⟨' ' :: (kwOr u ++ ' ' :: (fmtExpr r ++ ')' :: tail)), u⟩) := by
    simp only [parseAndWith, hBl', hstuckL]
  have hAndR : parseAndWith (notStack g (g + 1)) (g + 1)
      ⟨' ' :: (fmtExpr r ++ ')' :: tail), u⟩ = some (r, ⟨')' :: tail, u⟩) := by
    have hns : notStack g (g + 1) ⟨' ' :: (fmtExpr r ++ ')' :: tail), u⟩ =
        notStack g (g + 1) ⟨fmtExpr r ++ ')' :: tail, u⟩ :=
      notStack_space g (g + 1) _ u
    simp only [parseAndWith, hns, hBr', hstuckR]
  have hms := matchWord_self (kwOr u) (' ' :: (fmtExpr r ++ ')' :: tail))
    (headNotBare_space _)
  have hstuckO : matchWord (kwOr u) (skipWs (')' :: tail)) = none := by
    rw [skipWs_cons_of ')' tail (by decide)]
    cases u <;> exact matchWord_ne_head _ _ _ _ (by decide)
  have hstuck3 := chainOrWith_stuck (parseAndWith (notStack g (g + 1)) (g + 1))
    (mkOr u l r) ⟨')' :: tail, u⟩ hstuckO g
  rw [parseExprF_succ]
  simp only [parseOrWith, hAndL, chainOrWith, hws_l, hms, hAndR, hstuck3]

/-- Reparsing the serialized body of a NOT node (either casing) up to its
closing parenthesis recovers the node. -/
theorem innerNot (u : Bool) (e : ExpressionAST) (hBe : BStmt u e) :
    ∀ tail g,
      (kwNot u ++ ' ' :: (fmtExpr e ++ ')' :: tail)).length < g + 1 →
      parseExprF (g + 1) ⟨kwNot u ++ ' ' :: (fmtExpr e ++ ')' :: tail), u⟩ =
        some (mkNot u e, ⟨')' :: tail, u⟩) := by
  intro tail g hlen
  have hwsT : skipWs (kwNot u ++ ' ' :: (fmtExpr e ++ ')' :: tail)) =
      kwNot u ++ ' ' :: (fmtExpr e ++ ')' :: tail) := by
    cases u <;> exact skipWs_bare_head _ _ _ (by decide)
  have hms := matchWord_self (kwNot u) (' ' :: (fmtExpr e ++ ')' :: tail))
    (headNotBare_space _)
  have hlene : (fmtExpr e ++ ')' :: tail).length < g := by
    simp only [List.length_append, List.length_cons] at hlen ⊢
    have : (kwNot u).length = 3 := by cases u <;> rfl
    omega
  obtain ⟨-, hop_r, -, -, -⟩ := endText_package u (')' :: tail) (endText_rparen tail)
  have hBe' := hBe (')' :: tail) g g hop_r (by omega) hlene
  have hrec : parseNotWith (parseCmpWith (parsePrimaryWith (parseExprF g))) g
      ⟨' ' :: (fmtExpr e ++ ')' :: tail), u⟩ = some (e, ⟨')' :: tail, u⟩) := by
    show notStack g g ⟨' ' :: (fmtExpr e ++ ')' :: tail), u⟩ = some (e, ⟨')' :: tail, u⟩)
    rw [notStack_space g g _ u]
    exact hBe'
  have hNot : notStack g (g + 1) ⟨kwNot u ++ ' ' :: (fmtExpr e ++ ')' :: tail), u⟩ =
      some (mkNot u e, ⟨')' :: tail, u⟩) := by
    unfold notStack
    simp only [parseNotWith, hwsT, hms, hrec]
  have hstuckA : matchWord (kwAnd u) (skipWs (')' :: tail)) = none := by
    rw [skipWs_cons_of ')' tail (by decide)]
    cases u <;> exact matchWord_ne_head _ _ _ _ (by decide)
  have hstuck2 := chainAndWith_stuck (notStack g (g + 1)) (mkNot u e)
    ⟨')' :: tail, u⟩ hstuckA (g + 1)
  have hAnd : parseAndWith (notStack g (g + 1)) (g + 1)
      ⟨kwNot u ++ ' ' :: (fmtExpr e ++ ')' :: tail), u⟩ =
      some (mkNot u e, ⟨')' :: tail, u⟩) := by
    simp only [parseAndWith, hNot, hstuck2]
  have hstuckO : matchWord (kwOr u) (skipWs (')' :: tail)) = none := by
    rw [skipWs_cons_of ')' tail (by decide)]
    cases u <;> exact matchWord_ne_head _ _ _ _ (by decide)
  have hstuck3 := chainOrWith_stuck (parseAndWith (notStack g (g + 1)) (g + 1))
    (mkNot u e) ⟨')' :: tail, u⟩ hstuckO (g + 1)
  rw [parseExprF_succ]
  simp only [parseOrWith, hAnd, hstuck3]

/-- Reparsing the serialized body of a comparison node up to its closing
parenthesis recovers the node. -/
theorem innerCmp (u : Bool) (op : CompOp) (l r : ExpressionAST)
    (hAl : AStmt u l) (hAr : AStmt u r) :
    ∀ tail g,
      (fmtExpr l ++ (cmpOpChars op ++ (fmtExpr r ++ ')' :: tail))).length < g + 1 →
      parseExprF (g + 1)
          ⟨fmtExpr l ++ (cmpOpChars op ++ (fmtExpr r ++ ')' :: tail)), u⟩ =
        some (.cmp op l r, ⟨')' :: tail, u⟩) := by
  intro tail g hlen
  have hws1 : skipWs (cmpOpChars op ++ (fmtExpr r ++ ')' :: tail)) =
      cmpOpChars op ++ (fmtExpr r ++ ')' :: tail) := by
    cases op <;> exact skipWs_bare_head _ _ _ (by decide)
  have hlen1 : (fmtExpr l ++ (cmpOpChars op ++ (fmtExpr r ++ ')' :: tail))).length ≤ g := by
    omega
  have hAl' := hAl (cmpOpChars op ++ (fmtExpr r ++ ')' :: tail)) g hlen1
  have hlenr : (fmtExpr r ++ ')' :: tail).length ≤ g := by
    have hople : 1 ≤ (cmpOpChars op).length := by cases op <;> decide
    simp only [List.length_append, List.length_cons] at hlen ⊢
    omega
  have hAr' := hAr (')' :: tail) g hlenr
  have hlex : lexCmpOp (cmpOpChars op ++ (fmtExpr r ++ ')' :: tail)) =
      some (op, fmtExpr r ++ ')' :: tail) := by
    show lexCmpOp (cmpOpChars op ++ (('(' :: (fmtInner r ++ [')'])) ++ ')' :: tail)) =
      some (op, ('(' :: (fmtInner r ++ [')'])) ++ ')' :: tail)
    rw [List.cons_append]
    exact lexCmpOp_exact op '(' _ (by decide)
  have hCmp : parseCmpWith (parsePrimaryWith (parseExprF g))
      ⟨fmtExpr l ++ (cmpOpChars op ++ (fmtExpr r ++ ')' :: tail)), u⟩ =
      some (.cmp op l r, ⟨')' :: tail, u⟩) := by
    simp only [parseCmpWith, hAl', hws1, hlex, hAr']
  have hwsT := skipWs_fmtExpr l (cmpOpChars op ++ (fmtExpr r ++ ')' :: tail))
  have hm := matchWord_kwNot_fmtExpr u l (cmpOpChars op ++ (fmtExpr r ++ ')' :: tail))
  have hNot : notStack g (g + 1)
      ⟨fmtExpr l ++ (cmpOpChars op ++ (fmtExpr r ++ ')' :: tail)), u⟩ =
      some (.cmp op l r, ⟨')' :: tail, u⟩) := by
    unfold notStack
    simp only [parseNotWith, hwsT, hm, hCmp]
  have hstuckA : matchWord (kwAnd u) (skipWs (')' :: tail)) = none := by
    rw [skipWs_cons_of ')' tail (by decide)]
    cases u <;> exact matchWord_ne_head _ _ _ _ (by decide)
  have hstuck2 := chainAndWith_stuck (notStack g (g + 1)) (.cmp op l r)
    ⟨')' :: tail, u⟩ hstuckA (g + 1)
  have hAnd : parseAndWith (notStack g (g + 1)) (g + 1)
      ⟨fmtExpr l ++ (cmpOpChars op ++ (fmtExpr r ++ ')' :: tail)), u⟩ =
      some (.cmp op l r, ⟨')' :: tail, u⟩) := by
    simp only [parseAndWith, hNot, hstuck2]
  have hstuckO : matchWord (kwOr u) (skipWs (')' :: tail)) = none := by
    rw [skipWs_cons_of ')' tail (by decide)]
    cases u <;> exact matchWord_ne_head _ _ _ _ (by decide)
  have hstuck3 := chainOrWith_stuck (parseAndWith (notStack g (g + 1)) (g + 1))
    (.cmp op l r) ⟨')' :: tail, u⟩ hstuckO (g + 1)
  rw [parseExprF_succ]
  simp only [parseOrWith, hAnd, hstuck3]

/-- A serialized atom reparses as a primary before any non-bare suffix. -/
theorem atomPrim (u : Bool) (e : ExpressionAST) (hwf : WFE u e)
    (hatom : isCompound e → False) :
    ∀ sfx fy, headNotBare sfx →
      parsePrimaryWith (parseExprF fy) ⟨fmtInner e ++ sfx, u⟩ = some (e, ⟨sfx, u⟩) := by
  cases e with
  | str quoted v =>
    cases quoted with
    | true =>
      intro sfx fy hnb
      obtain ⟨hd, hnotin⟩ := quoteDelim_spec v hwf
      have hdws : isWsChar (quoteDelim v) = false := by
        rcases hd with h | h <;> rw [h] <;> decide
      show parsePrimaryWith (parseExprF fy)
          ⟨(quoteDelim v :: (v.data ++ [quoteDelim v])) ++ sfx, u⟩ =
        some (.str true v, ⟨sfx, u⟩)
      rw [List.cons_append, List.append_assoc, List.singleton_append]
      simp only [parsePrimaryWith,
        skipWs_cons_of (quoteDelim v) (v.data ++ quoteDelim v :: sfx) hdws,
        lexQuoted_exact (quoteDelim v) v.data sfx hd hnotin]
    | false =>
      intro sfx fy hnb
      obtain ⟨⟨d, ds, hv, hd⟩, hb⟩ := hwf
      have hbd : isBareChar d = true := hb d (by rw [hv]; simp)
      have hws : skipWs (v.data ++ sfx) = v.data ++ sfx := by
        rw [hv]
        exact skipWs_bare_head d ds sfx (isBareChar_ne d hbd).1
      have hlq : lexQuoted (v.data ++ sfx) = none := by
        rw [hv, List.cons_append]
        exact lexQuoted_none d _ (isBareChar_ne d hbd).2.1 (isBareChar_ne d hbd).2.2.1
      have hln : lexNumber (v.data ++ sfx) = none := by
        rw [hv, List.cons_append]
        exact lexNumber_none d _ hd
      have hlb : lexBare (v.data ++ sfx) = some (v, sfx) := by
        have hx := lexBare_exact d ds sfx (by rw [← hv]; exact hb) hnb
        rw [hv, hx, ← hv]
      show parsePrimaryWith (parseExprF fy) ⟨v.data ++ sfx, u⟩ =
        some (.str false v, ⟨sfx, u⟩)
      simp only [parsePrimaryWith, hws, hlq, hln, hlb]
  | num m =>
    intro sfx fy hnb
    have hm : (0 : Int) ≤ m := hwf
    obtain ⟨hne, hdig, -⟩ := natDigits_spec m.toNat
    have hws : skipWs (natDigits m.toNat ++ sfx) = natDigits m.toNat ++ sfx := by
      cases hnd : natDigits m.toNat with
      | nil => exact absurd hnd hne
      | cons c t =>
        have hc := isDigit_isBareChar c (hdig c (by rw [hnd]; simp))
        exact skipWs_bare_head c t sfx (isBareChar_ne c hc).1
    have hlq : lexQuoted (natDigits m.toNat ++ sfx) = none := by
      cases hnd : natDigits m.toNat with
      | nil => exact absurd hnd hne
      | cons c t =>
        have hc := isDigit_isBareChar c (hdig c (by rw [hnd]; simp))
        rw [List.cons_append]
        exact lexQuoted_none c _ (isBareChar_ne c hc).2.1 (isBareChar_ne c hc).2.2.1
    have hln : lexNumber (natDigits m.toNat ++ sfx) = some ((m.toNat : Int), sfx) :=
      lexNumber_exact m.toNat sfx (headNotBare_notDigit sfx hnb)
    have hmt : ((m.toNat : Int)) = m := Int.toNat_of_nonneg hm
    show parsePrimaryWith (parseExprF fy) ⟨natDigits m.toNat ++ sfx, u⟩ =
      some (.num m, ⟨sfx, u⟩)
    simp only [parsePrimaryWith, hws, hlq, hln, hmt]
  | cmp op l r => exact (hatom trivial).elim
  | AND l r => exact (hatom trivial).elim
  | OR l r => exact (hatom trivial).elim
  | NOT e1 => exact (hatom trivial).elim
  | andL l r => exact (hatom trivial).elim
  | orL l r => exact (hatom trivial).elim
  | notL e1 => exact (hatom trivial).elim

/-- A serialized atom reparses at the NOT level; the NOT-spelled atom
needs the NOT level to fail on the suffix, since the keyword match is
then backtracked. -/
theorem atomNotLevel (u : Bool) (e : ExpressionAST) (hwf : WFE u e)
    (hatom : isCompound e → False) :
    ∀ sfx fy fx, 0 < fx → headNotBare sfx → NoOpHead sfx →
      (e = kwAtom (kwNot u) → NotFails u sfx) →
      notStack fy fx ⟨fmtInner e ++ sfx, u⟩ = some (e, ⟨sfx, u⟩) := by
  intro sfx fy fx hfx hnb hop hnf
  obtain ⟨h, rfl⟩ : ∃ h, fx = h + 1 := ⟨fx - 1, by omega⟩
  have hA' := atomPrim u e hwf hatom sfx fy hnb
  have hCmp : parseCmpWith (parsePrimaryWith (parseExprF fy)) ⟨fmtInner e ++ sfx, u⟩ =
      some (e, ⟨sfx, u⟩) := by
    simp only [parseCmpWith, hA', NoOpHead_lexCmpOp sfx hop]
  have hwsT := skipWs_inner u e sfx hwf
  by_cases he : e = kwAtom (kwNot u)
  · have hNF := hnf he
    subst he
    have hms : matchWord (kwNot u) (fmtInner (kwAtom (kwNot u)) ++ sfx) = some sfx := by
      rw [fmtInner_kwAtom]
      exact matchWord_self (kwNot u) sfx hnb
    have hrec : parseNotWith (parseCmpWith (parsePrimaryWith (parseExprF fy))) h
        ⟨sfx, u⟩ = none := by
      show notStack fy h ⟨sfx, u⟩ = none
      exact hNF fy h
    unfold notStack
    simp only [parseNotWith, hwsT, hms, hrec, hCmp]
  · have hm : matchWord (kwNot u) (fmtInner e ++ sfx) = none := by
      obtain ⟨k, ks, hkw, hkb, hknd⟩ := kwNot_cons u
      rw [hkw]
      exact matchWord_inner_atom k ks u e sfx (by rw [← hkw]; exact kwNot_bare u) hknd hwf
        hatom hnb (by rw [← hkw]; exact he)
    unfold notStack
    simp only [parseNotWith, hwsT, hm, hCmp]

/-- A serialized atom reparses as a full expression before a closing
parenthesis. -/
theorem atomInner (u : Bool) (e : ExpressionAST) (hwf : WFE u e)
    (hatom : isCompound e → False) : InnerStmt u e := by
  intro tail f hlen
  obtain ⟨g, rfl⟩ : ∃ g, f = g + 1 := ⟨f - 1, by omega⟩
  obtain ⟨hnb, hop, hNF, -, -⟩ := endText_package u (')' :: tail) (endText_rparen tail)
  have hB := atomNotLevel u e hwf hatom (')' :: tail) g (g + 1) (by omega) hnb hop
    (fun _ => hNF)
  have hstuckA : matchWord (kwAnd u) (skipWs (')' :: tail)) = none := by
    rw [skipWs_cons_of ')' tail (by decide)]
    cases u <;> exact matchWord_ne_head _ _ _ _ (by decide)
  have hstuck2 := chainAndWith_stuck (notStack g (g + 1)) e ⟨')' :: tail, u⟩ hstuckA (g + 1)
  have hAnd : parseAndWith (notStack g (g + 1)) (g + 1) ⟨fmtInner e ++ ')' :: tail, u⟩ =
      some (e, ⟨')' :: tail, u⟩) := by
    simp only [parseAndWith, hB, hstuck2]
  have hstuckO : matchWord (kwOr u) (skipWs (')' :: tail)) = none := by
    rw [skipWs_cons_of ')' tail (by decide)]
    cases u <;> exact matchWord_ne_head _ _ _ _ (by decide)
  have hstuck3 := chainOrWith_stuck (parseAndWith (notStack g (g + 1)) (g + 1)) e
    ⟨')' :: tail, u⟩ hstuckO (g + 1)
  rw [parseExprF_succ]
  simp only [parseOrWith, hAnd, hstuck3]

/-- An expression whose body reparses also reparses as a parenthesized
primary. -/
theorem primaryParen (u : Bool) (e : ExpressionAST) (hI : InnerStmt u e) : AStmt u e := by
  intro sfx fy hlen
  show parsePrimaryWith (parseExprF fy) ⟨('(' :: (fmtInner e ++ [')'])) ++ sfx, u⟩ =
    some (e, ⟨sfx, u⟩)
  rw [List.cons_append, List.append_assoc, List.singleton_append]
  have hIs := hI sfx fy (by
    have h2 : (fmtExpr e ++ sfx).length = (fmtInner e ++ ')' :: sfx).length + 1 := by
      simp [fmtExpr]
    omega)
  simp only [parsePrimaryWith, skipWs_cons_of '(' (fmtInner e ++ ')' :: sfx) (by decide),
    lexQuoted_none '(' (fmtInner e ++ ')' :: sfx) (by decide) (by decide),
    lexNumber_none '(' (fmtInner e ++ ')' :: sfx) (by decide),
    lexBare_none '(' (fmtInner e ++ ')' :: sfx) (by decide), hIs,
    skipWs_cons_of ')' sfx (by decide)]

/-- Completeness of the serializer against the expression engine: a
well-formed expression reparses exactly from its own serialization — as
the unparenthesized body before a closing parenthesis, as a
parenthesized primary, and at the NOT level. -/
theorem fmtComplete :
    ∀ n u e, eSize e ≤ n → WFE u e → InnerStmt u e ∧ AStmt u e ∧ BStmt u e := by
  intro n
  induction n with
  | zero =>
    intro u e hsize hwf
    exfalso
    cases e <;> (simp only [eSize] at hsize; omega)
  | succ n ih =>
    intro u e hsize hwf
    have hInner : InnerStmt u e := by
      cases e with
      | str quoted v => exact atomInner u _ hwf (fun h => h)
      | num m => exact atomInner u _ hwf (fun h => h)
      | cmp op l r =>
        intro tail f hlen
        obtain ⟨g, rfl⟩ : ∃ g, f = g + 1 := ⟨f - 1, by omega⟩
        obtain ⟨hwl, hwr⟩ := hwf
        have hl := ih u l (by simp only [eSize] at hsize; omega) hwl
        have hr := ih u r (by simp only [eSize] at hsize; omega) hwr
        simp only [fmtInner_cmp, List.append_assoc, List.cons_append] at hlen ⊢
        exact innerCmp u op l r hl.2.1 hr.2.1 tail g hlen
      | AND l r =>
        intro tail f hlen
        obtain ⟨g, rfl⟩ : ∃ g, f = g + 1 := ⟨f - 1, by omega⟩
        obtain ⟨hu, hwl, hwr⟩ := hwf
        subst hu
        have hl := ih true l (by simp only [eSize] at hsize; omega) hwl
        have hr := ih true r (by simp only [eSize] at hsize; omega) hwr
        simp only [fmtInner_AND, List.append_assoc, List.cons_append] at hlen ⊢
        simpa [mkAnd] using innerAnd true l r hl.2.2 hr.2.2 tail g hlen
      | OR l r =>
        intro tail f hlen
        obtain ⟨g, rfl⟩ : ∃ g, f = g + 1 := ⟨f - 1, by omega⟩
        obtain ⟨hu, hwl, hwr⟩ := hwf
        subst hu
        have hl := ih true l (by simp only [eSize] at hsize; omega) hwl
        have hr := ih true r (by simp only [eSize] at hsize; omega) hwr
        simp only [fmtInner_OR, List.append_assoc, List.cons_append] at hlen ⊢
        simpa [mkOr] using innerOr true l r hl.2.2 hr.2.2 tail g hlen
      | NOT e1 =>
        intro tail f hlen
        obtain ⟨g, rfl⟩ : ∃ g, f = g + 1 := ⟨f - 1, by omega⟩
        obtain ⟨hu, hwe⟩ := hwf
        subst hu
        have he := ih true e1 (by simp only [eSize] at hsize; omega) hwe
        simp only [fmtInner_NOT, List.append_assoc, List.cons_append] at hlen ⊢
        simpa [mkNot] using innerNot true e1 he.2.2 tail g hlen
      | andL l r =>
        intro tail f hlen
        obtain ⟨g, rfl⟩ : ∃ g, f = g + 1 := ⟨f - 1, by omega⟩
        obtain ⟨hu, hwl, hwr⟩ := hwf
        subst hu
        have hl := ih false l (by simp only [eSize] at hsize; omega) hwl
        have hr := ih false r (by simp only [eSize] at hsize; omega) hwr
        simp only [fmtInner_andL, List.append_assoc, List.cons_append] at hlen ⊢
        simpa [mkAnd] using innerAnd false l r hl.2.2 hr.2.2 tail g hlen
      | orL l r =>
        intro tail f hlen
        obtain ⟨g, rfl⟩ : ∃ g, f = g + 1 := ⟨f - 1, by omega⟩
        obtain ⟨hu, hwl, hwr⟩ := hwf
        subst hu
        have hl := ih false l (by simp only [eSize] at hsize; omega) hwl
        have hr := ih false r (by simp only [eSize] at hsize; omega) hwr
        simp only [fmtInner_orL, List.append_assoc, List.cons_append] at hlen ⊢
        simpa [mkOr] using innerOr false l r hl.2.2 hr.2.2 tail g hlen
      | notL e1 =>
        intro tail f hlen
        obtain ⟨g, rfl⟩ : ∃ g, f = g + 1 := ⟨f - 1, by omega⟩
        obtain ⟨hu, hwe⟩ := hwf
        subst hu
        have he := ih false e1 (by simp only [eSize] at hsize; omega) hwe
        simp only [fmtInner_notL, List.append_assoc, List.cons_append] at hlen ⊢
        simpa [mkNot] using innerNot false e1 he.2.2 tail g hlen
    have hA : AStmt u e := primaryParen u e hInner
    have hB : BStmt u e := by
      intro sfx fy fx hop hlenY hlenX
      obtain ⟨h, rfl⟩ : ∃ h, fx = h + 1 := ⟨fx - 1, by omega⟩
      have hA' := hA sfx fy hlenY
      have hCmp : parseCmpWith (parsePrimaryWith (parseExprF fy)) ⟨fmtExpr e ++ sfx, u⟩ =
          some (e, ⟨sfx, u⟩) := by
        simp only [parseCmpWith, hA', NoOpHead_lexCmpOp sfx hop]
      have hwsT := skipWs_fmtExpr e sfx
      have hm := matchWord_kwNot_fmtExpr u e sfx
      unfold notStack
      simp only [parseNotWith, hwsT, hm, hCmp]
    exact ⟨hInner, hA, hB⟩

theorem NoOpHead_of_SeamText (sfx : List Char) (h : SeamText sfx) : NoOpHead sfx := by
  unfold SeamText at h
  unfold NoOpHead
  cases hws : skipWs sfx with
  | nil => trivial
  | cons c t =>
    rw [hws] at h
    rcases h with rfl | rfl | rfl | rfl <;> exact ⟨by decide, by decide, by decide⟩

theorem matchWord_kwAnd_SeamText (u : Bool) (sfx : List Char) (h : SeamText sfx) :
    matchWord (kwAnd u) (skipWs sfx) = none := by
  unfold SeamText at h
  cases hws : skipWs sfx with
  | nil => exact matchWord_nil_kwAnd u
  | cons c t =>
    rw [hws] at h
    have h2 : SeamChar c := h
    obtain ⟨k, ks, hkw, hkb, -⟩ := kwAnd_cons u
    rw [hkw]
    refine matchWord_ne_head k ks c t ?_
    intro hc
    obtain ⟨-, -, -, h4, h5, h6, h7, -, -, -⟩ := isBareChar_ne k hkb
    rw [hc] at h2
    rcases h2 with h | h | h | h
    · exact h5 h
    · exact h6 h
    · exact h7 h
    · exact h4 h

theorem matchWord_kwOr_SeamText (u : Bool) (sfx : List Char) (h : SeamText sfx) :
    matchWord (kwOr u) (skipWs sfx) = none := by
  unfold SeamText at h
  cases hws : skipWs sfx with
  | nil => exact matchWord_nil_kwOr u
  | cons c t =>
    rw [hws] at h
    have h2 : SeamChar c := h
    obtain ⟨k, ks, hkw, hkb, -⟩ := kwOr_cons u
    rw [hkw]
    refine matchWord_ne_head k ks c t ?_
    intro hc
    obtain ⟨-, -, -, h4, h5, h6, h7, -, -, -⟩ := isBareChar_ne k hkb
    rw [hc] at h2
    rcases h2 with h | h | h | h
    · exact h5 h
    · exact h6 h
    · exact h7 h
    · exact h4 h

/-- Top-level completeness: a serialized well-formed expression reparses
exactly, before any suffix that may follow a complete expression. -/
theorem fmtTop (u : Bool) (e : ExpressionAST) (hwf : WFE u e) :
    ∀ sfx f, SeamText sfx → (fmtExpr e ++ sfx).length < f →
      parseExprF f ⟨fmtExpr e ++ sfx, u⟩ = some (e, ⟨sfx, u⟩) := by
  intro sfx f hseam hlen
  obtain ⟨g, rfl⟩ : ∃ g, f = g + 1 := ⟨f - 1, by omega⟩
  have hB := (fmtComplete (eSize e) u e (Nat.le_refl _) hwf).2.2
  have hB' := hB sfx g (g + 1) (NoOpHead_of_SeamText sfx hseam) (by omega) hlen
  have hstuckA := chainAndWith_stuck (notStack g (g + 1)) e ⟨sfx, u⟩
    (matchWord_kwAnd_SeamText u sfx hseam) (g + 1)
  have hAnd : parseAndWith (notStack g (g + 1)) (g + 1) ⟨fmtExpr e ++ sfx, u⟩ =
      some (e, ⟨sfx, u⟩) := by
    simp only [parseAndWith, hB', hstuckA]
  have hstuckO := chainOrWith_stuck (parseAndWith (notStack g (g + 1)) (g + 1)) e ⟨sfx, u⟩
    (matchWord_kwOr_SeamText u sfx hseam) (g + 1)
  rw [parseExprF_succ]
  simp only [parseOrWith, hAnd, hstuckO]

/-- The whole expression engine ignores leading whitespace. -/
theorem parseAndWith_skipWs (p : ParseContext → Option (ExpressionAST × ParseContext))
    (f : Nat) (cs : List Char) (u : Bool)
    (hp : p ⟨skipWs cs, u⟩ = p ⟨cs, u⟩) :
    parseAndWith p f ⟨skipWs cs, u⟩ = parseAndWith p f ⟨cs, u⟩ := by
  unfold parseAndWith
  rw [hp]

theorem parseOrWith_skipWs (p : ParseContext → Option (ExpressionAST × ParseContext))
    (f : Nat) (cs : List Char) (u : Bool)
    (hp : p ⟨skipWs cs, u⟩ = p ⟨cs, u⟩) :
    parseOrWith p f ⟨skipWs cs, u⟩ = parseOrWith p f ⟨cs, u⟩ := by
  unfold parseOrWith
  rw [hp]

theorem parseExprF_skipWs (f : Nat) (cs : List Char) (u : Bool) :
    parseExprF f ⟨skipWs cs, u⟩ = parseExprF f ⟨cs, u⟩ := by
  cases f with
  | zero => rfl
  | succ g =>
    rw [parseExprF_succ, parseExprF_succ]
    exact parseOrWith_skipWs _ _ cs u
      (parseAndWith_skipWs _ _ cs u (notStack_skipWs g (g + 1) cs u))

theorem parseExprF_space (f : Nat) (cs : List Char) (u : Bool) :
    parseExprF f ⟨' ' :: cs, u⟩ = parseExprF f ⟨cs, u⟩ := by
  rw [← parseExprF_skipWs f (' ' :: cs) u, skipWs_space, parseExprF_skipWs]

/-- `parseExpr` recovers a serialized well-formed expression before any
expression-closing suffix. -/
theorem parseExpr_fmt (u : Bool) (e : ExpressionAST) (hwf : WFE u e) (sfx : List Char)
    (hseam : SeamText sfx) :
    parseExpr ⟨fmtExpr e ++ sfx, u⟩ = some (e, ⟨sfx, u⟩) := by
  show parseExprF ((fmtExpr e ++ sfx).length + 1) ⟨fmtExpr e ++ sfx, u⟩ = some (e, ⟨sfx, u⟩)
  exact fmtTop u e hwf sfx _ hseam (Nat.lt_succ_self _)

/-! ## Soundness: parser outputs are well-formed

Every expression the engine returns is well-formed in the casing context
of its input, and every command the dispatcher returns is well-formed;
the context flag comes back unchanged from the expression engine. -/

theorem takeUntilChar_not_mem (d : Char) :
    ∀ cs body rest, takeUntilChar d cs = some (body, rest) → d ∉ body := by
  intro cs
  induction cs with
  | nil =>
    intro body rest h
    exact absurd h (by simp [takeUntilChar])
  | cons c t ih =>
    intro body rest h
    unfold takeUntilChar at h
    split at h
    · next hc =>
      rw [Option.some.injEq, Prod.mk.injEq] at h
      obtain ⟨h1, -⟩ := h
      rw [← h1]
      simp
    · next hc =>
      split at h
      · exact Option.noConfusion h
      · next body' rest' heq =>
        rw [Option.some.injEq, Prod.mk.injEq] at h
        obtain ⟨h1, -⟩ := h
        rw [← h1]
        intro hmem
        simp at hmem
        rcases hmem with rfl | hmem
        · exact hc rfl
        · exact ih body' rest' heq hmem

theorem lexQuoted_sound (cs : List Char) (v : String) (rest : List Char)
    (h : lexQuoted cs = some (v, rest)) : '"' ∉ v.data ∨ '\'' ∉ v.data := by
  unfold lexQuoted at h
  split at h
  · split at h
    · exact Option.noConfusion h
    · next body rest' heq =>
      rw [Option.some.injEq, Prod.mk.injEq] at h
      obtain ⟨h1, -⟩ := h
      left
      rw [← h1]
      exact takeUntilChar_not_mem '"' _ body rest' heq
  · split at h
    · exact Option.noConfusion h
    · next body rest' heq =>
      rw [Option.some.injEq, Prod.mk.injEq] at h
      obtain ⟨h1, -⟩ := h
      right
      rw [← h1]
      exact takeUntilChar_not_mem '\'' _ body rest' heq
  · exact Option.noConfusion h

theorem lexNumber_sound (cs : List Char) (n : Int) (rest : List Char)
    (h : lexNumber cs = some (n, rest)) : 0 ≤ n := by
  unfold lexNumber at h
  split at h
  · exact Option.noConfusion h
  · next d ds rest' heq =>
    rw [Option.some.injEq, Prod.mk.injEq] at h
    obtain ⟨h1, -⟩ := h
    rw [← h1]
    exact Int.natCast_nonneg _

theorem takeBare_bare : ∀ cs, ∀ c ∈ (takeBare cs).1, isBareChar c := by
  intro cs
  induction cs with
  | nil => intro c hc; simp [takeBare] at hc
  | cons b t ih =>
    intro c hc
    cases htb : takeBare t with
    | mk bs rest =>
      by_cases hb : isBareChar b = true
      · rw [show takeBare (b :: t) = (b :: bs, rest) from by simp [takeBare, hb, htb]] at hc
        simp at hc
        rcases hc with rfl | hc
        · exact hb
        · apply ih
          rw [htb]
          exact hc
      · rw [show takeBare (b :: t) = ([], b :: t) from by simp [takeBare, hb]] at hc
        simp at hc

theorem takeBare_head : ∀ cs b bs rest, takeBare cs = (b :: bs, rest) → ∃ t, cs = b :: t := by
  intro cs b bs rest h
  cases cs with
  | nil =>
    exfalso
    rw [show takeBare ([] : List Char) = ([], []) from rfl, Prod.mk.injEq] at h
    exact List.noConfusion h.1
  | cons c t =>
    by_cases hb : isBareChar c = true
    · cases htb : takeBare t with
      | mk bs' rest' =>
        rw [show takeBare (c :: t) = (c :: bs', rest') from by simp [takeBare, hb, htb],
          Prod.mk.injEq] at h
        obtain ⟨h1, -⟩ := h
        injection h1 with h2 h3
        exact ⟨t, by rw [h2]⟩
    · rw [show takeBare (c :: t) = ([], c :: t) from by simp [takeBare, hb],
        Prod.mk.injEq] at h
      exact absurd h.1 (by simp)

theorem lexNumber_none_head (b : Char) (t : List Char) (h : lexNumber (b :: t) = none) :
    b.isDigit = false := by
  by_cases hb : b.isDigit = true
  · exfalso
    cases htd : takeDigits t with
    | mk ds rest =>
      unfold lexNumber at h
      rw [show takeDigits (b :: t) = (b :: ds, rest) from by simp [takeDigits, hb, htd]] at h
      simp at h
  · simpa using hb

theorem WFE_mkAnd (u : Bool) (l r : ExpressionAST) (hl : WFE u l) (hr : WFE u r) :
    WFE u (mkAnd u l r) := by
  cases u
  · exact ⟨rfl, hl, hr⟩
  · exact ⟨rfl, hl, hr⟩

theorem WFE_mkOr (u : Bool) (l r : ExpressionAST) (hl : WFE u l) (hr : WFE u r) :
    WFE u (mkOr u l r) := by
  cases u
  · exact ⟨rfl, hl, hr⟩
  · exact ⟨rfl, hl, hr⟩

theorem WFE_mkNot (u : Bool) (e : ExpressionAST) (h : WFE u e) : WFE u (mkNot u e) := by
  cases u
  · exact ⟨rfl, h⟩
  · exact ⟨rfl, h⟩

theorem parsePrimaryWith_sound (p : ParseContext → Option (ExpressionAST × ParseContext))
    (hp : ESound p) : ESound (parsePrimaryWith p) := by
  intro c e c' h
  unfold parsePrimaryWith at h
  split at h
  · next v rest heq =>
    rw [Option.some.injEq, Prod.mk.injEq] at h
    obtain ⟨h1, h2⟩ := h
    rw [← h1, ← h2]
    exact ⟨lexQuoted_sound _ v rest heq, rfl⟩
  · split at h
    · next n rest heq2 =>
      rw [Option.some.injEq, Prod.mk.injEq] at h
      obtain ⟨h1, h2⟩ := h
      rw [← h1, ← h2]
      exact ⟨lexNumber_sound _ n rest heq2, rfl⟩
    · next heq2 =>
      split at h
      · next v rest heq3 =>
        rw [Option.some.injEq, Prod.mk.injEq] at h
        obtain ⟨h1, h2⟩ := h
        rw [← h1, ← h2]
        refine ⟨?_, rfl⟩
        unfold lexBare at heq3
        split at heq3
        · exact Option.noConfusion heq3
        · next b bs rest2 heq4 =>
          rw [Option.some.injEq, Prod.mk.injEq] at heq3
          obtain ⟨h3, -⟩ := heq3
          rw [← h3]
          obtain ⟨t2, ht2⟩ := takeBare_head _ b bs rest2 heq4
          constructor
          · refine ⟨b, bs, rfl, ?_⟩
            rw [ht2] at heq2
            exact lexNumber_none_head b t2 heq2
          · intro ch hch
            apply takeBare_bare (skipWs c.rest)
            rw [heq4]
            exact hch
      · split at h
        · next rest heq4 =>
          split at h
          · exact Option.noConfusion h
          · next e2 ctx2 heq5 =>
            split at h
            · next rest2 heq6 =>
              rw [Option.some.injEq, Prod.mk.injEq] at h
              obtain ⟨h1, h2⟩ := h
              rw [← h1, ← h2]
              obtain ⟨hw, hf⟩ := hp _ e2 ctx2 heq5
              exact ⟨hw, hf⟩
            · exact Option.noConfusion h
        · exact Option.noConfusion h

theorem parseCmpWith_sound (p : ParseContext → Option (ExpressionAST × ParseContext))
    (hp : ESound p) : ESound (parseCmpWith p) := by
  intro c e c' h
  unfold parseCmpWith at h
  split at h
  · exact Option.noConfusion h
  · next l c1 heq1 =>
    obtain ⟨hwl, hf1⟩ := hp c l c1 heq1
    split at h
    · rw [Option.some.injEq, Prod.mk.injEq] at h
      obtain ⟨h1, h2⟩ := h
      rw [← h1, ← h2]
      exact ⟨hwl, hf1⟩
    · next op rest heq2 =>
      split at h
      · rw [Option.some.injEq, Prod.mk.injEq] at h
        obtain ⟨h1, h2⟩ := h
        rw [← h1, ← h2]
        exact ⟨hwl, hf1⟩
      · next r c2 heq3 =>
        obtain ⟨hwr, hf2⟩ := hp _ r c2 heq3
        have hwr' : WFE c1.compareExpr r := hwr
        have hf2' : c2.compareExpr = c1.compareExpr := hf2
        rw [Option.some.injEq, Prod.mk.injEq] at h
        obtain ⟨h1, h2⟩ := h
        rw [← h1, ← h2]
        refine ⟨⟨hwl, ?_⟩, ?_⟩
        · rw [← hf1]
          exact hwr'
        · rw [hf2']
          exact hf1

theorem parseNotWith_sound (p : ParseContext → Option (ExpressionAST × ParseContext))
    (hp : ESound p) : ∀ fuel, ESound (parseNotWith p fuel) := by
  intro fuel
  induction fuel with
  | zero => intro c e c' h; exact Option.noConfusion h
  | succ fuel ih =>
    intro c e c' h
    simp only [parseNotWith] at h
    split at h
    · exact hp c e c' h
    · next rest heq =>
      split at h
      · next e2 ctx2 heq2 =>
        obtain ⟨hw, hf⟩ := ih _ e2 ctx2 heq2
        have hw' : WFE c.compareExpr e2 := hw
        rw [Option.some.injEq, Prod.mk.injEq] at h
        obtain ⟨h1, h2⟩ := h
        rw [← h1, ← h2]
        exact ⟨WFE_mkNot c.compareExpr e2 hw', hf⟩
      · exact hp c e c' h

theorem chainAndWith_sound (p : ParseContext → Option (ExpressionAST × ParseContext))
    (hp : ESound p) :
    ∀ fuel lhs c e' c', WFE c.compareExpr lhs →
      chainAndWith p fuel lhs c = (e', c') →
      WFE c.compareExpr e' ∧ c'.compareExpr = c.compareExpr := by
  intro fuel
  induction fuel with
  | zero =>
    intro lhs c e' c' hl h
    simp only [chainAndWith] at h
    rw [Prod.mk.injEq] at h
    obtain ⟨h1, h2⟩ := h
    rw [← h1, ← h2]
    exact ⟨hl, rfl⟩
  | succ fuel ih =>
    intro lhs c e' c' hl h
    simp only [chainAndWith] at h
    split at h
    · rw [Prod.mk.injEq] at h
      obtain ⟨h1, h2⟩ := h
      rw [← h1, ← h2]
      exact ⟨hl, rfl⟩
    · next rest heq =>
      split at h
      · rw [Prod.mk.injEq] at h
        obtain ⟨h1, h2⟩ := h
        rw [← h1, ← h2]
        exact ⟨hl, rfl⟩
      · next r c1 heq2 =>
        obtain ⟨hwr, hf1⟩ := hp _ r c1 heq2
        have hwr' : WFE c.compareExpr r := hwr
        have hf1' : c1.compareExpr = c.compareExpr := hf1
        have hl2 : WFE c1.compareExpr (mkAnd c.compareExpr lhs r) := by
          rw [hf1']
          exact WFE_mkAnd c.compareExpr lhs r hl hwr'
        obtain ⟨hw2, hf2⟩ := ih _ c1 e' c' hl2 h
        refine ⟨?_, ?_⟩
        · rw [← hf1']
          exact hw2
        · rw [hf2, hf1']

theorem parseAndWith_sound (p : ParseContext → Option (ExpressionAST × ParseContext))
    (hp : ESound p) (f : Nat) : ESound (parseAndWith p f) := by
  intro c e c' h
  unfold parseAndWith at h
  split at h
  · exact Option.noConfusion h
  · next l c1 heq =>
    obtain ⟨hwl, hf1⟩ := hp c l c1 heq
    have hf1' : c1.compareExpr = c.compareExpr := hf1
    rw [Option.some.injEq] at h
    have hl2 : WFE c1.compareExpr l := by
      rw [hf1']
      exact hwl
    obtain ⟨hw2, hf2⟩ := chainAndWith_sound p hp f l c1 e c' hl2 h
    refine ⟨?_, ?_⟩
    · rw [← hf1']
      exact hw2
    · rw [hf2, hf1']

theorem chainOrWith_sound (p : ParseContext → Option (ExpressionAST × ParseContext))
    (hp : ESound p) :
    ∀ fuel lhs c e' c', WFE c.compareExpr lhs →
      chainOrWith p fuel lhs c = (e', c') →
      WFE c.compareExpr e' ∧ c'.compareExpr = c.compareExpr := by
  intro fuel
  induction fuel with
  | zero =>
    intro lhs c e' c' hl h
    simp only [chainOrWith] at h
    rw [Prod.mk.injEq] at h
    obtain ⟨h1, h2⟩ := h
    rw [← h1, ← h2]
    exact ⟨hl, rfl⟩
  | succ fuel ih =>
    intro lhs c e' c' hl h
    simp only [chainOrWith] at h
    split at h
    · rw [Prod.mk.injEq] at h
      obtain ⟨h1, h2⟩ := h
      rw [← h1, ← h2]
      exact ⟨hl, rfl⟩
    · next rest heq =>
      split at h
      · rw [Prod.mk.injEq] at h
        obtain ⟨h1, h2⟩ := h
        rw [← h1, ← h2]
        exact ⟨hl, rfl⟩
      · next r c1 heq2 =>
        obtain ⟨hwr, hf1⟩ := hp _ r c1 heq2
        have hwr' : WFE c.compareExpr r := hwr
        have hf1' : c1.compareExpr = c.compareExpr := hf1
        have hl2 : WFE c1.compareExpr (mkOr c.compareExpr lhs r) := by
          rw [hf1']
          exact WFE_mkOr c.compareExpr lhs r hl hwr'
        obtain ⟨hw2, hf2⟩ := ih _ c1 e' c' hl2 h
        refine ⟨?_, ?_⟩
        · rw [← hf1']
          exact hw2
        · rw [hf2, hf1']

theorem parseOrWith_sound (p : ParseContext → Option (ExpressionAST × ParseContext))
    (hp : ESound p) (f : Nat) : ESound (parseOrWith p f) := by
  intro c e c' h
  unfold parseOrWith at h
  split at h
  · exact Option.noConfusion h
  · next l c1 heq =>
    obtain ⟨hwl, hf1⟩ := hp c l c1 heq
    have hf1' : c1.compareExpr = c.compareExpr := hf1
    rw [Option.some.injEq] at h
    have hl2 : WFE c1.compareExpr l := by
      rw [hf1']
      exact hwl
    obtain ⟨hw2, hf2⟩ := chainOrWith_sound p hp f l c1 e c' hl2 h
    refine ⟨?_, ?_⟩
    · rw [← hf1']
      exact hw2
    · rw [hf2, hf1']

theorem parseExprF_sound : ∀ fuel, ESound (parseExprF fuel) := by
  intro fuel
  induction fuel with
  | zero => intro c e c' h; exact Option.noConfusion h
  | succ fuel ih =>
    intro c e c' h
    rw [parseExprF_succ] at h
    exact parseOrWith_sound _ (parseAndWith_sound _ (parseNotWith_sound _
      (parseCmpWith_sound _ (parsePrimaryWith_sound _ ih)) (fuel + 1)) (fuel + 1))
      (fuel + 1) c e c' h

theorem parseExpr_sound : ESound parseExpr := by
  intro c e c' h
  exact parseExprF_sound _ c e c' h

theorem bareSearchLoopF_wf :
    ∀ fuel ctx filters, (∀ f ∈ filters, WFE true f) →
      ∀ f ∈ (bareSearchLoopF fuel ctx filters).1, WFE true f := by
  intro fuel
  induction fuel with
  | zero => intro ctx filters hf f hmem; exact hf f hmem
  | succ fuel ih =>
    intro ctx filters hf f hmem
    simp only [bareSearchLoopF] at hmem
    split at hmem
    · exact hf f hmem
    · next f2 ctx2 heq =>
      apply ih _ (filters ++ [f2]) ?_ f hmem
      intro g hg
      rw [List.mem_append] at hg
      rcases hg with hg | hg
      · exact hf g hg
      · simp at hg
        subst hg
        exact (parseExpr_sound _ g ctx2 heq).1

theorem parseSearchCommand_wf (ctx : ParseContext) (cmd : SearchCommandAST)
    (ctx' : ParseContext) (h : parseSearchCommand ctx = some (cmd, ctx')) :
    (∀ f ∈ cmd.filters, WFE true f) ∧ ctx'.compareExpr = false := by
  unfold parseSearchCommand at h
  split at h
  · exact Option.noConfusion h
  · next rest heq =>
    rw [Option.some.injEq, Prod.mk.injEq] at h
    obtain ⟨h1, h2⟩ := h
    rw [← h1, ← h2]
    refine ⟨?_, bareSearchLoopF_flag _ _ _⟩
    intro f hf
    exact bareSearchLoopF_wf _ _ [] (by intro g hg; simp at hg) f hf

theorem parseWhereCommand_wf (ctx : ParseContext) (c : CommandAST) (ctx' : ParseContext)
    (hflag : ctx.compareExpr = false) (h : parseWhereCommand ctx = some (c, ctx')) :
    WFC c ∧ ctx'.compareExpr = false := by
  unfold parseWhereCommand at h
  split at h
  · exact Option.noConfusion h
  · next rest heq =>
    split at h
    · exact Option.noConfusion h
    · next e ctx2 heq2 =>
      obtain ⟨hw, hf⟩ := parseExpr_sound _ e ctx2 heq2
      rw [Option.some.injEq, Prod.mk.injEq] at h
      obtain ⟨h1, h2⟩ := h
      rw [← h1, ← h2]
      constructor
      · show WFE false e
        rw [← hflag]
        exact hw
      · rw [show ctx2.compareExpr = ctx.compareExpr from hf, hflag]

theorem parseStatsCommand_wf (ctx : ParseContext) (c : CommandAST) (ctx' : ParseContext)
    (hflag : ctx.compareExpr = false) (h : parseStatsCommand ctx = some (c, ctx')) :
    WFC c ∧ ctx'.compareExpr = false := by
  unfold parseStatsCommand at h
  split at h
  · exact Option.noConfusion h
  · next rest heq =>
    rw [Option.some.injEq, Prod.mk.injEq] at h
    obtain ⟨h1, h2⟩ := h
    rw [← h1, ← h2]
    exact ⟨rfl, hflag⟩

theorem lexBare_name (cs : List Char) (v : String) (rest : List Char)
    (h : lexBare cs = some (v, rest)) :
    v.data ≠ [] ∧ ∀ c ∈ v.data, isBareChar c := by
  unfold lexBare at h
  split at h
  · exact Option.noConfusion h
  · next b bs rest2 heq =>
    rw [Option.some.injEq, Prod.mk.injEq] at h
    obtain ⟨h1, -⟩ := h
    rw [← h1]
    constructor
    · simp
    · intro ch hch
      apply takeBare_bare cs
      rw [heq]
      exact hch

theorem parseEvalBinding_wf (ctx : ParseContext) (b : String × ExpressionAST)
    (ctx' : ParseContext) (hflag : ctx.compareExpr = false)
    (h : parseEvalBinding ctx = some (b, ctx')) :
    WFB b ∧ ctx'.compareExpr = false := by
  unfold parseEvalBinding at h
  split at h
  · exact Option.noConfusion h
  · next name rest heq =>
    split at h
    · next rest2 heq2 =>
      split at h
      · exact Option.noConfusion h
      · next e ctx2 heq3 =>
        obtain ⟨hw, hf⟩ := parseExpr_sound _ e ctx2 heq3
        rw [Option.some.injEq, Prod.mk.injEq] at h
        obtain ⟨h1, h2⟩ := h
        rw [← h1, ← h2]
        refine ⟨⟨lexBare_name _ name rest heq, ?_⟩, ?_⟩
        · show WFE false e
          rw [← hflag]
          exact hw
        · rw [show ctx2.compareExpr = ctx.compareExpr from hf, hflag]
    · exact Option.noConfusion h

theorem evalBindingsLoopF_wf :
    ∀ fuel acc ctx bs ctx', ctx.compareExpr = false → (∀ b ∈ acc, WFB b) →
      evalBindingsLoopF fuel acc ctx = some (bs, ctx') →
      (∀ b ∈ bs, WFB b) ∧ (∃ extra, bs = acc ++ extra) ∧ ctx'.compareExpr = false := by
  intro fuel
  induction fuel with
  | zero => intro acc ctx bs ctx' hflag hacc h; exact Option.noConfusion h
  | succ fuel ih =>
    intro acc ctx bs ctx' hflag hacc h
    simp only [evalBindingsLoopF] at h
    split at h
    · next rest heq =>
      split at h
      · exact Option.noConfusion h
      · next b2 ctx2 heq2 =>
        obtain ⟨hb2, hf2⟩ := parseEvalBinding_wf { ctx with rest := rest } b2 ctx2 hflag heq2
        have hacc2 : ∀ b ∈ acc ++ [b2], WFB b := by
          intro g hg
          rw [List.mem_append] at hg
          rcases hg with hg | hg
          · exact hacc g hg
          · simp at hg
            subst hg
            exact hb2
        obtain ⟨hall, ⟨extra, hex⟩, hf3⟩ := ih (acc ++ [b2]) ctx2 bs ctx' hf2 hacc2 h
        refine ⟨hall, ⟨[b2] ++ extra, ?_⟩, hf3⟩
        rw [hex, List.append_assoc]
    · rw [Option.some.injEq, Prod.mk.injEq] at h
      obtain ⟨h1, h2⟩ := h
      rw [← h1, ← h2]
      exact ⟨hacc, ⟨[], by simp⟩, hflag⟩

theorem parseEvalCommand_wf (ctx : ParseContext) (c : CommandAST) (ctx' : ParseContext)
    (hflag : ctx.compareExpr = false) (h : parseEvalCommand ctx = some (c, ctx')) :
    WFC c ∧ ctx'.compareExpr = false := by
  unfold parseEvalCommand at h
  split at h
  · exact Option.noConfusion h
  · next rest heq =>
    split at h
    · exact Option.noConfusion h
    · next b ctx2 heq2 =>
      obtain ⟨hb, hf2⟩ := parseEvalBinding_wf { ctx with rest := rest } b ctx2 hflag heq2
      split at h
      · exact Option.noConfusion h
      · next bs ctx3 heq3 =>
        obtain ⟨hall, ⟨extra, hex⟩, hf3⟩ := evalBindingsLoopF_wf _ [b] ctx2 bs ctx3 hf2
          (by intro g hg; simp at hg; subst hg; exact hb) heq3
        rw [Option.some.injEq, Prod.mk.injEq] at h
        obtain ⟨h1, h2⟩ := h
        rw [← h1, ← h2]
        refine ⟨⟨?_, ?_⟩, hf3⟩
        · rw [hex]
          simp
        · intro g hg
          exact hall g hg

theorem dispatchCommand_wf (kw : CommandKeyword) (ctx : ParseContext) (c : CommandAST)
    (ctx' : ParseContext) (hflag : ctx.compareExpr = false)
    (h : dispatchCommand kw ctx = some (c, ctx')) :
    WFC c ∧ ctx'.compareExpr = false := by
  cases kw with
  | search =>
    simp only [dispatchCommand] at h
    split at h
    · exact Option.noConfusion h
    · next cmd ctx2 heq =>
      obtain ⟨hfs, hf⟩ := parseSearchCommand_wf ctx cmd ctx2 heq
      rw [Option.some.injEq, Prod.mk.injEq] at h
      obtain ⟨h1, h2⟩ := h
      rw [← h1, ← h2]
      exact ⟨hfs, hf⟩
  | whereK => exact parseWhereCommand_wf ctx c ctx' hflag h
  | stats => exact parseStatsCommand_wf ctx c ctx' hflag h
  | eval => exact parseEvalCommand_wf ctx c ctx' hflag h

theorem parseFirstCommand_wf (ctx : ParseContext) (c : CommandAST) (ctx' : ParseContext)
    (hflag : ctx.compareExpr = false) (h : parseFirstCommand ctx = some (c, ctx')) :
    WFC c ∧ ctx'.compareExpr = false := by
  unfold parseFirstCommand at h
  split at h
  · next kw heq => exact dispatchCommand_wf kw ctx c ctx' hflag h
  · rw [Option.some.injEq, Prod.mk.injEq] at h
    obtain ⟨h1, h2⟩ := h
    rw [← h1, ← h2]
    refine ⟨?_, bareSearchLoopF_flag _ _ _⟩
    intro f hf
    exact bareSearchLoopF_wf _ _ [] (by intro g hg; simp at hg) f hf

theorem pipelineLoopF_wf :
    ∀ fuel acc ctx cmds ctxf, ctx.compareExpr = false → (∀ c ∈ acc, WFC c) →
      pipelineLoopF fuel acc ctx = some (cmds, ctxf) →
      ∀ c ∈ cmds, WFC c := by
  intro fuel
  induction fuel with
  | zero => intro acc ctx cmds ctxf hflag hacc h; exact Option.noConfusion h
  | succ fuel ih =>
    intro acc ctx cmds ctxf hflag hacc h
    simp only [pipelineLoopF] at h
    split at h
    · rw [Option.some.injEq, Prod.mk.injEq] at h
      obtain ⟨h1, -⟩ := h
      rw [← h1]
      exact hacc
    · next rest heq =>
      split at h
      · exact Option.noConfusion h
      · next kw heq2 =>
        split at h
        · exact Option.noConfusion h
        · next c2 ctx2 heq3 =>
          obtain ⟨hc2, hf2⟩ := dispatchCommand_wf kw { ctx with rest := rest } c2 ctx2 hflag heq3
          apply ih (acc ++ [c2]) ctx2 cmds ctxf hf2 ?_ h
          intro g hg
          rw [List.mem_append] at hg
          rcases hg with hg | hg
          · exact hacc g hg
          · simp at hg
            subst hg
            exact hc2
    · exact Option.noConfusion h

/-- Every command in a successfully parsed query is well-formed, and the
pipeline is nonempty. -/
theorem parseQuery_wf (s : String) (q : QueryAST) (h : parseQuery s = some q) :
    (∀ c ∈ q.pipeline, WFC c) ∧ q.pipeline ≠ [] := by
  unfold parseQuery at h
  split at h
  · exact Option.noConfusion h
  · next c ctx1 heq1 =>
    split at h
    · exact Option.noConfusion h
    · next cmds ctx2 heq2 =>
      rw [Option.some.injEq] at h
      obtain ⟨hc, hf1⟩ := parseFirstCommand_wf _ c ctx1 rfl heq1
      have hall := pipelineLoopF_wf _ [c] ctx1 cmds ctx2 hf1
        (by intro g hg; simp at hg; subst hg; exact hc) heq2
      obtain ⟨tail, htail⟩ := pipelineLoopF_append _ [c] ctx1 cmds ctx2 heq2
      rw [← h]
      constructor
      · intro g hg
        exact hall g hg
      · show cmds ≠ []
        rw [htail]
        simp

/-! ## Reassembly: commands and pipelines reparse from their serialization -/

theorem PipeTail_StopText (cs : List Char) (h : PipeTail cs) : StopText cs := by
  obtain ⟨-, h2⟩ := h
  unfold StopText
  cases hws : skipWs cs with
  | nil => trivial
  | cons c t =>
    rw [hws] at h2
    rw [h2]
    exact Or.inr (Or.inr (Or.inl rfl))

theorem PipeTail_SeamText (cs : List Char) (h : PipeTail cs) : SeamText cs := by
  obtain ⟨-, h2⟩ := h
  unfold SeamText
  cases hws : skipWs cs with
  | nil => trivial
  | cons c t =>
    rw [hws] at h2
    rw [h2]
    exact Or.inr (Or.inl rfl)

theorem fmtTail_PipeTail : ∀ cmds : List CommandAST, PipeTail (fmtTail cmds) := by
  intro cmds
  cases cmds with
  | nil => exact ⟨trivial, trivial⟩
  | cons c cs =>
    constructor
    · exact headNotBare_space _
    · show match skipWs (' ' :: ('|' :: (' ' :: (fmtCommand c ++ fmtTail cs)))) with
        | [] => True
        | c :: _ => c = '|'
      rw [skipWs_space, skipWs_cons_of '|' _ (by decide)]

theorem skipWs_fmtTail_cons (c : CommandAST) (cs : List CommandAST) :
    skipWs (fmtTail (c :: cs)) = '|' :: (' ' :: (fmtCommand c ++ fmtTail cs)) := by
  show skipWs (' ' :: ('|' :: (' ' :: (fmtCommand c ++ fmtTail cs)))) = _
  rw [skipWs_space, skipWs_cons_of '|' _ (by decide)]

theorem StopText_skipWs (cs : List Char) (h : StopText cs) : StopText (skipWs cs) := by
  unfold StopText at h ⊢
  rw [skipWs_idem]
  exact h

/-- The filter loop at expression-stopping text collects nothing. -/
theorem bareSearchLoop_stop (fuel : Nat) (cs : List Char) (b : Bool)
    (acc : List ExpressionAST) (hstop : StopText cs) :
    bareSearchLoopF fuel ⟨cs, b⟩ acc = (acc, ⟨skipWs cs, false⟩) := by
  cases fuel with
  | zero => simp [bareSearchLoopF, parseWs]
  | succ fuel =>
    have hnone : parseExpr ⟨skipWs cs, true⟩ = none :=
      parseExprF_stop (skipWs cs) true (StopText_skipWs cs hstop) _
    simp only [bareSearchLoopF, parseWs, hnone]

theorem fmtExpr_length_pos (e : ExpressionAST) : 1 ≤ (fmtExpr e).length := by
  rw [fmtExpr_eq]
  simp

theorem fmtFilters_length : ∀ fs : List ExpressionAST, fs.length ≤ (fmtFilters fs).length := by
  intro fs
  induction fs with
  | nil => simp [fmtFilters]
  | cons f fs' ih =>
    cases fs' with
    | nil =>
      show 1 ≤ (fmtExpr f).length
      exact fmtExpr_length_pos f
    | cons g gs =>
      show (f :: g :: gs).length ≤ (fmtExpr f ++ ' ' :: fmtFilters (g :: gs)).length
      have h1 := fmtExpr_length_pos f
      simp only [List.length_append, List.length_cons] at ih ⊢
      omega

theorem fmtFilters_cons_head (g : ExpressionAST) (gs : List ExpressionAST) :
    ∃ t, fmtFilters (g :: gs) = '(' :: t := by
  cases gs with
  | nil => exact ⟨_, rfl⟩
  | cons g2 gs2 => exact ⟨_, rfl⟩

theorem skipWs_filters (g : ExpressionAST) (gs : List ExpressionAST) (TAIL : List Char) :
    skipWs (fmtFilters (g :: gs) ++ TAIL) = fmtFilters (g :: gs) ++ TAIL := by
  obtain ⟨t, ht⟩ := fmtFilters_cons_head g gs
  rw [ht]
  exact skipWs_bare_head '(' t TAIL (by decide)

theorem SeamText_filters (g : ExpressionAST) (gs : List ExpressionAST) (TAIL : List Char) :
    SeamText (' ' :: (fmtFilters (g :: gs) ++ TAIL)) := by
  unfold SeamText
  rw [skipWs_space, skipWs_filters]
  obtain ⟨t, ht⟩ := fmtFilters_cons_head g gs
  rw [ht, List.cons_append]
  exact Or.inr (Or.inr (Or.inr rfl))

/-- The filter loop collects exactly the serialized filter list. -/
theorem bareSearchLoop_fmt :
    ∀ fs : List ExpressionAST, fs ≠ [] → (∀ f ∈ fs, WFE true f) →
      ∀ TAIL, PipeTail TAIL → ∀ acc fuel cs b, fs.length ≤ fuel →
        skipWs cs = fmtFilters fs ++ TAIL →
        bareSearchLoopF fuel ⟨cs, b⟩ acc = (acc ++ fs, ⟨skipWs TAIL, false⟩) := by
  intro fs
  induction fs with
  | nil => intro h; exact absurd rfl h
  | cons f fs' ih =>
    intro hne2 hwf TAIL hpt acc fuel cs b hfuel hcs
    obtain ⟨h, rfl⟩ : ∃ h, fuel = h + 1 := ⟨fuel - 1, by simp at hfuel; omega⟩
    cases fs' with
    | nil =>
      have hpe : parseExpr ⟨skipWs cs, true⟩ = some (f, ⟨TAIL, true⟩) := by
        rw [hcs]
        exact parseExpr_fmt true f (hwf f (by simp)) TAIL (PipeTail_SeamText TAIL hpt)
      simp only [bareSearchLoopF, parseWs, hpe]
      rw [bareSearchLoop_stop h TAIL false (acc ++ [f]) (PipeTail_StopText TAIL hpt)]
    | cons g gs =>
      have hsplit : fmtFilters (f :: g :: gs) ++ TAIL =
          fmtExpr f ++ (' ' :: (fmtFilters (g :: gs) ++ TAIL)) := by
        show (fmtExpr f ++ ' ' :: fmtFilters (g :: gs)) ++ TAIL = _
        simp only [List.append_assoc, List.cons_append]
      have hpe : parseExpr ⟨skipWs cs, true⟩ =
          some (f, ⟨' ' :: (fmtFilters (g :: gs) ++ TAIL), true⟩) := by
        rw [hcs, hsplit]
        exact parseExpr_fmt true f (hwf f (by simp)) _ (SeamText_filters g gs TAIL)
      have hcs2 : skipWs (' ' :: (fmtFilters (g :: gs) ++ TAIL)) =
          fmtFilters (g :: gs) ++ TAIL := by
        rw [skipWs_space, skipWs_filters]
      simp only [bareSearchLoopF, parseWs, hpe]
      rw [ih (by simp) (fun x hx => hwf x (by simp [hx])) TAIL hpt (acc ++ [f]) h _ false
        (by simp at hfuel ⊢; omega) hcs2]
      simp

theorem parseBareSearch_stop (cs : List Char) (b : Bool) (h : StopText cs) :
    parseBareSearch ⟨cs, b⟩ = (⟨[]⟩, ⟨skipWs cs, false⟩) := by
  unfold parseBareSearch
  rw [bareSearchLoop_stop _ cs b [] h]

theorem parseBareSearch_fmt (fs : List ExpressionAST) (hne : fs ≠ [])
    (hwf : ∀ f ∈ fs, WFE true f) (TAIL : List Char) (hpt : PipeTail TAIL)
    (cs : List Char) (hcs : skipWs cs = fmtFilters fs ++ TAIL) (b : Bool) :
    parseBareSearch ⟨cs, b⟩ = (⟨fs⟩, ⟨skipWs TAIL, false⟩) := by
  unfold parseBareSearch
  have hfuel : fs.length ≤ cs.length + 1 := by
    have h1 := fmtFilters_length fs
    have h2 : (fmtFilters fs ++ TAIL).length = (skipWs cs).length := by rw [hcs]
    have h3 := skipWs_length cs
    simp only [List.length_append] at h2
    omega
  rw [bareSearchLoop_fmt fs hne hwf TAIL hpt [] (cs.length + 1) cs b hfuel hcs]
  simp

theorem peek_of_search (cs sfx : List Char)
    (hcs : skipWs cs = ['s', 'e', 'a', 'r', 'c', 'h'] ++ sfx) (h : headNotBare sfx) :
    peekCommandKeyword cs = some CommandKeyword.search := by
  unfold peekCommandKeyword
  rw [hcs, matchWord_self _ sfx h]
  rfl

theorem peek_of_where (cs sfx : List Char)
    (hcs : skipWs cs = ['w', 'h', 'e', 'r', 'e'] ++ sfx) (h : headNotBare sfx) :
    peekCommandKeyword cs = some CommandKeyword.whereK := by
  unfold peekCommandKeyword
  rw [hcs,
    show matchWord ['s', 'e', 'a', 'r', 'c', 'h'] (['w', 'h', 'e', 'r', 'e'] ++ sfx) =
      none from rfl,
    matchWord_self _ sfx h]
  rfl

theorem peek_of_stats (cs sfx : List Char)
    (hcs : skipWs cs = ['s', 't', 'a', 't', 's'] ++ sfx) (h : headNotBare sfx) :
    peekCommandKeyword cs = some CommandKeyword.stats := by
  unfold peekCommandKeyword
  rw [hcs,
    show matchWord ['s', 'e', 'a', 'r', 'c', 'h'] (['s', 't', 'a', 't', 's'] ++ sfx) =
      none from rfl,
    show matchWord ['w', 'h', 'e', 'r', 'e'] (['s', 't', 'a', 't', 's'] ++ sfx) =
      none from rfl,
    matchWord_self _ sfx h]
  rfl

theorem peek_of_eval (cs sfx : List Char)
    (hcs : skipWs cs = ['e', 'v', 'a', 'l'] ++ sfx) (h : headNotBare sfx) :
    peekCommandKeyword cs = some CommandKeyword.eval := by
  unfold peekCommandKeyword
  rw [hcs,
    show matchWord ['s', 'e', 'a', 'r', 'c', 'h'] (['e', 'v', 'a', 'l'] ++ sfx) =
      none from rfl,
    show matchWord ['w', 'h', 'e', 'r', 'e'] (['e', 'v', 'a', 'l'] ++ sfx) =
      none from rfl,
    show matchWord ['s', 't', 'a', 't', 's'] (['e', 'v', 'a', 'l'] ++ sfx) =
      none from rfl,
    matchWord_self _ sfx h]
  rfl

/-- The `search` command reparses from its serialization. -/
theorem parseSearchCommand_fmt (fs : List ExpressionAST) (hwf : ∀ f ∈ fs, WFE true f)
    (TAIL : List Char) (hpt : PipeTail TAIL) (cs : List Char)
    (hcs : skipWs cs = fmtCommand (.search fs) ++ TAIL) :
    parseSearchCommand ⟨cs, false⟩ = some (⟨fs⟩, ⟨skipWs TAIL, false⟩) := by
  have hcs2 : skipWs cs = ['s', 'e', 'a', 'r', 'c', 'h'] ++ (' ' :: (fmtFilters fs ++ TAIL)) := by
    rw [hcs]
    show (['s', 'e', 'a', 'r', 'c', 'h'] ++ ' ' :: fmtFilters fs) ++ TAIL = _
    simp only [List.append_assoc, List.cons_append]
  have hm := matchWord_self ['s', 'e', 'a', 'r', 'c', 'h'] (' ' :: (fmtFilters fs ++ TAIL))
    (headNotBare_space _)
  simp only [parseSearchCommand, hcs2, hm, parseWs]
  cases fs with
  | nil =>
    show some (parseBareSearch ⟨skipWs (' ' :: ([] ++ TAIL)), false⟩) = _
    rw [skipWs_space, List.nil_append,
      parseBareSearch_stop (skipWs TAIL) false (StopText_skipWs TAIL (PipeTail_StopText TAIL hpt)),
      skipWs_idem]
  | cons g gs =>
    show some (parseBareSearch ⟨skipWs (' ' :: (fmtFilters (g :: gs) ++ TAIL)), false⟩) = _
    rw [skipWs_space, skipWs_filters,
      parseBareSearch_fmt (g :: gs) (by simp) hwf TAIL hpt _ (skipWs_filters g gs TAIL) false]

/-- The `where` command reparses from its serialization. -/
theorem parseWhereCommand_fmt (e : ExpressionAST) (hwf : WFE false e)
    (TAIL : List Char) (hpt : PipeTail TAIL) (cs : List Char)
    (hcs : skipWs cs = fmtCommand (.whereC e) ++ TAIL) :
    parseWhereCommand ⟨cs, false⟩ = some (.whereC e, ⟨TAIL, false⟩) := by
  have hcs2 : skipWs cs = ['w', 'h', 'e', 'r', 'e'] ++ (' ' :: (fmtExpr e ++ TAIL)) := by
    rw [hcs]
    show (['w', 'h', 'e', 'r', 'e'] ++ ' ' :: fmtExpr e) ++ TAIL = _
    simp only [List.append_assoc, List.cons_append]
  have hm := matchWord_self ['w', 'h', 'e', 'r', 'e'] (' ' :: (fmtExpr e ++ TAIL))
    (headNotBare_space _)
  have hpe : parseExpr ⟨' ' :: (fmtExpr e ++ TAIL), false⟩ = some (e, ⟨TAIL, false⟩) := by
    show parseExprF ((' ' :: (fmtExpr e ++ TAIL)).length + 1)
      ⟨' ' :: (fmtExpr e ++ TAIL), false⟩ = _
    rw [parseExprF_space]
    exact fmtTop false e hwf TAIL _ (PipeTail_SeamText TAIL hpt)
      (by simp only [List.length_cons]; omega)
  simp only [parseWhereCommand, hcs2, hm, hpe]

/-- The `stats` command reparses from its serialization. -/
theorem parseStatsCommand_fmt (TAIL : List Char) (hpt : PipeTail TAIL) (cs : List Char)
    (hcs : skipWs cs = fmtCommand (.stats []) ++ TAIL) :
    parseStatsCommand ⟨cs, false⟩ = some (.stats [], ⟨TAIL, false⟩) := by
  have hcs2 : skipWs cs = ['s', 't', 'a', 't', 's'] ++ TAIL := hcs
  have hm := matchWord_self ['s', 't', 'a', 't', 's'] TAIL hpt.1
  simp only [parseStatsCommand, hcs2, hm]

theorem evalSep_SeamText (bs : List (String × ExpressionAST)) (TAIL : List Char)
    (hpt : PipeTail TAIL) : SeamText (evalSep bs TAIL) := by
  cases bs with
  | nil => exact PipeTail_SeamText TAIL hpt
  | cons b bs' =>
    unfold SeamText
    rw [show evalSep (b :: bs') TAIL = ',' :: ' ' :: (fmtBindings (b :: bs') ++ TAIL) from rfl,
      skipWs_cons_of ',' _ (by decide)]
    exact Or.inr (Or.inr (Or.inl rfl))

theorem fmtBindings_length : ∀ bs : List (String × ExpressionAST),
    bs.length ≤ (fmtBindings bs).length := by
  intro bs
  induction bs with
  | nil => simp [fmtBindings]
  | cons b bs' ih =>
    obtain ⟨n, e⟩ := b
    cases bs' with
    | nil =>
      show 1 ≤ (n.data ++ ' ' :: '=' :: ' ' :: fmtExpr e).length
      simp only [List.length_append, List.length_cons]
      omega
    | cons b2 bs2 =>
      show ((n, e) :: b2 :: bs2 : List _).length ≤
        (n.data ++ ' ' :: '=' :: ' ' :: fmtExpr e ++ ',' :: ' ' :: fmtBindings (b2 :: bs2)).length
      simp only [List.length_append, List.length_cons] at ih ⊢
      omega

/-- One eval binding reparses from its serialization. -/
theorem parseEvalBinding_fmt (n : String) (e : ExpressionAST)
    (hn1 : n.data ≠ []) (hn2 : ∀ c ∈ n.data, isBareChar c) (hwf : WFE false e)
    (TAIL2 : List Char) (hseam : SeamText TAIL2) (cs : List Char)
    (hcs : skipWs cs = n.data ++ (' ' :: '=' :: ' ' :: (fmtExpr e ++ TAIL2))) :
    parseEvalBinding ⟨cs, false⟩ = some ((n, e), ⟨TAIL2, false⟩) := by
  cases hv : n.data with
  | nil => exact absurd hv hn1
  | cons d ds =>
    have hlb : lexBare (skipWs cs) =
        some (n, ' ' :: '=' :: ' ' :: (fmtExpr e ++ TAIL2)) := by
      rw [hcs, hv]
      have hx := lexBare_exact d ds (' ' :: '=' :: ' ' :: (fmtExpr e ++ TAIL2))
        (by rw [← hv]; exact hn2) (headNotBare_space _)
      rw [hx, ← hv]
    have hws2 : skipWs (' ' :: '=' :: ' ' :: (fmtExpr e ++ TAIL2)) =
        '=' :: (' ' :: (fmtExpr e ++ TAIL2)) := by
      rw [skipWs_space]
      exact skipWs_cons_of '=' _ (by decide)
    have hpe : parseExpr ⟨' ' :: (fmtExpr e ++ TAIL2), false⟩ = some (e, ⟨TAIL2, false⟩) := by
      show parseExprF ((' ' :: (fmtExpr e ++ TAIL2)).length + 1)
        ⟨' ' :: (fmtExpr e ++ TAIL2), false⟩ = _
      rw [parseExprF_space]
      exact fmtTop false e hwf TAIL2 _ hseam (by simp only [List.length_cons]; omega)
    simp only [parseEvalBinding, hlb, hws2, hpe]

theorem fmtBindings_split (n : String) (e : ExpressionAST)
    (bs' : List (String × ExpressionAST)) (TAIL : List Char) :
    fmtBindings ((n, e) :: bs') ++ TAIL =
      n.data ++ (' ' :: '=' :: ' ' :: (fmtExpr e ++ evalSep bs' TAIL)) := by
  cases bs' with
  | nil =>
    show (n.data ++ ' ' :: '=' :: ' ' :: fmtExpr e) ++ TAIL = _
    rw [List.append_assoc]
    simp only [List.cons_append]
    rfl
  | cons b2 bs2 =>
    show (n.data ++ ' ' :: '=' :: ' ' :: fmtExpr e ++ ',' :: ' ' :: fmtBindings (b2 :: bs2)) ++
      TAIL = _
    simp only [List.append_assoc, List.cons_append]
    rfl

/-- The first serialized binding after a space reparses, leaving the
separator before the remaining bindings. -/
theorem firstBinding_fmt (n : String) (e : ExpressionAST)
    (bs' : List (String × ExpressionAST)) (TAIL : List Char)
    (hb : WFB (n, e)) (hpt : PipeTail TAIL) :
    parseEvalBinding ⟨' ' :: (fmtBindings ((n, e) :: bs') ++ TAIL), false⟩ =
      some ((n, e), ⟨evalSep bs' TAIL, false⟩) := by
  have hwsB : skipWs (fmtBindings ((n, e) :: bs') ++ TAIL) =
      fmtBindings ((n, e) :: bs') ++ TAIL := by
    rw [fmtBindings_split]
    cases hv : n.data with
    | nil => exact absurd hv hb.1.1
    | cons d ds =>
      exact skipWs_bare_head d ds _
        ((isBareChar_ne d (hb.1.2 d (by rw [hv]; simp))).1)
  apply parseEvalBinding_fmt n e hb.1.1 hb.1.2 hb.2 (evalSep bs' TAIL)
    (evalSep_SeamText bs' TAIL hpt)
  rw [skipWs_space, hwsB, fmtBindings_split]

/-- The binding loop collects exactly the remaining serialized bindings. -/
theorem evalLoop_fmt :
    ∀ bs : List (String × ExpressionAST), (∀ b ∈ bs, WFB b) → ∀ TAIL, PipeTail TAIL →
      ∀ acc fuel, bs.length < fuel →
        evalBindingsLoopF fuel acc ⟨evalSep bs TAIL, false⟩ =
          some (acc ++ bs, ⟨TAIL, false⟩) := by
  intro bs
  induction bs with
  | nil =>
    intro hwf TAIL hpt acc fuel hfuel
    obtain ⟨h, rfl⟩ : ∃ h, fuel = h + 1 := ⟨fuel - 1, by omega⟩
    show evalBindingsLoopF (h + 1) acc ⟨TAIL, false⟩ = some (acc ++ [], ⟨TAIL, false⟩)
    simp only [evalBindingsLoopF]
    obtain ⟨-, h2⟩ := hpt
    split
    · next rest heq =>
      exfalso
      rw [heq] at h2
      have h3 : (',' : Char) = '|' := h2
      exact absurd h3 (by decide)
    · simp
  | cons b bs' ih =>
    intro hwf TAIL hpt acc fuel hfuel
    obtain ⟨h, rfl⟩ : ∃ h, fuel = h + 1 := ⟨fuel - 1, by omega⟩
    obtain ⟨n, e⟩ := b
    have hb := hwf (n, e) (by simp)
    have hpb := firstBinding_fmt n e bs' TAIL hb hpt
    have hws0 : skipWs (',' :: ' ' :: (fmtBindings ((n, e) :: bs') ++ TAIL)) =
        ',' :: (' ' :: (fmtBindings ((n, e) :: bs') ++ TAIL)) :=
      skipWs_cons_of ',' _ (by decide)
    show evalBindingsLoopF (h + 1) acc
      ⟨',' :: ' ' :: (fmtBindings ((n, e) :: bs') ++ TAIL), false⟩ = _
    simp only [evalBindingsLoopF, hws0, hpb]
    rw [ih (fun x hx => hwf x (by simp [hx])) TAIL hpt (acc ++ [(n, e)]) h
      (by simp at hfuel ⊢; omega)]
    simp

/-- The `eval` command reparses from its serialization. -/
theorem parseEvalCommand_fmt (bs : List (String × ExpressionAST)) (hne : bs ≠ [])
    (hwfb : ∀ b ∈ bs, WFB b) (TAIL : List Char) (hpt : PipeTail TAIL) (cs : List Char)
    (hcs : skipWs cs = fmtCommand (.eval bs) ++ TAIL) :
    parseEvalCommand ⟨cs, false⟩ = some (.eval bs, ⟨TAIL, false⟩) := by
  cases bs with
  | nil => exact absurd rfl hne
  | cons b bs' =>
    obtain ⟨n, e⟩ := b
    have hb := hwfb (n, e) (by simp)
    have hcs2 : skipWs cs =
        ['e', 'v', 'a', 'l'] ++ (' ' :: (fmtBindings ((n, e) :: bs') ++ TAIL)) := by
      rw [hcs]
      show (['e', 'v', 'a', 'l'] ++ ' ' :: fmtBindings ((n, e) :: bs')) ++ TAIL = _
      simp only [List.append_assoc, List.cons_append]
    have hm := matchWord_self ['e', 'v', 'a', 'l']
      (' ' :: (fmtBindings ((n, e) :: bs') ++ TAIL)) (headNotBare_space _)
    have hpb := firstBinding_fmt n e bs' TAIL hb hpt
    have hfuel : bs'.length < (evalSep bs' TAIL).length + 1 := by
      cases bs' with
      | nil => simp
      | cons b2 bs2 =>
        have hlen := fmtBindings_length (b2 :: bs2)
        show (b2 :: bs2).length < (',' :: ' ' :: (fmtBindings (b2 :: bs2) ++ TAIL)).length + 1
        simp only [List.length_cons, List.length_append] at hlen ⊢
        omega
    have hloop := evalLoop_fmt bs' (fun x hx => hwfb x (by simp [hx])) TAIL hpt
      [(n, e)] ((evalSep bs' TAIL).length + 1) hfuel
    simp only [parseEvalCommand, hcs2, hm, hpb, hloop]
    simp

/-- A serialized well-formed command is recognized by the keyword peek
and reparses exactly, leaving (up to whitespace) the serialized rest of
the pipeline. -/
theorem dispatch_fmt (c : CommandAST) (hwfc : WFC c) (TAIL : List Char)
    (hpt : PipeTail TAIL) (cs : List Char) (hcs : skipWs cs = fmtCommand c ++ TAIL) :
    peekCommandKeyword cs = some (kwOf c) ∧
    ∃ rest2, dispatchCommand (kwOf c) ⟨cs, false⟩ = some (c, ⟨rest2, false⟩) ∧
      skipWs rest2 = skipWs TAIL := by
  cases c with
  | search fs =>
    have hcs2 : skipWs cs =
        ['s', 'e', 'a', 'r', 'c', 'h'] ++ (' ' :: (fmtFilters fs ++ TAIL)) := by
      rw [hcs]
      show (['s', 'e', 'a', 'r', 'c', 'h'] ++ ' ' :: fmtFilters fs) ++ TAIL = _
      simp only [List.append_assoc, List.cons_append]
    refine ⟨peek_of_search cs _ hcs2 (headNotBare_space _), skipWs TAIL, ?_, skipWs_idem TAIL⟩
    have hsc := parseSearchCommand_fmt fs hwfc TAIL hpt cs hcs
    show dispatchCommand CommandKeyword.search ⟨cs, false⟩ = _
    simp only [dispatchCommand, hsc]
  | whereC e =>
    have hcs2 : skipWs cs = ['w', 'h', 'e', 'r', 'e'] ++ (' ' :: (fmtExpr e ++ TAIL)) := by
      rw [hcs]
      show (['w', 'h', 'e', 'r', 'e'] ++ ' ' :: fmtExpr e) ++ TAIL = _
      simp only [List.append_assoc, List.cons_append]
    exact ⟨peek_of_where cs _ hcs2 (headNotBare_space _), TAIL,
      parseWhereCommand_fmt e hwfc TAIL hpt cs hcs, rfl⟩
  | stats aggs =>
    have ha : aggs = [] := hwfc
    subst ha
    have hcs2 : skipWs cs = ['s', 't', 'a', 't', 's'] ++ TAIL := hcs
    exact ⟨peek_of_stats cs _ hcs2 hpt.1, TAIL,
      parseStatsCommand_fmt TAIL hpt cs hcs, rfl⟩
  | eval bs =>
    obtain ⟨hne, hall⟩ := hwfc
    have hcs2 : skipWs cs = ['e', 'v', 'a', 'l'] ++ (' ' :: (fmtBindings bs ++ TAIL)) := by
      rw [hcs]
      show (['e', 'v', 'a', 'l'] ++ ' ' :: fmtBindings bs) ++ TAIL = _
      simp only [List.append_assoc, List.cons_append]
    exact ⟨peek_of_eval cs _ hcs2 (headNotBare_space _), TAIL,
      parseEvalCommand_fmt bs hne (fun b hb => hall b hb) TAIL hpt cs hcs, rfl⟩

theorem fmtCommand_head (c : CommandAST) :
    ∃ k t, fmtCommand c = k :: t ∧ isWsChar k = false := by
  cases c with
  | search fs => exact ⟨'s', _, rfl, by decide⟩
  | whereC e => exact ⟨'w', _, rfl, by decide⟩
  | stats a => exact ⟨'s', _, rfl, by decide⟩
  | eval bs => exact ⟨'e', _, rfl, by decide⟩

theorem fmtTail_length : ∀ cs : List CommandAST, cs.length ≤ (fmtTail cs).length := by
  intro cs
  induction cs with
  | nil => simp [fmtTail]
  | cons c cs' ih =>
    show (c :: cs').length ≤ (' ' :: '|' :: ' ' :: fmtCommand c ++ fmtTail cs').length
    simp only [List.length_cons, List.length_append] at ih ⊢
    omega

theorem fmtTail_skip_length : ∀ cs : List CommandAST,
    cs.length ≤ (skipWs (fmtTail cs)).length := by
  intro cs
  cases cs with
  | nil => simp [fmtTail, skipWs]
  | cons c cs' =>
    rw [skipWs_fmtTail_cons]
    have hlen := fmtTail_length cs'
    simp only [List.length_cons, List.length_append]
    omega

/-- The pipeline loop collects exactly the serialized remaining
commands. -/
theorem pipelineLoop_fmt :
    ∀ cmds : List CommandAST, (∀ c ∈ cmds, WFC c) → ∀ acc fuel cs,
      cmds.length < fuel → skipWs cs = skipWs (fmtTail cmds) →
      ∃ ctxf, pipelineLoopF fuel acc ⟨cs, false⟩ = some (acc ++ cmds, ctxf) := by
  intro cmds
  induction cmds with
  | nil =>
    intro hwf acc fuel cs hfuel hcs
    obtain ⟨h, rfl⟩ : ∃ h, fuel = h + 1 := ⟨fuel - 1, by omega⟩
    have hcs2 : skipWs cs = [] := by rw [hcs]; rfl
    refine ⟨{ rest := ([] : List Char), compareExpr := false }, ?_⟩
    simp only [pipelineLoopF, hcs2]
    simp
  | cons c cs' ih =>
    intro hwf acc fuel cs hfuel hcs
    obtain ⟨h, rfl⟩ : ∃ h, fuel = h + 1 := ⟨fuel - 1, by omega⟩
    have hcs2 : skipWs cs = '|' :: (' ' :: (fmtCommand c ++ fmtTail cs')) := by
      rw [hcs, skipWs_fmtTail_cons]
    have hwsR : skipWs (' ' :: (fmtCommand c ++ fmtTail cs')) =
        fmtCommand c ++ fmtTail cs' := by
      rw [skipWs_space]
      obtain ⟨k, t, hk, hkws⟩ := fmtCommand_head c
      rw [hk]
      exact skipWs_bare_head k t _ hkws
    obtain ⟨hpeek, rest2, hdisp, hskip2⟩ := dispatch_fmt c (hwf c (by simp)) (fmtTail cs')
      (fmtTail_PipeTail cs') (' ' :: (fmtCommand c ++ fmtTail cs')) hwsR
    obtain ⟨ctxf, hrec⟩ := ih (fun x hx => hwf x (by simp [hx])) (acc ++ [c]) h rest2
      (by simp at hfuel ⊢; omega) hskip2
    refine ⟨ctxf, ?_⟩
    simp only [pipelineLoopF, hcs2, hpeek, hdisp, hrec]
    simp

/-- A query whose commands are all well-formed reparses exactly from its
serialization. -/
theorem parseQuery_roundtrip (q : QueryAST) (hwfall : ∀ c ∈ q.pipeline, WFC c)
    (hne : q.pipeline ≠ []) : parseQuery (fmtQuery q) = some q := by
  obtain ⟨pipe⟩ := q
  cases pipe with
  | nil => exact absurd rfl hne
  | cons c cs' =>
    show parseQuery ⟨fmtCommand c ++ fmtTail cs'⟩ = some ⟨c :: cs'⟩
    have hws0 : skipWs (fmtCommand c ++ fmtTail cs') = fmtCommand c ++ fmtTail cs' := by
      obtain ⟨k, t, hk, hkws⟩ := fmtCommand_head c
      rw [hk]
      exact skipWs_bare_head k t _ hkws
    obtain ⟨hpeek, rest2, hdisp, hskip2⟩ := dispatch_fmt c (hwfall c (by simp)) (fmtTail cs')
      (fmtTail_PipeTail cs') (fmtCommand c ++ fmtTail cs') hws0
    have hfirst : parseFirstCommand ⟨fmtCommand c ++ fmtTail cs', false⟩ =
        some (c, ⟨rest2, false⟩) := by
      simp only [parseFirstCommand, hpeek, hdisp]
    have hfuel : cs'.length < rest2.length + 1 := by
      have h1 := fmtTail_skip_length cs'
      have h2 : (skipWs rest2).length = (skipWs (fmtTail cs')).length := by rw [hskip2]
      have h3 := skipWs_length rest2
      omega
    obtain ⟨ctxf, hloop⟩ := pipelineLoop_fmt cs' (fun x hx => hwfall x (by simp [hx]))
      [c] (rest2.length + 1) rest2 hfuel hskip2
    simp only [parseQuery, String.toList, hfirst, hloop]
    simp

/-- C1: parsing `search a=1 and b=2 or c=3` succeeds and returns a Search
command whose filter list has exactly five entries in order — a
Comparison `=` of bare-string "a" and number 1, the bare-string "and", a
Comparison `=` of bare-string "b" and number 2, the bare-string "or", and
a Comparison `=` of bare-string "c" and number 3; the lowercase connector
words are not combined into a logical tree. -/
theorem claim_C1 :
    parseQuery "search a=1 and b=2 or c=3" =
      some ⟨[CommandAST.search
        [ExpressionAST.cmp CompOp.ceq (ExpressionAST.str false "a") (ExpressionAST.num 1),
         ExpressionAST.str false "and",
         ExpressionAST.cmp CompOp.ceq (ExpressionAST.str false "b") (ExpressionAST.num 2),
         ExpressionAST.str false "or",
         ExpressionAST.cmp CompOp.ceq (ExpressionAST.str false "c") (ExpressionAST.num 3)]]⟩ := by
  rfl

/-- C3: parsing `search a=1 AND b=2 OR NOT c=3` succeeds and returns a
Search command with exactly one filter entry, the tree
OR(AND(a=1, b=2), NOT(c=3)) with uppercase-tagged operator nodes: NOT
binds tighter than AND, and AND binds tighter than OR. -/
theorem claim_C3 :
    parseQuery "search a=1 AND b=2 OR NOT c=3" =
      some ⟨[CommandAST.search
        [ExpressionAST.OR
          (ExpressionAST.AND
            (ExpressionAST.cmp CompOp.ceq (ExpressionAST.str false "a") (ExpressionAST.num 1))
            (ExpressionAST.cmp CompOp.ceq (ExpressionAST.str false "b") (ExpressionAST.num 2)))
          (ExpressionAST.NOT
            (ExpressionAST.cmp CompOp.ceq (ExpressionAST.str false "c") (ExpressionAST.num 3)))]]⟩ := by
  rfl

/-- C5: every decimal digit run lexed as a number becomes an exact
arbitrary-precision integer — the positional decimal value of the digit
run, with no precision loss — and in particular parsing `where 123`
yields a Where command whose expression is a Number node holding the
integer 123. -/
theorem claim_C5 :
    parseQuery "where 123" = some ⟨[CommandAST.whereC (ExpressionAST.num 123)]⟩ ∧
    ∀ cs n rest, lexNumber cs = some (n, rest) →
      ∃ ds, ds ≠ [] ∧ (∀ c ∈ ds, c.isDigit) ∧ cs = ds ++ rest ∧
        n = (decimalValue ds : Nat) :=
  ⟨rfl, lexNumber_spec⟩

/-- Witness for C5 at the concrete input `45x`: the lexer consumes the
digit run `45` and produces exactly the integer 45. -/
theorem claim_C5_witness :
    ∃ ds, ds ≠ [] ∧ (∀ c ∈ ds, c.isDigit) ∧ "45x".toList = ds ++ ['x'] ∧
      (45 : Int) = (decimalValue ds : Nat) :=
  claim_C5.2 "45x".toList 45 ['x'] (by rfl)

/-- C7: parsing `eval result = a=1 and b=2 or not c=3` succeeds and
returns an Eval command whose first binding pairs the name "result" with
the expression or(and(a=1, b=2), not(c=3)) built from the
lowercase-tagged operator variants; and the ordered binding list
preserves insertion order, as shown by a two-binding eval. -/
theorem claim_C7 :
    parseQuery "eval result = a=1 and b=2 or not c=3" =
      some ⟨[CommandAST.eval
        [("result",
          ExpressionAST.orL
            (ExpressionAST.andL
              (ExpressionAST.cmp CompOp.ceq (ExpressionAST.str false "a") (ExpressionAST.num 1))
              (ExpressionAST.cmp CompOp.ceq (ExpressionAST.str false "b") (ExpressionAST.num 2)))
            (ExpressionAST.notL
              (ExpressionAST.cmp CompOp.ceq (ExpressionAST.str false "c") (ExpressionAST.num 3))))]]⟩ ∧
    parseQuery "eval x = 1, y = 2" =
      some ⟨[CommandAST.eval [("x", ExpressionAST.num 1), ("y", ExpressionAST.num 2)]]⟩ :=
  ⟨rfl, rfl⟩

/-- C8: parsing `search a=b | where a<2 | stats` succeeds and returns a
three-command pipeline in textual left-to-right order: a Search command
with one `=` Comparison filter of bare-strings "a" and "b", a Where
command with a `<` Comparison of bare-string "a" and number 2, and a
Stats command with an empty aggregation list. -/
theorem claim_C8 :
    parseQuery "search a=b | where a<2 | stats" =
      some ⟨[CommandAST.search
          [ExpressionAST.cmp CompOp.ceq (ExpressionAST.str false "a") (ExpressionAST.str false "b")],
        CommandAST.whereC
          (ExpressionAST.cmp CompOp.clt (ExpressionAST.str false "a") (ExpressionAST.num 2)),
        CommandAST.stats []]⟩ := by
  rfl

/-- C2 counterexample: inside a search filter-term list the logical
keywords are NOT matched case-insensitively — the lowercase `and` stays a
bare string, so the lowercase and uppercase spellings of the same query
parse to different trees. -/
theorem claim_C2_counterexample :
    parseQuery "search a=1 and b=2" =
      some ⟨[CommandAST.search
        [ExpressionAST.cmp CompOp.ceq (ExpressionAST.str false "a") (ExpressionAST.num 1),
         ExpressionAST.str false "and",
         ExpressionAST.cmp CompOp.ceq (ExpressionAST.str false "b") (ExpressionAST.num 2)]]⟩ ∧
    parseQuery "search a=1 and b=2" ≠ parseQuery "search a=1 AND b=2" := by
  exact ⟨rfl, by decide⟩

/-- C2 (amended): while the context flag marks a search filter-term list
the logical keywords are matched only in their exact uppercase spelling
(producing the uppercase-tagged variants), and in all other expression
positions only in their exact lowercase spelling (producing the
lowercase-tagged variants); matching is case-sensitive in both contexts. -/
theorem claim_C2_amended :
    parseQuery "search a=1 AND b=2" =
      some ⟨[CommandAST.search
        [ExpressionAST.AND
          (ExpressionAST.cmp CompOp.ceq (ExpressionAST.str false "a") (ExpressionAST.num 1))
          (ExpressionAST.cmp CompOp.ceq (ExpressionAST.str false "b") (ExpressionAST.num 2))]]⟩ ∧
    parseQuery "search a=1 and b=2" =
      some ⟨[CommandAST.search
        [ExpressionAST.cmp CompOp.ceq (ExpressionAST.str false "a") (ExpressionAST.num 1),
         ExpressionAST.str false "and",
         ExpressionAST.cmp CompOp.ceq (ExpressionAST.str false "b") (ExpressionAST.num 2)]]⟩ ∧
    parseQuery "search a=1 And b=2" =
      some ⟨[CommandAST.search
        [ExpressionAST.cmp CompOp.ceq (ExpressionAST.str false "a") (ExpressionAST.num 1),
         ExpressionAST.str false "And",
         ExpressionAST.cmp CompOp.ceq (ExpressionAST.str false "b") (ExpressionAST.num 2)]]⟩ ∧
    parseQuery "where a=1 and b=2" =
      some ⟨[CommandAST.whereC
        (ExpressionAST.andL
          (ExpressionAST.cmp CompOp.ceq (ExpressionAST.str false "a") (ExpressionAST.num 1))
          (ExpressionAST.cmp CompOp.ceq (ExpressionAST.str false "b") (ExpressionAST.num 2)))]⟩ ∧
    parseQuery "where a=1 AND b=2" = none :=
  ⟨rfl, rfl, rfl, rfl, rfl⟩

/-- C4: inside the search filter-list loop, an attempt at parsing an
expression that produces no Expression ends the filter list silently with
the filters collected so far, and the failure never escapes: once the
`search` keyword is present the search command always succeeds. -/
theorem claim_C4 :
    (∀ ctx filters fuel,
      parseExpr { parseWs ctx with compareExpr := true } = none →
        bareSearchLoopF (fuel + 1) ctx filters =
          (filters, { parseWs ctx with compareExpr := false })) ∧
    (∀ ctx rest, matchWord ['s', 'e', 'a', 'r', 'c', 'h'] (skipWs ctx.rest) = some rest →
      ∃ cmd ctx', parseSearchCommand ctx = some (cmd, ctx')) := by
  constructor
  · intro ctx filters fuel h
    simp only [bareSearchLoopF, h]
  · intro ctx rest h
    unfold parseSearchCommand
    rw [h]
    exact ⟨_, _, rfl⟩

/-- Witness for C4: at the concrete remainder `)x` the expression attempt
fails and the loop returns the filters collected so far; and the concrete
command text `search )` still yields a search command. -/
theorem claim_C4_witness :
    bareSearchLoopF 1 ⟨")x".toList, false⟩ [ExpressionAST.num 7] =
      ([ExpressionAST.num 7], { parseWs ⟨")x".toList, false⟩ with compareExpr := false }) ∧
    ∃ cmd ctx', parseSearchCommand ⟨"search )".toList, false⟩ = some (cmd, ctx') :=
  ⟨claim_C4.1 ⟨")x".toList, false⟩ [ExpressionAST.num 7] 0 (by rfl),
   claim_C4.2 ⟨"search )".toList, false⟩ [' ', ')'] (by rfl)⟩

/-- C6: whenever `parseQuery` succeeds the returned pipeline is
non-empty, and when the first segment has no recognized leading command
keyword the first pipeline entry is an implicit Search command. -/
theorem claim_C6 :
    ∀ s q, parseQuery s = some q →
      (∃ c cs, q.pipeline = c :: cs) ∧
      (peekCommandKeyword s.toList = none →
        ∃ filters cs, q.pipeline = CommandAST.search filters :: cs) := by
  intro s q h
  unfold parseQuery at h
  split at h
  · simp at h
  · next c ctx' hf =>
    split at h
    · simp at h
    · next cmds ctx'' hl =>
      rw [Option.some.injEq] at h
      obtain ⟨tail, htail⟩ := pipelineLoopF_append _ _ _ _ _ hl
      constructor
      · refine ⟨c, tail, ?_⟩
        rw [← h]
        simp [htail]
      · intro hpk
        unfold parseFirstCommand at hf
        rw [show (⟨s.toList, false⟩ : ParseContext).rest = s.toList from rfl, hpk] at hf
        rw [Option.some.injEq, Prod.mk.injEq] at hf
        obtain ⟨hc, -⟩ := hf
        refine ⟨(parseBareSearch ⟨s.toList, false⟩).1.filters, tail, ?_⟩
        rw [← h]
        simp [htail, ← hc]

/-- Witness for C6 at the concrete input `a=1`: the parse succeeds and
its first pipeline entry is an implicit Search command. -/
theorem claim_C6_witness :
    ∃ filters cs,
      (⟨[CommandAST.search
        [ExpressionAST.cmp CompOp.ceq (ExpressionAST.str false "a")
          (ExpressionAST.num 1)]]⟩ : QueryAST).pipeline =
        CommandAST.search filters :: cs :=
  (claim_C6 "a=1"
    ⟨[CommandAST.search
      [ExpressionAST.cmp CompOp.ceq (ExpressionAST.str false "a") (ExpressionAST.num 1)]]⟩
    (by rfl)).2 (by rfl)

/-- C9: for every input text that parses successfully, re-serializing
the resulting tree with the canonical serializer `fmtQuery` and
re-parsing that string yields a tree structurally identical to the
original — the parse is stable and idempotent on its own canonical
output. -/
theorem claim_C9 (s : String) (q : QueryAST) (h : parseQuery s = some q) :
    parseQuery (fmtQuery q) = some q := by
  obtain ⟨hwfall, hne⟩ := parseQuery_wf s q h
  exact parseQuery_roundtrip q hwfall hne

/-- Witness for C9 at the concrete input `a=1`: the parse succeeds and
its serialization reparses to the identical tree. -/
theorem claim_C9_witness :
    parseQuery "a=1" =
      some ⟨[CommandAST.search
        [ExpressionAST.cmp CompOp.ceq (ExpressionAST.str false "a")
          (ExpressionAST.num 1)]]⟩ ∧
    parseQuery (fmtQuery ⟨[CommandAST.search
        [ExpressionAST.cmp CompOp.ceq (ExpressionAST.str false "a")
          (ExpressionAST.num 1)]]⟩) =
      some ⟨[CommandAST.search
        [ExpressionAST.cmp CompOp.ceq (ExpressionAST.str false "a")
          (ExpressionAST.num 1)]]⟩ :=
  ⟨rfl, claim_C9 "a=1" _ rfl⟩

/-- C10: the search filter loop always returns the parse context with
the `compareExpr` flag false — the flag is set only for the duration of
each single `parseExpr` attempt, is restored on both the succeeding and
the failing path, and its incoming value is irrelevant — and in
particular `parseBareSearch` always hands back a flag-false context. -/
theorem claim_C10 :
    (∀ fuel ctx filters, ((bareSearchLoopF fuel ctx filters).2).compareExpr = false) ∧
    (∀ fuel ctx filters b,
      bareSearchLoopF fuel { ctx with compareExpr := b } filters =
        bareSearchLoopF fuel ctx filters) ∧
    (∀ ctx, ((parseBareSearch ctx).2).compareExpr = false) := by
  refine ⟨bareSearchLoopF_flag, bareSearchLoopF_flag_irrel, ?_⟩
  intro ctx
  unfold parseBareSearch
  exact bareSearchLoopF_flag _ _ _

end Caveql
